import Mathlib

/-!
# A verification development for the `json` header library (`include/json.hpp`)

The value model (`_Base_` and its eight subclasses), the tokenizer
(`JParser::Token`), the number classifier and the recursive-descent parser are
embedded as Lean functions.  Texts (`std::string`) are lists of characters; a
handle (`std::shared_ptr`) is an `Option`, the empty handle being `none`.
-/

namespace json

/-! ## Characters -/

/-- The double quote character (code 34). -/
def cQuote : Char := Char.ofNat 34

/-- The backslash character (code 92). -/
def cBackslash : Char := Char.ofNat 92

/-- The character `std::string::operator[]` yields at index `size()`. -/
def cNul : Char := Char.ofNat 0

/-- The C library `isspace` in the "C" locale: space, `\t`, `\n`, `\v`, `\f`, `\r`. -/
def isspace (c : Char) : Bool :=
  c = ' ' || c = Char.ofNat 9 || c = Char.ofNat 10 || c = Char.ofNat 11
    || c = Char.ofNat 12 || c = Char.ofNat 13

/-- The six one-character tokens tested in `Token::nextToken`. -/
def isStructural (c : Char) : Bool :=
  c = Char.ofNat 123 || c = Char.ofNat 125 || c = ':' || c = ',' || c = '[' || c = ']'

/-- The character `s[i]` of a `std::string`: the stored character, and the terminator at
`i == size()`. -/
def strAt (s : List Char) (i : Nat) : Char := s.getD i cNul

/-! ## The value model -/

/-- The enumeration `JType`. -/
inductive JType where
  | JOBJECT | JARRAY | JSTRING | JINTNUMBER | JUINTNUMBER | JFLOATNUMBER | JBOOL | JNULL
  deriving DecidableEq, Repr

/-- A `double` payload, kept symbolically as the text that `strtod` converted. -/
structure Double where
  strtodOf : List Char
  deriving DecidableEq, Repr

/-- The class hierarchy under `_Base_`; a child handle is an `Option`.
`JObject` lists the entries of `m_elem_` in iteration order. -/
inductive JValue where
  | JObject (m_elem_ : List (List Char × Option JValue))
  | JArray (m_elem_ : List (Option JValue))
  | JString (m_elem_ : List Char)
  | JIntNumber (m_number_ : Int)
  | JUIntNumber (m_number_ : Nat)
  | JFloatNumber (m_number_ : Double)
  | JBool (m_value_ : Bool)
  | JNull

/-- A `JBasePtr`: `none` is the empty handle. -/
abbrev Handle := Option JValue

/-- The entries of an `_Object_`. -/
abbrev Members := List (List Char × Handle)

/-- The method `_Base_::type`. -/
def JValue.type : JValue → JType
  | .JObject _ => .JOBJECT
  | .JArray _ => .JARRAY
  | .JString _ => .JSTRING
  | .JIntNumber _ => .JINTNUMBER
  | .JUIntNumber _ => .JUINTNUMBER
  | .JFloatNumber _ => .JFLOATNUMBER
  | .JBool _ => .JBOOL
  | .JNull => .JNULL

namespace Object

/-- The method `_Object_::get`: the stored handle, or an empty handle when the key is absent. -/
def get : Members → List Char → Handle
  | [], _ => none
  | (k, v) :: m, s => if k = s then v else get m s

/-- The method `_Object_::contain`. -/
def contain : Members → List Char → Bool
  | [], _ => false
  | (k, _) :: m, s => if k = s then true else contain m s

/-- The method `_Object_::set` (`emplace`): inserts only when the key is absent and
reports whether it inserted.  A new entry is put last in the iteration order. -/
def set (m : Members) (key : List Char) (value : Handle) : Bool × Members :=
  if contain m key then (false, m) else (true, m ++ [(key, value)])

/-- The method `_Object_::size`. -/
def size (m : Members) : Nat := m.length

end Object

namespace Array

/-- The method `_Array_::set` (`emplace_back`). -/
def set (l : List Handle) (ptr : Handle) : List Handle := l ++ [ptr]

/-- The method `_Array_::get` (`vector::at`): `none` stands for `std::out_of_range`. -/
def get (l : List Handle) (i : Nat) : Option Handle := l.get? i

/-- The method `_Array_::size`. -/
def size (l : List Handle) : Nat := l.length

end Array

/-! ## Decimal text of integers (`std::to_string`, `strtoull`, `strtoll`) -/

/-- The text `std::to_string` gives for an unsigned 64-bit value. -/
def to_string_u (n : Nat) : List Char := Nat.toDigits 10 n

/-- The text `std::to_string` gives for a signed 64-bit value. -/
def to_string_i (i : Int) : List Char :=
  if i < 0 then '-' :: Nat.toDigits 10 i.natAbs else Nat.toDigits 10 i.natAbs

/-- Whether `c` is a decimal digit. -/
def isDigit (c : Char) : Bool := decide ('0'.toNat ≤ c.toNat) && decide (c.toNat ≤ '9'.toNat)

/-- The value of the leading run of decimal digits, accumulated from `acc`. -/
def digitsValue : Nat → List Char → Nat
  | acc, [] => acc
  | acc, c :: cs => if isDigit c then digitsValue (acc * 10 + (c.toNat - '0'.toNat)) cs else acc

/-- The C library `strtoull(tmp, nullptr, 10)` on a text that starts with a digit:
the value of the digit run, `ULLONG_MAX` when it is out of range. -/
def strtoull (tmp : List Char) : Nat := min (digitsValue 0 tmp) (2 ^ 64 - 1)

/-- The C library `strtoll(tmp, nullptr, 10)` on a text with an optional sign followed by
digits: the signed value of the digit run, clamped to the 64-bit signed range. -/
def strtoll (tmp : List Char) : Int :=
  match tmp with
  | '-' :: cs => max (-(digitsValue 0 cs : Int)) (-(2 ^ 63 : Int))
  | '+' :: cs => min (digitsValue 0 cs : Int) (2 ^ 63 - 1)
  | cs => min (digitsValue 0 cs : Int) (2 ^ 63 - 1)

/-- The C library `strtod(tmp, nullptr)`, kept symbolic. -/
def strtod (tmp : List Char) : Double := ⟨tmp⟩

/-! ## The tokenizer `JParser::Token` -/

/-- The fields of `JParser::Token`. -/
structure Token where
  s : List Char
  first : Nat
  last : Nat
  finish : Bool
  deriving DecidableEq, Repr

namespace Token

/-- The constructor `Token(ss)`. -/
def init (ss : List Char) : Token := ⟨ss, 0, 0, false⟩

/-- The method `Token::isEnd`. -/
def isEnd (t : Token) : Bool := t.finish

/-- The method `Token::tokenStr`. -/
def tokenStr (t : Token) : List Char := (t.s.drop t.first).take (t.last - t.first)

/-- The method `Token::at`. -/
def atIdx (t : Token) (i : Nat) : Char := strAt t.s (t.first + i)

/-- The method `Token::size`. -/
def size (t : Token) : Nat := t.last - t.first

/-- The loop `while(last < s.size() && isspace(s[last])) ++last;`, at most `fuel` rounds. -/
def skipSpace (s : List Char) : Nat → Nat → Nat
  | 0, last => last
  | fuel + 1, last =>
    if last < s.length ∧ isspace (strAt s last) then skipSpace s fuel (last + 1) else last

/-- The loop scanning a string token: advance, and stop one past a double quote whose
predecessor is not a backslash. -/
def scanString (s : List Char) : Nat → Nat → Nat
  | 0, last => last
  | fuel + 1, last =>
    if last < s.length then
      if strAt s (last + 1) = cQuote ∧ strAt s (last + 1 - 1) ≠ cBackslash then last + 1 + 1
      else scanString s fuel (last + 1)
    else last

/-- The loop scanning any other token: advance, and stop at whitespace or a structural character. -/
def scanOther (s : List Char) : Nat → Nat → Nat
  | 0, last => last
  | fuel + 1, last =>
    if last < s.length then
      if isspace (strAt s (last + 1)) ∨ isStructural (strAt s (last + 1)) then last + 1
      else scanOther s fuel (last + 1)
    else last

/-- The method `Token::nextToken`.  Each loop runs while `last < s.size()`, so
`s.size() - last` rounds are all it can make. -/
def nextToken (t : Token) : Token :=
  if t.finish then t
  else
    let last := skipSpace t.s (t.s.length - t.last) t.last
    if last = t.s.length then { t with last := last, finish := true }
    else if isStructural (strAt t.s last) then { t with first := last, last := last + 1 }
    else if strAt t.s last = cQuote then
      { t with first := last, last := scanString t.s (t.s.length - last) last }
    else { t with first := last, last := scanOther t.s (t.s.length - last) last }

end Token

/-! ## The parser `JParser` -/

namespace JParser

/-- The method `JParser::matchChar`: the current token is exactly the character `c`;
the token is advanced when it is. -/
def matchChar (token : Token) (c : Char) : Bool × Token :=
  let res := token.size = 1 ∧ token.atIdx 0 = c
  if res then (true, token.nextToken) else (false, token)

/-- The method `JParser::parseEscape`; the NUL character reports an unknown escape. -/
def parseEscape (c : Char) : Char :=
  if c = cQuote then cQuote
  else if c = cBackslash then cBackslash
  else if c = '/' then '/'
  else if c = 'b' then Char.ofNat 8
  else if c = 'f' then Char.ofNat 12
  else if c = 'n' then Char.ofNat 10
  else if c = 'r' then Char.ofNat 13
  else if c = 't' then Char.ofNat 9
  else cNul

/-- The loop of `JParser::parseString` over the interior of a token of size `t`,
from index `i` with `s` the characters pushed so far; `none` is the error return. -/
def parseStringLoop (token : Token) (t : Nat) : Nat → Nat → List Char → Option (List Char)
  | 0, _, s => some s
  | fuel + 1, i, s =>
    if i + 1 < t then
      if token.atIdx i = cBackslash then
        if i + 1 + 1 = t then none
        else
          let c := parseEscape (token.atIdx (i + 1))
          if c = cNul then none
          else parseStringLoop token t fuel (i + 1 + 1) (s ++ [c])
      else parseStringLoop token t fuel (i + 1) (s ++ [token.atIdx i])
    else some s

/-- The method `JParser::parseString`: the payload of the new `_String_` (or the empty
`JStringPtr`), the token and `m_error_` afterwards. -/
def parseString (token : Token) (m_error_ : Bool) : Option (List Char) × Token × Bool :=
  let t := token.size
  if t < 2 ∨ token.atIdx 0 ≠ cQuote ∨ token.atIdx (t - 1) ≠ cQuote ∨ m_error_ = true then
    (none, token, true)
  else
    match parseStringLoop token t t 1 [] with
    | none => (none, token, true)
    | some s => (some s, token.nextToken, m_error_)

/-- The states of the automaton in `JParser::matchNumber`. -/
inductive NumberStatus where
  | START | NEG | ZERO | NZERO | DOT | DECIMAL | SNOT | SIGNAL | FRAC
  deriving DecidableEq, Repr

/-- One round of the `switch(status)` in `matchNumber`; `none` is the `return 0`. -/
def NumberStatus.step (status : NumberStatus) (c : Char) : Option NumberStatus :=
  match status with
  | .START =>
    if c = '-' then some .NEG
    else if c = '0' then some .ZERO
    else if '1'.toNat ≤ c.toNat ∧ c.toNat ≤ '9'.toNat then some .NZERO
    else none
  | .NEG =>
    if c = '0' then some .ZERO
    else if '1'.toNat ≤ c.toNat ∧ c.toNat ≤ '9'.toNat then some .NZERO
    else none
  | .ZERO => if c = '.' then some .DOT else none
  | .NZERO =>
    if c = '.' then some .DOT
    else if '0'.toNat ≤ c.toNat ∧ c.toNat ≤ '9'.toNat then some .NZERO
    else if c = 'E' ∨ c = 'e' then some .SNOT
    else none
  | .DOT => if c.toNat ≤ '9'.toNat ∧ '0'.toNat ≤ c.toNat then some .DECIMAL else none
  | .DECIMAL =>
    if c.toNat ≤ '9'.toNat ∧ '0'.toNat ≤ c.toNat then some .DECIMAL
    else if c = 'E' ∨ c = 'e' then some .SNOT
    else none
  | .SNOT =>
    if c = '+' ∨ c = '-' then some .SIGNAL
    else if '0'.toNat ≤ c.toNat ∧ c.toNat ≤ '9'.toNat then some .FRAC
    else none
  | .SIGNAL => if '0'.toNat ≤ c.toNat ∧ c.toNat ≤ '9'.toNat then some .FRAC else none
  | .FRAC => if '0'.toNat ≤ c.toNat ∧ c.toNat ≤ '9'.toNat then some .FRAC else none

/-- The final `switch(status)` of `matchNumber`. -/
def NumberStatus.result : NumberStatus → Nat
  | .START | .NEG | .DOT | .SNOT | .SIGNAL => 0
  | .DECIMAL | .FRAC => 1
  | .ZERO | .NZERO => 2

/-- The `for` loop of `matchNumber` from index `i`. -/
def matchNumberLoop (token : Token) : Nat → Nat → NumberStatus → Nat
  | 0, _, status => status.result
  | fuel + 1, i, status =>
    if i < token.size then
      match status.step (token.atIdx i) with
      | none => 0
      | some status1 => matchNumberLoop token fuel (i + 1) status1
    else status.result

/-- The method `JParser::matchNumber`: 0 not a number, 1 float-shaped, 2 integer-shaped. -/
def matchNumber (token : Token) : Nat :=
  matchNumberLoop token token.size 0 .START

/-- The constant `int_number_min_str`. -/
def int_number_min_str : List Char := "-9223372036854775808".toList

/-- The constant `uint_number_min_str` (the largest unsigned 64-bit value). -/
def uint_number_min_str : List Char := "18446744073709551615".toList

/-- The comparison loop shared by `lessIntNumberMin` and `greaterUIntNumberMax`:
`for(; i < 20; ++i)` returning at the first differing character.  Characters are
compared by code; the callers pass integer-shaped tokens only. -/
def boundLoop (s bound : List Char) : Nat → Nat → Bool
  | 0, _ => false
  | fuel + 1, i =>
    if i < 20 then
      if (strAt s i).toNat > (strAt bound i).toNat then true
      else if (strAt s i).toNat < (strAt bound i).toNat then false
      else boundLoop s bound fuel (i + 1)
    else false

/-- The method `JParser::lessIntNumberMin`. -/
def lessIntNumberMin (s : List Char) : Bool :=
  if s.length > 20 then true
  else if s.length < 20 then false
  else boundLoop s int_number_min_str 20 1

/-- The method `JParser::greaterUIntNumberMax`. -/
def greaterUIntNumberMax (s : List Char) : Bool :=
  if s.length > 20 then true
  else if s.length < 20 then false
  else boundLoop s uint_number_min_str 20 0

/-- The method `JParser::parseInt`. -/
def parseInt (token : Token) (m_error_ : Bool) : Handle × Token × Bool :=
  let status := matchNumber token
  if status = 0 then (none, token, true)
  else
    let tmp := token.tokenStr
    if status = 1 ∨ lessIntNumberMin tmp = true then
      (some (.JFloatNumber (strtod tmp)), token.nextToken, m_error_)
    else (some (.JIntNumber (strtoll tmp)), token.nextToken, m_error_)

/-- The method `JParser::parseUInt`. -/
def parseUInt (token : Token) (m_error_ : Bool) : Handle × Token × Bool :=
  let status := matchNumber token
  if status = 0 then (none, token, true)
  else
    let tmp := token.tokenStr
    if status = 1 ∨ greaterUIntNumberMax tmp = true then
      (some (.JFloatNumber (strtod tmp)), token.nextToken, m_error_)
    else (some (.JUIntNumber (strtoull tmp)), token.nextToken, m_error_)

/-- The method `JParser::parseBool`. -/
def parseBool (token : Token) (m_error_ : Bool) : Handle × Token × Bool :=
  if token.size = 4 ∧ token.atIdx 0 = 't' ∧ token.atIdx 1 = 'r'
      ∧ token.atIdx 2 = 'u' ∧ token.atIdx 3 = 'e' then
    (some (.JBool true), token.nextToken, m_error_)
  else if token.size = 5 ∧ token.atIdx 0 = 'f' ∧ token.atIdx 1 = 'a'
      ∧ token.atIdx 2 = 'l' ∧ token.atIdx 3 = 's' ∧ token.atIdx 4 = 'e' then
    (some (.JBool false), token.nextToken, m_error_)
  else (none, token, true)

/-- The method `JParser::parseNull`. -/
def parseNull (token : Token) (m_error_ : Bool) : Handle × Token × Bool :=
  if token.size = 4 ∧ token.atIdx 0 = 'n' ∧ token.atIdx 1 = 'u'
      ∧ token.atIdx 2 = 'l' ∧ token.atIdx 3 = 'l' then
    (some .JNull, token.nextToken, m_error_)
  else (none, token, true)

/-- The local enumeration `ObjectType` of `parseObject`. -/
inductive ObjectType where
  | WAIT_KEY_OR_END | WAIT_KEY | WAIT_COLON | WAIT_VALUE | WAIT_COMMA_OR_END | END
  deriving DecidableEq, Repr

/-- The local enumeration `ArrayType` of `parseArray`. -/
inductive ArrayType where
  | WAIT_VALUE_OR_END | WAIT_VALUE | WAIT_COMMA_OR_END | END
  deriving DecidableEq, Repr

/-- What a parse step yields: a result, the token and `m_error_` afterwards.
`none` is a run that the model cannot finish: the step budget is used up, or an
empty handle is dereferenced. -/
abbrev Step (α : Type) := Option (α × Token × Bool)

/-- The `case WAIT_KEY:` body of `parseObject`, also reached by falling through
from `WAIT_KEY_OR_END`. -/
def objectWaitKey (token : Token) (m_error_ : Bool) :
    ObjectType × Option (List Char) × Token × Bool :=
  let r := parseString token m_error_
  (.WAIT_COLON, r.1, r.2.1, r.2.2)

/-- The `while` loop of `JParser::parseObject`; `parseValue` is the recursive call,
`key` the `JStringPtr` and `value` the `JBasePtr` local variables. -/
def parseObjectLoop (parseValue : Token → Bool → Step Handle) :
    Nat → ObjectType → Members → Option (List Char) → Handle → Token → Bool → Step Members
  | 0, _, _, _, _, _, _ => none
  | fuel + 1, status, res, key, value, token, m_error_ =>
    if token.isEnd = true ∨ m_error_ = true ∨ status = .END then some (res, token, m_error_)
    else
      match status with
      | .WAIT_KEY_OR_END =>
        let m := matchChar token (Char.ofNat 125)
        if m.1 = true then
          parseObjectLoop parseValue fuel .END res key value m.2 m_error_
        else
          let r := objectWaitKey m.2 m_error_
          parseObjectLoop parseValue fuel r.1 res r.2.1 value r.2.2.1 r.2.2.2
      | .WAIT_KEY =>
        let r := objectWaitKey token m_error_
        parseObjectLoop parseValue fuel r.1 res r.2.1 value r.2.2.1 r.2.2.2
      | .WAIT_COLON =>
        let m := matchChar token ':'
        parseObjectLoop parseValue fuel .WAIT_VALUE res key value m.2
          (if m.1 = true then m_error_ else true)
      | .WAIT_VALUE =>
        match parseValue token m_error_ with
        | none => none
        | some (v, token1, err1) =>
          parseObjectLoop parseValue fuel .WAIT_COMMA_OR_END res key v token1 err1
      | .WAIT_COMMA_OR_END =>
        let m1 := matchChar token (Char.ofNat 125)
        let m2 := if m1.1 = true then (false, m1.2) else matchChar m1.2 ','
        let status1 : ObjectType :=
          if m1.1 = true then .END else if m2.1 = true then .WAIT_KEY else .WAIT_COMMA_OR_END
        let err1 : Bool := if m1.1 = true ∨ m2.1 = true then m_error_ else true
        match key with
        | none => none
        | some k => parseObjectLoop parseValue fuel status1 (Object.set res k value).2 key value m2.2 err1
      | .END => some (res, token, m_error_)

/-- The method `JParser::parseObject`. -/
def parseObject (parseValue : Token → Bool → Step Handle) (fuel : Nat)
    (token : Token) (m_error_ : Bool) : Step (Option Members) :=
  let m := matchChar token (Char.ofNat 123)
  if m.1 = false then some (none, m.2, true)
  else
    match parseObjectLoop parseValue fuel .WAIT_KEY_OR_END [] none none m.2 m_error_ with
    | none => none
    | some (res, token1, err1) => some (some res, token1, err1)

/-- The `case WAIT_VALUE:` body of `parseArray`, also reached by falling through
from `WAIT_VALUE_OR_END`. -/
def arrayWaitValue (parseValue : Token → Bool → Step Handle) (res : List Handle)
    (token : Token) (m_error_ : Bool) : Step (ArrayType × List Handle) :=
  match parseValue token m_error_ with
  | none => none
  | some (v, token1, err1) => some ((.WAIT_COMMA_OR_END, Array.set res v), token1, err1)

/-- The `while` loop of `JParser::parseArray`.  In `WAIT_VALUE_OR_END` the source has
no `break` after `status = END`, so control falls into `WAIT_VALUE` either way. -/
def parseArrayLoop (parseValue : Token → Bool → Step Handle) :
    Nat → ArrayType → List Handle → Token → Bool → Step (List Handle)
  | 0, _, _, _, _ => none
  | fuel + 1, status, res, token, m_error_ =>
    if token.isEnd = true ∨ m_error_ = true ∨ status = .END then some (res, token, m_error_)
    else
      match status with
      | .WAIT_VALUE_OR_END =>
        let m := matchChar token ']'
        match arrayWaitValue parseValue res m.2 m_error_ with
        | none => none
        | some ((status1, res1), token1, err1) => parseArrayLoop parseValue fuel status1 res1 token1 err1
      | .WAIT_VALUE =>
        match arrayWaitValue parseValue res token m_error_ with
        | none => none
        | some ((status1, res1), token1, err1) => parseArrayLoop parseValue fuel status1 res1 token1 err1
      | .WAIT_COMMA_OR_END =>
        let m1 := matchChar token ','
        let m2 := if m1.1 = true then (false, m1.2) else matchChar m1.2 ']'
        let status1 : ArrayType :=
          if m1.1 = true then .WAIT_VALUE else if m2.1 = true then .END else .WAIT_COMMA_OR_END
        let err1 : Bool := if m1.1 = true ∨ m2.1 = true then m_error_ else true
        parseArrayLoop parseValue fuel status1 res m2.2 err1
      | .END => some (res, token, m_error_)

/-- The method `JParser::parseArray`. -/
def parseArray (parseValue : Token → Bool → Step Handle) (fuel : Nat)
    (token : Token) (m_error_ : Bool) : Step (Option (List Handle)) :=
  let m := matchChar token '['
  if m.1 = false then some (none, m.2, true)
  else
    match parseArrayLoop parseValue fuel .WAIT_VALUE_OR_END [] m.2 m_error_ with
    | none => none
    | some (res, token1, err1) => some (some res, token1, err1)

/-- The method `JParser::parseValue`.  `fuel` bounds the nesting depth and the rounds
of each loop. -/
def parseValue : Nat → Token → Bool → Step Handle
  | 0, _, _ => none
  | fuel + 1, token, m_error_ =>
    if m_error_ = true then some (none, token, m_error_)
    else
      let c := token.atIdx 0
      if c = Char.ofNat 123 then
        (parseObject (parseValue fuel) fuel token m_error_).map
          (fun r => (r.1.map JValue.JObject, r.2))
      else if c = '[' then
        (parseArray (parseValue fuel) fuel token m_error_).map
          (fun r => (r.1.map JValue.JArray, r.2))
      else if c = cQuote then
        let r := parseString token m_error_
        some (r.1.map JValue.JString, r.2)
      else if c = '-' then some (parseInt token m_error_)
      else if isDigit c = true then some (parseUInt token m_error_)
      else if c = 'f' ∨ c = 't' then some (parseBool token m_error_)
      else if c = 'n' then some (parseNull token m_error_)
      else some (none, token, true)

/-- The method `JParser::parse` together with `JParser::error` afterwards: the root
handle and the error flag.  Every loop round and every nested call takes a token or
stops, so `s.size() + 2` steps are enough for any text. -/
def parse (s : List Char) : Option (Handle × Bool) :=
  let tokens := (Token.init s).nextToken
  (parseValue (s.length + 2) tokens false).map (fun r => (r.1, r.2.2))

end JParser

/-! ## Serialization (`toString`) -/

mutual
/-- The virtual method `toString`: `none` when an empty handle is dereferenced.
`g` stands for the `snprintf("%g")` conversion of `_FloatNumber_::toString`. -/
def JValue.toString (g : Double → List Char) : JValue → Option (List Char)
  | .JObject m =>
    match objectEntries g m with
    | none => none
    | some body =>
      let res := Char.ofNat 123 :: body
      let res1 := if res.getLast? = some ',' then res.dropLast else res
      some (res1 ++ [Char.ofNat 125])
  | .JArray l =>
    match arrayEntries g l 0 with
    | none => none
    | some body => some ('[' :: body ++ [']'])
  | .JString s => some (cQuote :: s ++ [cQuote])
  | .JIntNumber i => some (to_string_i i)
  | .JUIntNumber n => some (to_string_u n)
  | .JFloatNumber d => some (g d)
  | .JBool b => some (if b = true then ['t', 'r', 'u', 'e'] else ['f', 'a', 'l', 's', 'e'])
  | .JNull => some ['n', 'u', 'l', 'l']
/-- The `for` loop of `_Object_::toString`: every entry is followed by a comma. -/
def objectEntries (g : Double → List Char) : Members → Option (List Char)
  | [] => some []
  | (_, none) :: _ => none
  | (k, some v) :: m =>
    match v.toString g, objectEntries g m with
    | some t, some r => some (cQuote :: k ++ cQuote :: ':' :: t ++ ',' :: r)
    | _, _ => none
/-- The `for` loop of `_Array_::toString` from index `i`: a comma goes before every
element but the first. -/
def arrayEntries (g : Double → List Char) : List Handle → Nat → Option (List Char)
  | [], _ => some []
  | none :: _, _ => none
  | some v :: l, i =>
    match v.toString g, arrayEntries g l (i + 1) with
    | some t, some r => some ((if i ≠ 0 then [','] else []) ++ t ++ r)
    | _, _ => none
end


/-! ## Kind predicates, type names and the typed accessors of `JFactory` -/

/-- The method `_Base_::isObject`. -/
def JValue.isObject (v : JValue) : Bool := v.type = .JOBJECT

/-- The method `_Base_::isArray`. -/
def JValue.isArray (v : JValue) : Bool := v.type = .JARRAY

/-- The method `_Base_::isString`. -/
def JValue.isString (v : JValue) : Bool := v.type = .JSTRING

/-- The method `_Base_::isIntNumber`. -/
def JValue.isIntNumber (v : JValue) : Bool := v.type = .JINTNUMBER

/-- The method `_Base_::isUIntNumber`. -/
def JValue.isUIntNumber (v : JValue) : Bool := v.type = .JUINTNUMBER

/-- The method `_Base_::isFloatNumber`. -/
def JValue.isFloatNumber (v : JValue) : Bool := v.type = .JFLOATNUMBER

/-- The method `_Base_::isBool`. -/
def JValue.isBool (v : JValue) : Bool := v.type = .JBOOL

/-- The method `_Base_::isNull`. -/
def JValue.isNull (v : JValue) : Bool := v.type = .JNULL

namespace JsonTypeString

/-- The name `_JsonTypeString_::getNullptr` gives for an empty handle (spelt as in the source). -/
def getNullptr : List Char := "JsonInvaild".toList

/-- The name `getJsonTypeObjectString`. -/
def getJsonTypeObjectString : List Char := "JsonObject".toList

/-- The name `getJsonTypeArrayString`. -/
def getJsonTypeArrayString : List Char := "JsonArray".toList

/-- The name `getJsonTypeStringString`. -/
def getJsonTypeStringString : List Char := "JsonString".toList

/-- The name `getJsonTypeIntNumberString`. -/
def getJsonTypeIntNumberString : List Char := "JsonIntNumber".toList

/-- The name `getJsonTypeUIntNumberString`. -/
def getJsonTypeUIntNumberString : List Char := "JsonUIntNumber".toList

/-- The name `getJsonTypeFloatNumberString`. -/
def getJsonTypeFloatNumberString : List Char := "JsonFloatNumber".toList

/-- The name `getJsonTypeBoolString`. -/
def getJsonTypeBoolString : List Char := "JsonBool".toList

/-- The name `getJsonTypeNullString`. -/
def getJsonTypeNullString : List Char := "JsonNull".toList

/-- The function `_JsonTypeString_::getTypeString`. -/
def getTypeString (ptr : Handle) : List Char :=
  match ptr with
  | none => getNullptr
  | some v =>
    match v.type with
    | .JOBJECT => getJsonTypeObjectString
    | .JARRAY => getJsonTypeArrayString
    | .JSTRING => getJsonTypeStringString
    | .JINTNUMBER => getJsonTypeIntNumberString
    | .JUINTNUMBER => getJsonTypeUIntNumberString
    | .JFLOATNUMBER => getJsonTypeFloatNumberString
    | .JBOOL => getJsonTypeBoolString
    | .JNULL => getJsonTypeNullString

end JsonTypeString

/-- The class `JsonException`: `what()` returns `what_str`. -/
structure JsonException where
  what_str : List Char
  deriving DecidableEq, Repr

namespace JFactory

open JsonTypeString

/-- The text every accessor puts between the two type names. -/
def cannotConvert : List Char := " cannot be converted to ".toList

/-- The function `JFactory::getObject`: throws unless the handle is non-empty and an
object; the cast result shares the value, so it is the same handle. -/
def getObject (ptr : Handle) : Except JsonException Handle :=
  match ptr with
  | none => .error ⟨getTypeString ptr ++ cannotConvert ++ getJsonTypeObjectString⟩
  | some v =>
    if !v.isObject then .error ⟨getTypeString ptr ++ cannotConvert ++ getJsonTypeObjectString⟩
    else .ok ptr

/-- The function `JFactory::getArray`. -/
def getArray (ptr : Handle) : Except JsonException Handle :=
  match ptr with
  | none => .error ⟨getTypeString ptr ++ cannotConvert ++ getJsonTypeArrayString⟩
  | some v =>
    if !v.isArray then .error ⟨getTypeString ptr ++ cannotConvert ++ getJsonTypeArrayString⟩
    else .ok ptr

/-- The function `JFactory::getString`. -/
def getString (ptr : Handle) : Except JsonException Handle :=
  match ptr with
  | none => .error ⟨getTypeString ptr ++ cannotConvert ++ getJsonTypeStringString⟩
  | some v =>
    if !v.isString then .error ⟨getTypeString ptr ++ cannotConvert ++ getJsonTypeStringString⟩
    else .ok ptr

/-- The function `JFactory::getIntNumber`. -/
def getIntNumber (ptr : Handle) : Except JsonException Handle :=
  match ptr with
  | none => .error ⟨getTypeString ptr ++ cannotConvert ++ getJsonTypeIntNumberString⟩
  | some v =>
    if !v.isIntNumber then
      .error ⟨getTypeString ptr ++ cannotConvert ++ getJsonTypeIntNumberString⟩
    else .ok ptr

/-- The function `JFactory::getUIntNumber`. -/
def getUIntNumber (ptr : Handle) : Except JsonException Handle :=
  match ptr with
  | none => .error ⟨getTypeString ptr ++ cannotConvert ++ getJsonTypeUIntNumberString⟩
  | some v =>
    if !v.isUIntNumber then
      .error ⟨getTypeString ptr ++ cannotConvert ++ getJsonTypeUIntNumberString⟩
    else .ok ptr

/-- The function `JFactory::getFloatNumber`. -/
def getFloatNumber (ptr : Handle) : Except JsonException Handle :=
  match ptr with
  | none => .error ⟨getTypeString ptr ++ cannotConvert ++ getJsonTypeFloatNumberString⟩
  | some v =>
    if !v.isFloatNumber then
      .error ⟨getTypeString ptr ++ cannotConvert ++ getJsonTypeFloatNumberString⟩
    else .ok ptr

/-- The function `JFactory::getBool`. -/
def getBool (ptr : Handle) : Except JsonException Handle :=
  match ptr with
  | none => .error ⟨getTypeString ptr ++ cannotConvert ++ getJsonTypeBoolString⟩
  | some v =>
    if !v.isBool then .error ⟨getTypeString ptr ++ cannotConvert ++ getJsonTypeBoolString⟩
    else .ok ptr

/-- The function `JFactory::getNull`. -/
def getNull (ptr : Handle) : Except JsonException Handle :=
  match ptr with
  | none => .error ⟨getTypeString ptr ++ cannotConvert ++ getJsonTypeNullString⟩
  | some v =>
    if !v.isNull then .error ⟨getTypeString ptr ++ cannotConvert ++ getJsonTypeNullString⟩
    else .ok ptr

end JFactory


open JParser

/-! ## Auxiliary definitions for the proofs -/

/-- The number of characters the string-token loop takes after the opening quote,
`prev` being the character before the remaining text. -/
def strRun : Char → List Char → Nat
  | _, [] => 0
  | prev, c :: cs => if c = cQuote ∧ prev ≠ cBackslash then 1 else 1 + strRun c cs

/-- The number of characters the bare-token loop takes after the first one. -/
def otherRun : List Char → Nat
  | [] => 0
  | c :: cs => if isspace c = true ∨ isStructural c = true then 0 else 1 + otherRun cs

/-- The length of the token at the head of a text. -/
def lexLen : List Char → Nat
  | [] => 0
  | c :: cs =>
    if isStructural c = true then 1
    else if c = cQuote then 1 + strRun c cs
    else 1 + otherRun cs

/-- The token stream stands at the text `txt`: it is not finished, `txt` is what
is left of the input from `first` on, and the current token is the first token of `txt`. -/
structure At (tk : Token) (txt : List Char) : Prop where
  notEnd : tk.finish = false
  text : tk.s.drop tk.first = txt
  last : tk.last = tk.first + lexLen txt
  head : ∃ c cs, txt = c :: cs ∧ isspace c = false

/-- The token stream has been advanced over `rest`: finished when `rest` is blank,
standing at the first token of `rest` otherwise. -/
def Pos (tk : Token) (rest : List Char) : Prop :=
  (rest.dropWhile isspace = [] → tk.finish = true) ∧
  (rest.dropWhile isspace ≠ [] → At tk (rest.dropWhile isspace))

/-- A text made of decimal digits only. -/
def AllDigits (l : List Char) : Prop := ∀ c ∈ l, isDigit c = true

/-- The comparison of `boundLoop` on the two remaining texts. -/
def lexGt : List Char → List Char → Bool
  | a :: as, b :: bs =>
    if a.toNat > b.toNat then true
    else if a.toNat < b.toNat then false
    else lexGt as bs
  | _, _ => false

/-- The decoding `parseString` applies to the interior of a string token;
`none` is the error return. -/
def unescape : List Char → Option (List Char)
  | [] => some []
  | [c] => if c = cBackslash then none else some [c]
  | c :: e :: r =>
    if c = cBackslash then
      if JParser.parseEscape e = cNul then none
      else (unescape r).map (fun s => JParser.parseEscape e :: s)
    else (unescape (e :: r)).map (fun s => c :: s)

/-- The automaton of `matchNumber` run over a text. -/
def runNumber : JParser.NumberStatus → List Char → Nat
  | st, [] => st.result
  | st, c :: cs =>
    match st.step c with
    | none => 0
    | some st1 => runNumber st1 cs

/-- The text `rest` ends a bare token: it is empty or starts with whitespace or a
structural character. -/
def Sep (rest : List Char) : Prop :=
  ∀ c cs, rest = c :: cs → isspace c = true ∨ isStructural c = true

/-- No character of the text is whitespace or structural. -/
def NoDelim (l : List Char) : Prop := ∀ c ∈ l, isspace c = false ∧ isStructural c = false

/-- From a stream standing at `t ++ r`, with `r` ending the last token of `t`, the
parse step `pv` takes exactly `t`, yields `h` and leaves the error flag clear. -/
def ParsesAs (pv : Token → Bool → Step Handle) (t : List Char) (h : Handle) : Prop :=
  ∀ (tk : Token) (r : List Char), At tk (t ++ r) → Sep r →
    ∃ tk1, pv tk false = some (h, tk1, false) ∧ Pos tk1 r

/-- A text of whitespace only. -/
def Blank (ws : List Char) : Prop := ∀ c ∈ ws, isspace c = true

/-- The text starts a value: its first character is neither whitespace nor `]`. -/
def ValueHead (t : List Char) : Prop :=
  ∃ c cs, t = c :: cs ∧ isspace c = false ∧ c ≠ ']'

/-- The elements of an array text after `[`: each element is a triple of the blank
before it, its text and the blank after it; commas separate them and `]` ends them. -/
def elemsText : List (List Char × List Char × List Char) → List Char
  | [] => [']']
  | [e] => e.1 ++ e.2.1 ++ e.2.2 ++ [']']
  | e :: e1 :: es => e.1 ++ e.2.1 ++ e.2.2 ++ ',' :: elemsText (e1 :: es)

/-- What the array loop needs of an element and the handle parsed for it. -/
def ElemOk (pv : Token → Bool → Step Handle) (e : List Char × List Char × List Char)
    (h : Handle) : Prop :=
  Blank e.1 ∧ Blank e.2.2 ∧ ValueHead e.2.1 ∧ ParsesAs pv e.2.1 h

/-- A string payload that `toString` prints and `parseString` reads back unchanged:
it has neither a double quote nor a backslash. -/
def PlainText (s : List Char) : Prop := ∀ c ∈ s, c ≠ cQuote ∧ c ≠ cBackslash

/-- The members of a compact object text after the opening brace: each member is a key
and the text of its value, printed as `"key":value`; commas separate them and the closing
brace ends them. -/
def membersText : List (List Char × List Char) → List Char
  | [] => [Char.ofNat 125]
  | [m] => cQuote :: m.1 ++ cQuote :: ':' :: m.2 ++ [Char.ofNat 125]
  | m :: m1 :: ms => cQuote :: m.1 ++ cQuote :: ':' :: m.2 ++ ',' :: membersText (m1 :: ms)

/-- What the object loop needs of a member and the handle parsed for its value. -/
def MemberOk (pv : Token → Bool → Step Handle) (m : List Char × List Char) (h : Handle) : Prop :=
  PlainText m.1 ∧ ValueHead m.2 ∧ ParsesAs pv m.2 h

/-- The entries after `set(key, value)` for each pair in turn. -/
def insertAll (res : Members) : List (List Char × Handle) → Members
  | [] => res
  | kv :: kvs => insertAll (Object.set res kv.1 kv.2).2 kvs

/-- The literal texts of claim C6: an unsigned integer in the unsigned 64-bit range, a
negated integer in the signed 64-bit range, `true`, `false` or `null`. -/
def IsLiteral (t : List Char) : Prop :=
  (∃ n, n < 2 ^ 64 ∧ t = Nat.toDigits 10 n) ∨
  (∃ n, n ≤ 2 ^ 63 ∧ t = '-' :: Nat.toDigits 10 n) ∨
  t = ['t', 'r', 'u', 'e'] ∨ t = ['f', 'a', 'l', 's', 'e'] ∨ t = ['n', 'u', 'l', 'l']

/-- The text of a compact object whose values are unsigned integers. -/
def uintMembers (ps : List (List Char × Nat)) : List (List Char × List Char) :=
  ps.map (fun p => (p.1, Nat.toDigits 10 p.2))

/-- The value of the first pair with key `s`, an empty handle when there is none. -/
def firstValue : List (List Char × Handle) → List Char → Handle
  | [], _ => none
  | kv :: kvs, s => if kv.1 = s then kv.2 else firstValue kvs s

/-- The eight escapes that `parseEscape` knows. -/
inductive Escape where
  | quote | backslash | slash | b | f | n | r | t
  deriving DecidableEq, Repr

/-- The character written after the backslash. -/
def Escape.letter : Escape → Char
  | .quote => cQuote
  | .backslash => cBackslash
  | .slash => '/'
  | .b => 'b'
  | .f => 'f'
  | .n => 'n'
  | .r => 'r'
  | .t => 't'

/-- The single character an escape stands for: quote, backslash, slash, backspace,
form feed, newline, carriage return, tab. -/
def Escape.meaning : Escape → Char
  | .quote => cQuote
  | .backslash => cBackslash
  | .slash => '/'
  | .b => Char.ofNat 8
  | .f => Char.ofNat 12
  | .n => Char.ofNat 10
  | .r => Char.ofNat 13
  | .t => Char.ofNat 9

/-- An item of a string literal: a single character, or one of the eight escapes. -/
inductive Item where
  | plain (c : Char)
  | escape (e : Escape)
  deriving DecidableEq, Repr

/-- A plain item is neither the double quote nor the backslash. -/
def Item.Valid : Item → Prop
  | .plain c => c ≠ cQuote ∧ c ≠ cBackslash
  | .escape _ => True

/-- The text of an item inside the literal. -/
def Item.text : Item → List Char
  | .plain c => [c]
  | .escape e => [cBackslash, e.letter]

/-- The character an item contributes to the string. -/
def Item.decoded : Item → Char
  | .plain c => c
  | .escape e => e.meaning

/-- The text of a sequence of items. -/
def itemsText : List Item → List Char
  | [] => []
  | it :: its => it.text ++ itemsText its

mutual
/-- The value trees of the amended round trip: every handle is non-empty, no node is a
`FloatNumber`, every `IntNumber` is negative and every `UIntNumber` in range, strings and
keys have neither a double quote nor a backslash, keys of an object are distinct, and
no array is empty. -/
def JValue.Plain : JValue → Prop
  | .JObject m => membersPlain m ∧ (m.map Prod.fst).Nodup
  | .JArray l => l ≠ [] ∧ elemsPlain l
  | .JString s => PlainText s
  | .JIntNumber i => -(2 ^ 63 : Int) ≤ i ∧ i < 0
  | .JUIntNumber n => n < 2 ^ 64
  | .JFloatNumber _ => False
  | .JBool _ => True
  | .JNull => True
/-- Every entry of an object is plain. -/
def membersPlain : Members → Prop
  | [] => True
  | (_, none) :: _ => False
  | (k, some v) :: m => PlainText k ∧ v.Plain ∧ membersPlain m
/-- Every element of an array is plain. -/
def elemsPlain : List Handle → Prop
  | [] => True
  | none :: _ => False
  | some v :: l => v.Plain ∧ elemsPlain l
end

/-- Equivalent trees: the same kind at every node, the same key set and equivalent
values under each key for objects (whatever the iteration order), the same length and
equivalent elements in order for arrays, the same payload for the other kinds. -/
inductive JValue.Equiv : JValue → JValue → Prop
  | object (m1 m2 : Members) :
      (∀ k, Object.contain m1 k = Object.contain m2 k) →
      (∀ k, (Object.get m1 k).isSome = (Object.get m2 k).isSome) →
      (∀ k v1 v2, Object.get m1 k = some v1 → Object.get m2 k = some v2 → JValue.Equiv v1 v2) →
      JValue.Equiv (.JObject m1) (.JObject m2)
  | array (l1 l2 : List Handle) :
      Array.size l1 = Array.size l2 →
      (∀ i, Array.get l1 i = some none ↔ Array.get l2 i = some none) →
      (∀ i v1 v2, Array.get l1 i = some (some v1) → Array.get l2 i = some (some v2) →
        JValue.Equiv v1 v2) →
      JValue.Equiv (.JArray l1) (.JArray l2)
  | string (s : List Char) : JValue.Equiv (.JString s) (.JString s)
  | intNumber (i : Int) : JValue.Equiv (.JIntNumber i) (.JIntNumber i)
  | uintNumber (n : Nat) : JValue.Equiv (.JUIntNumber n) (.JUIntNumber n)
  | floatNumber (d : Double) : JValue.Equiv (.JFloatNumber d) (.JFloatNumber d)
  | bool (b : Bool) : JValue.Equiv (.JBool b) (.JBool b)
  | null : JValue.Equiv .JNull .JNull

/-- The entries `_Object_::toString` appends for members given as key and value text. -/
def entriesText : List (List Char × List Char) → List Char
  | [] => []
  | m :: ms => cQuote :: m.1 ++ cQuote :: ':' :: m.2 ++ ',' :: entriesText ms

/-- What `_Array_::toString` appends for element texts from index `i` on. -/
def commaJoin : List (List Char) → Nat → List Char
  | [], _ => []
  | t :: ts, i => (if i ≠ 0 then [','] else []) ++ t ++ commaJoin ts (i + 1)

/-- Element texts without whitespace, as elements of an array text. -/
def compactElems (ts : List (List Char)) : List (List Char × List Char × List Char) :=
  ts.map (fun t => ([], t, []))

/-- The round trip of claim C1 at a tree `v`: `toString` gives a text, `parse` of that
text reports no error, and the tree it returns is equivalent to `v`. -/
def RoundTrip (g : Double → List Char) (v : JValue) : Prop :=
  ∃ t v1, v.toString g = some t ∧ parse t = some (some v1, false) ∧ JValue.Equiv v1 v

/-- The exponent part of the number grammar in the words of the specification: nothing,
or `e`/`E` with an optional `+`/`-` and one or more digits. -/
def jsonExponent (r : List Char) : Bool :=
  match r with
  | [] => true
  | c :: r1 =>
    (c = 'e' || c = 'E') &&
      (match r1 with
        | '+' :: r2 => !r2.isEmpty && r2.all isDigit
        | '-' :: r2 => !r2.isEmpty && r2.all isDigit
        | r2 => !r2.isEmpty && r2.all isDigit)

/-- The fraction part of the number grammar in the words of the specification: an
optional `.` with one or more digits, then the exponent part. -/
def jsonFraction (r : List Char) : Bool :=
  match r with
  | '.' :: r1 => !(r1.takeWhile isDigit).isEmpty && jsonExponent (r1.dropWhile isDigit)
  | r1 => jsonExponent r1

/-- The JSON number grammar in the words of the specification: an optional `-`, then
either a single `0` or a non-zero digit followed by digits, then the fraction and exponent
parts. -/
def jsonNumber (t : List Char) : Bool :=
  match (match t with | '-' :: r => r | r => r) with
  | [] => false
  | d :: r =>
    if d = '0' then jsonFraction r
    else if isDigit d = true then jsonFraction (r.dropWhile isDigit)
    else false

/-- The name of a kind, as `_JsonTypeString_` spells it. -/
def kindName : JType → List Char
  | .JOBJECT => JsonTypeString.getJsonTypeObjectString
  | .JARRAY => JsonTypeString.getJsonTypeArrayString
  | .JSTRING => JsonTypeString.getJsonTypeStringString
  | .JINTNUMBER => JsonTypeString.getJsonTypeIntNumberString
  | .JUINTNUMBER => JsonTypeString.getJsonTypeUIntNumberString
  | .JFLOATNUMBER => JsonTypeString.getJsonTypeFloatNumberString
  | .JBOOL => JsonTypeString.getJsonTypeBoolString
  | .JNULL => JsonTypeString.getJsonTypeNullString

/-- The accessor of `JFactory` for the kind `K`. -/
def accessor : JType → Handle → Except JsonException Handle
  | .JOBJECT => JFactory.getObject
  | .JARRAY => JFactory.getArray
  | .JSTRING => JFactory.getString
  | .JINTNUMBER => JFactory.getIntNumber
  | .JUINTNUMBER => JFactory.getUIntNumber
  | .JFLOATNUMBER => JFactory.getFloatNumber
  | .JBOOL => JFactory.getBool
  | .JNULL => JFactory.getNull

/-- The name of the actual kind of a handle: the `invalid` name for an empty handle. -/
def actualName : Handle → List Char
  | none => JsonTypeString.getNullptr
  | some v => kindName v.type

/-- Texts separated by single commas. -/
def commaSep : List (List Char) → List Char
  | [] => []
  | [t] => t
  | t :: t1 :: ts => t ++ ',' :: commaSep (t1 :: ts)

/-- Texts each followed by a comma. -/
def commaEnded : List (List Char) → List Char
  | [] => []
  | t :: ts => t ++ ',' :: commaEnded ts

/-- The `toString()` results of the elements of an array, in index order; `none` when an
element is an empty handle or its own `toString()` meets one. -/
def elementTexts (g : Double → List Char) : List Handle → Option (List (List Char))
  | [] => some []
  | none :: _ => none
  | some v :: l =>
    match v.toString g, elementTexts g l with
    | some t, some ts => some (t :: ts)
    | _, _ => none

/-- The entries of an object, one per stored key in iteration order, each the key in
double quotes, a colon and the `toString()` result of the value; `none` when a value is an
empty handle or its own `toString()` meets one. -/
def entryTexts (g : Double → List Char) : Members → Option (List (List Char))
  | [] => some []
  | (_, none) :: _ => none
  | (k, some v) :: m =>
    match v.toString g, entryTexts g m with
    | some t, some ts => some ((cQuote :: k ++ cQuote :: ':' :: t) :: ts)
    | _, _ => none

/-- The leading characters `parseValue` dispatches on: the opening brace, `[`, the double
quote, `-`, a decimal digit, `t`, `f` and `n`. -/
def LeadOk (c : Char) : Prop :=
  c = Char.ofNat 123 ∨ c = '[' ∨ c = cQuote ∨ c = '-' ∨ isDigit c = true ∨
    c = 't' ∨ c = 'f' ∨ c = 'n'

/-- The number of consecutive backslashes at the end of a text. -/
def backslashRun (pre : List Char) : Nat :=
  (pre.reverse.takeWhile (fun c => decide (c = cBackslash))).length

/-- One round of the `switch(status)` in the loop of `parseArray`: the status, the
result, the token and `m_error_` at the end of the round. -/
def arrayRound (parseValue : Token → Bool → Step Handle) (status : ArrayType)
    (res : List Handle) (token : Token) (m_error_ : Bool) : Step (ArrayType × List Handle) :=
  match status with
  | .WAIT_VALUE_OR_END => arrayWaitValue parseValue res (matchChar token ']').2 m_error_
  | .WAIT_VALUE => arrayWaitValue parseValue res token m_error_
  | .WAIT_COMMA_OR_END =>
    let m1 := matchChar token ','
    let m2 := if m1.1 = true then (false, m1.2) else matchChar m1.2 ']'
    let status1 : ArrayType :=
      if m1.1 = true then .WAIT_VALUE else if m2.1 = true then .END else .WAIT_COMMA_OR_END
    let err1 : Bool := if m1.1 = true ∨ m2.1 = true then m_error_ else true
    some ((status1, res), m2.2, err1)
  | .END => some ((.END, res), token, m_error_)

/-- One round of the `switch(status)` in the loop of `parseObject`: the status, the
result, the key, the value, the token and `m_error_` at the end of the round. -/
def objectRound (parseValue : Token → Bool → Step Handle) (status : ObjectType)
    (res : Members) (key : Option (List Char)) (value : Handle) (token : Token)
    (m_error_ : Bool) : Step (ObjectType × Members × Option (List Char) × Handle) :=
  match status with
  | .WAIT_KEY_OR_END =>
    let m := matchChar token (Char.ofNat 125)
    if m.1 = true then some ((.END, res, key, value), m.2, m_error_)
    else
      let r := objectWaitKey m.2 m_error_
      some ((r.1, res, r.2.1, value), r.2.2.1, r.2.2.2)
  | .WAIT_KEY =>
    let r := objectWaitKey token m_error_
    some ((r.1, res, r.2.1, value), r.2.2.1, r.2.2.2)
  | .WAIT_COLON =>
    let m := matchChar token ':'
    some ((.WAIT_VALUE, res, key, value), m.2, if m.1 = true then m_error_ else true)
  | .WAIT_VALUE =>
    match parseValue token m_error_ with
    | none => none
    | some (v, token1, err1) => some ((.WAIT_COMMA_OR_END, res, key, v), token1, err1)
  | .WAIT_COMMA_OR_END =>
    let m1 := matchChar token (Char.ofNat 125)
    let m2 := if m1.1 = true then (false, m1.2) else matchChar m1.2 ','
    let status1 : ObjectType :=
      if m1.1 = true then .END else if m2.1 = true then .WAIT_KEY else .WAIT_COMMA_OR_END
    let err1 : Bool := if m1.1 = true ∨ m2.1 = true then m_error_ else true
    match key with
    | none => none
    | some k => some ((status1, (Object.set res k value).2, key, value), m2.2, err1)
  | .END => some ((.END, res, key, value), token, m_error_)

/-- What is left of the token stream: nothing when it is finished, else the number of
characters from the start of the current token to the end of the text. -/
def Token.left (tk : Token) : Nat := if tk.finish = true then 0 else tk.s.length - tk.first

/-- A state of the token stream as the tokenizer leaves it: finished, or standing at a
token. -/
def Live (tk : Token) : Prop := tk.finish = true ∨ ∃ txt, At tk txt

/-- A character that makes a number token float-shaped: the point or an exponent letter. -/
def FloatMark (c : Char) : Prop := c = '.' ∨ c = 'e' ∨ c = 'E'

/-- The states of `matchNumber` that are entered only after a point or an exponent letter. -/
def pastMark : NumberStatus → Bool
  | .DOT | .DECIMAL | .SNOT | .SIGNAL | .FRAC => true
  | _ => false

/-- The characters `at(0)`, ..., `at(size() - 1)` of a token. -/
def Token.chars (tk : Token) : List Char := (List.range tk.size).map tk.atIdx

mutual
/-- A value tree without empty handles: every handle stored in an Object or an Array
reachable from the node is non-empty. -/
def JValue.Full : JValue → Prop
  | .JObject m => membersFull m
  | .JArray l => elemsFull l
  | _ => True
/-- Every value stored in the entries is a non-empty handle to a full tree. -/
def membersFull : Members → Prop
  | [] => True
  | (_, none) :: _ => False
  | (_, some v) :: m => v.Full ∧ membersFull m
/-- Every element is a non-empty handle to a full tree. -/
def elemsFull : List Handle → Prop
  | [] => True
  | none :: _ => False
  | some v :: l => v.Full ∧ elemsFull l
end

/-- A non-empty handle to a full tree. -/
def Handle.Full (h : Handle) : Prop := ∃ v, h = some v ∧ v.Full

/-- The token `tk1` and flag `e1` after a stretch of parsing that started with the token
`tk` and the flag `e`: a set flag stays set, and `tk1` is `tk` after some number of
`nextToken` calls. -/
def Moves (tk : Token) (e : Bool) (tk1 : Token) (e1 : Bool) : Prop :=
  (e = true → e1 = true) ∧ ∃ n, tk1 = Nat.iterate Token.nextToken n tk

/-- As `Moves`, and at least one `nextToken` call has been made when the stretch ends
with the flag clear and the stream was not finished at its start. -/
def Advances (tk : Token) (e : Bool) (tk1 : Token) (e1 : Bool) : Prop :=
  (e = true → e1 = true) ∧
  ∃ n, tk1 = Nat.iterate Token.nextToken n tk ∧ (e1 = false → tk.finish = false → 0 < n)

/-- The parse step `pv` never clears the flag and only advances the token; when it ends
with the flag clear it has taken a token and returns a non-empty handle to a full tree. -/
def StepOk (pv : Token → Bool → Step Handle) : Prop :=
  ∀ tk e h tk1 e1, pv tk e = some (h, tk1, e1) →
    Advances tk e tk1 e1 ∧ (e1 = false → Handle.Full h)

/-- The invariant of the loop of `parseObject` while the flag is clear: a key is held
once one has been read, and in state `WAIT_COMMA_OR_END` the value just parsed is a
non-empty handle to a full tree. -/
def ObjectInv (st : ObjectType) (key : Option (List Char)) (value : Handle) (e : Bool) : Prop :=
  e = false →
    ((st = .WAIT_COLON ∨ st = .WAIT_VALUE ∨ st = .WAIT_COMMA_OR_END) → key ≠ none) ∧
    (st = .WAIT_COMMA_OR_END → Handle.Full value)

mutual
/-- Every handle stored in an Object or an Array reachable from the node, the node's own
entries first. -/
def JValue.stored : JValue → List Handle
  | .JObject m => storedMembers m
  | .JArray l => storedElems l
  | _ => []
/-- The handles stored in the entries and below them. -/
def storedMembers : Members → List Handle
  | [] => []
  | (_, none) :: m => none :: storedMembers m
  | (_, some v) :: m => some v :: (v.stored ++ storedMembers m)
/-- The handles stored in the elements and below them. -/
def storedElems : List Handle → List Handle
  | [] => []
  | none :: l => none :: storedElems l
  | some v :: l => some v :: (v.stored ++ storedElems l)
end

/-- The states of the token stream at its tokens, from the current one on: the stream
itself, then the stream after each further `nextToken` call, until it is finished
(at most `fuel` states). -/
def tokenStates : Nat → Token → List Token
  | 0, _ => []
  | fuel + 1, tk => if tk.isEnd = true then [] else tk :: tokenStates fuel tk.nextToken

/-- The states of the token stream of a text at each of its tokens.  A text has at most
as many tokens as characters. -/
def tokensOf (s : List Char) : List Token := tokenStates s.length (Token.init s).nextToken

/-- The sequence of token texts (`tokenStr`) that the tokenizer produces for a text. -/
def tokenTexts (s : List Char) : List (List Char) := (tokensOf s).map Token.tokenStr

/-- The sequence of spans `[first, last)` that the tokenizer produces for a text. -/
def tokenSpans (s : List Char) : List (Nat × Nat) := (tokensOf s).map (fun tk => (tk.first, tk.last))

/-- The text made of a gap, a token, a gap, a token, and so on: the gaps and the token
texts taken in turn. -/
def interleave : List (List Char) → List (List Char) → List Char
  | g :: gs, t :: ts => g ++ t ++ interleave gs ts
  | _, _ => []

/-- Two tokens with the same text: not empty, of the same size, with the same character
at every index and the same `tokenStr`. -/
def SameToken (a b : Token) : Prop :=
  0 < a.size ∧ a.size = b.size ∧ a.tokenStr = b.tokenStr ∧
    ∀ j, j < a.size → a.atIdx j = b.atIdx j

/-- Two token streams that give the same token texts from here on: both are finished, or
both stand at tokens with the same text and are again such streams after `nextToken`. -/
inductive SameStream : Token → Token → Prop
  | done (a b : Token) : a.finish = true → b.finish = true → SameStream a b
  | token (a b : Token) : a.finish = false → b.finish = false → SameToken a b →
      SameStream a.nextToken b.nextToken → SameStream a b

/-- Two results of a parse step that agree: the same value, the same flag, and token
streams that give the same token texts. -/
def SameOut {α : Type} (ra rb : α × Token × Bool) : Prop :=
  ra.1 = rb.1 ∧ ra.2.2 = rb.2.2 ∧ SameStream ra.2.1 rb.2.1

/-- Two parse steps that agree on streams with the same token texts, and that reject a
token starting with `]`. -/
def SameSteps (pv1 pv2 : Token → Bool → Step Handle) : Prop :=
  (∀ a b e ra rb, SameStream a b → a.finish = false → pv1 a e = some ra → pv2 b e = some rb →
    SameOut ra rb) ∧
  (∀ tk e r, tk.atIdx 0 = ']' → pv1 tk e = some r → r = (none, tk, true)) ∧
  (∀ tk e r, tk.atIdx 0 = ']' → pv2 tk e = some r → r = (none, tk, true))


/-! ## The tokenizer on the remaining text -/

theorem strAt_eq_head (s : List Char) (i : Nat) (h : i < s.length) :
    s.drop i = strAt s i :: s.drop (i + 1) := by
  rw [List.drop_eq_getElem_cons h]
  simp [strAt, List.getD_eq_getElem?_getD, List.getElem?_eq_getElem h]

theorem strAt_length_le (s : List Char) (i : Nat) (h : s.length ≤ i) : strAt s i = cNul := by
  simp [strAt, List.getD_eq_getElem?_getD, List.getElem?_eq_none h]

theorem strAt_drop (s : List Char) (i j : Nat) : strAt (s.drop i) j = strAt s (i + j) := by
  simp [strAt, List.getD_eq_getElem?_getD, List.getElem?_drop]

theorem skipSpace_eq (s : List Char) : ∀ (fuel last : Nat), s.length - last ≤ fuel →
    Token.skipSpace s fuel last = last + ((s.drop last).takeWhile isspace).length := by
  intro fuel
  induction fuel with
  | zero =>
    intro last h
    have : s.drop last = [] := List.drop_eq_nil_of_le (by omega)
    simp [Token.skipSpace, this]
  | succ n ih =>
    intro last h
    unfold Token.skipSpace
    by_cases hl : last < s.length
    · rw [strAt_eq_head s last hl]
      by_cases hs : isspace (strAt s last) = true
      · rw [if_pos ⟨hl, hs⟩, ih (last + 1) (by omega)]
        simp [List.takeWhile_cons, hs]; omega
      · rw [if_neg (fun h => hs h.2)]
        simp [List.takeWhile_cons, hs]
    · rw [if_neg (fun h => hl h.1)]
      have : s.drop last = [] := List.drop_eq_nil_of_le (by omega)
      simp [this]

theorem scanString_eq (s : List Char) : ∀ (fuel last : Nat), s.length - last ≤ fuel →
    last < s.length →
    Token.scanString s fuel last = last + 1 + strRun (strAt s last) (s.drop (last + 1)) := by
  intro fuel
  induction fuel with
  | zero => intro last h hl; omega
  | succ n ih =>
    intro last h hl
    unfold Token.scanString
    rw [if_pos hl]
    simp only [Nat.add_sub_cancel]
    by_cases hl1 : last + 1 < s.length
    · rw [strAt_eq_head s (last + 1) hl1]
      by_cases hq : strAt s (last + 1) = cQuote ∧ strAt s last ≠ cBackslash
      · rw [if_pos hq]; simp [strRun, hq]
      · rw [if_neg hq, ih (last + 1) (by omega) hl1]
        simp only [strRun, if_neg hq]; omega
    · have hnil : s.drop (last + 1) = [] := List.drop_eq_nil_of_le (by omega)
      have hz : strAt s (last + 1) = cNul := strAt_length_le s _ (by omega)
      have hne : ¬ (strAt s (last + 1) = cQuote ∧ strAt s last ≠ cBackslash) := by
        rw [hz]; intro h; exact absurd h.1 (by decide)
      rw [if_neg hne, hnil]
      cases n with
      | zero => simp [Token.scanString, strRun]
      | succ m => simp [Token.scanString, strRun, hl1]

theorem scanOther_eq (s : List Char) : ∀ (fuel last : Nat), s.length - last ≤ fuel →
    last < s.length →
    Token.scanOther s fuel last = last + 1 + otherRun (s.drop (last + 1)) := by
  intro fuel
  induction fuel with
  | zero => intro last h hl; omega
  | succ n ih =>
    intro last h hl
    unfold Token.scanOther
    rw [if_pos hl]
    by_cases hl1 : last + 1 < s.length
    · rw [strAt_eq_head s (last + 1) hl1]
      by_cases hq : isspace (strAt s (last + 1)) = true ∨ isStructural (strAt s (last + 1)) = true
      · rw [if_pos hq]; simp [otherRun, hq]
      · rw [if_neg hq, ih (last + 1) (by omega) hl1]
        simp only [otherRun, if_neg hq]; omega
    · have hnil : s.drop (last + 1) = [] := List.drop_eq_nil_of_le (by omega)
      have hz : strAt s (last + 1) = cNul := strAt_length_le s _ (by omega)
      have hne : ¬ (isspace (strAt s (last + 1)) = true ∨ isStructural (strAt s (last + 1)) = true) := by
        rw [hz]; decide
      rw [if_neg hne, hnil]
      cases n with
      | zero => simp [Token.scanOther, otherRun]
      | succ m => simp [Token.scanOther, otherRun, hl1]

theorem strRun_le (cs : List Char) : ∀ prev, strRun prev cs ≤ cs.length := by
  induction cs with
  | nil => intro prev; simp [strRun]
  | cons c cs ih =>
    intro prev
    simp only [strRun, List.length_cons]
    split
    · omega
    · have := ih c; omega

theorem otherRun_le (cs : List Char) : otherRun cs ≤ cs.length := by
  induction cs with
  | nil => simp [otherRun]
  | cons c cs ih =>
    simp only [otherRun, List.length_cons]
    split <;> omega

theorem lexLen_le (txt : List Char) : lexLen txt ≤ txt.length := by
  cases txt with
  | nil => simp [lexLen]
  | cons c cs =>
    simp only [lexLen, List.length_cons]
    have h1 := strRun_le cs c
    have h2 := otherRun_le cs
    split
    · omega
    · split <;> omega

theorem lexLen_pos (c : Char) (cs : List Char) : 0 < lexLen (c :: cs) := by
  simp only [lexLen]
  split
  · omega
  · split <;> omega

theorem At.at_size {tk : Token} {txt : List Char} (h : At tk txt) : tk.size = lexLen txt := by
  simp [Token.size, h.last]

theorem At.at_atIdx {tk : Token} {txt : List Char} (h : At tk txt) (i : Nat) :
    tk.atIdx i = strAt txt i := by
  rw [← h.text, strAt_drop]; rfl

theorem At.at_tokenStr {tk : Token} {txt : List Char} (h : At tk txt) :
    tk.tokenStr = txt.take (lexLen txt) := by
  simp [Token.tokenStr, h.last, h.text]

theorem At.at_isEnd {tk : Token} {txt : List Char} (h : At tk txt) : tk.isEnd = false := h.notEnd

theorem At.at_last_le {tk : Token} {txt : List Char} (h : At tk txt) : tk.last ≤ tk.s.length := by
  have h1 := lexLen_le txt
  have h2 : txt.length = tk.s.length - tk.first := by rw [← h.text]; simp
  obtain ⟨c, cs, hc, _⟩ := h.head
  have h3 : 0 < txt.length := by rw [hc]; simp
  rw [h.last]; omega

theorem At.at_drop_last {tk : Token} {txt : List Char} (h : At tk txt) :
    tk.s.drop tk.last = txt.drop (lexLen txt) := by
  rw [h.last, ← h.text, List.drop_drop]

theorem drop_takeWhile_length (p : Char → Bool) (l : List Char) :
    l.drop (l.takeWhile p).length = l.dropWhile p := by
  induction l with
  | nil => rfl
  | cons a l ih =>
    by_cases h : p a = true
    · simp [List.takeWhile_cons, List.dropWhile_cons, h, ih]
    · simp [List.takeWhile_cons, List.dropWhile_cons, h]

theorem dropWhile_head_false (p : Char → Bool) (l : List Char) (c : Char) (cs : List Char)
    (h : l.dropWhile p = c :: cs) : p c = false := by
  induction l with
  | nil => simp at h
  | cons a l ih =>
    rw [List.dropWhile_cons] at h
    split at h
    · exact ih h
    · rename_i hp
      simp only [List.cons.injEq] at h
      rw [← h.1]; simpa using hp

theorem dropWhile_space_append (ws rest : List Char) (hws : ∀ c ∈ ws, isspace c = true) :
    (ws ++ rest).dropWhile isspace = rest.dropWhile isspace := by
  induction ws with
  | nil => rfl
  | cons a ws ih =>
    have ha := hws a (by simp)
    simp only [List.cons_append, List.dropWhile_cons, ha, if_true]
    exact ih (fun c hc => hws c (by simp [hc]))

theorem nextToken_pos_aux (tk : Token) (n : Nat) (r : List Char)
    (hf : tk.finish = false)
    (hskip : Token.skipSpace tk.s (tk.s.length - tk.last) tk.last = tk.last + n)
    (hdrop : tk.s.drop (tk.last + n) = r) (hnle : tk.last + n ≤ tk.s.length)
    (hsp : ∀ c cs, r = c :: cs → isspace c = false) :
    (r = [] → tk.nextToken.finish = true) ∧ (r ≠ [] → At tk.nextToken r) := by
  have hlen : r.length = tk.s.length - (tk.last + n) := by rw [← hdrop]; simp
  unfold Token.nextToken
  simp only [hf, Bool.false_eq_true, if_false, hskip]
  constructor
  · intro hnil
    have : tk.last + n = tk.s.length := by
      rw [hnil] at hlen; simp at hlen; omega
    simp [this]
  · intro hne
    obtain ⟨c, cs, hc⟩ := List.exists_cons_of_ne_nil hne
    subst hc
    have hlt : tk.last + n < tk.s.length := by
      simp at hlen; omega
    have hhead := strAt_eq_head tk.s (tk.last + n) hlt
    rw [hdrop] at hhead
    simp only [List.cons.injEq] at hhead
    have hcat : strAt tk.s (tk.last + n) = c := hhead.1.symm
    have hcs : tk.s.drop (tk.last + n + 1) = cs := hhead.2.symm
    have hcsp : isspace c = false := hsp c cs rfl
    rw [if_neg (by omega), hcat]
    by_cases hst : isStructural c = true
    · rw [if_pos hst]
      exact ⟨rfl, hdrop, by simp [lexLen, hst], ⟨c, cs, rfl, hcsp⟩⟩
    · rw [if_neg hst]
      by_cases hq : c = cQuote
      · rw [if_pos hq]
        refine ⟨rfl, hdrop, ?_, ⟨c, cs, rfl, hcsp⟩⟩
        simp only [lexLen, if_neg hst, if_pos hq]
        rw [scanString_eq _ _ _ (le_refl _) hlt, hcat, hcs]; omega
      · rw [if_neg hq]
        refine ⟨rfl, hdrop, ?_, ⟨c, cs, rfl, hcsp⟩⟩
        simp only [lexLen, if_neg hst, if_neg hq]
        rw [scanOther_eq _ _ _ (le_refl _) hlt, hcs]; omega

theorem nextToken_pos (tk : Token) (hf : tk.finish = false) (hl : tk.last ≤ tk.s.length) :
    Pos tk.nextToken (tk.s.drop tk.last) := by
  have hskip := skipSpace_eq tk.s (tk.s.length - tk.last) tk.last (le_refl _)
  have hdrop := drop_takeWhile_length isspace (tk.s.drop tk.last)
  rw [List.drop_drop] at hdrop
  have hnle : tk.last + ((tk.s.drop tk.last).takeWhile isspace).length ≤ tk.s.length := by
    have : ((tk.s.drop tk.last).takeWhile isspace).length ≤ (tk.s.drop tk.last).length :=
      (List.takeWhile_sublist _).length_le
    simp at this; omega
  exact nextToken_pos_aux tk _ _ hf hskip hdrop hnle
    (fun c cs hc => dropWhile_head_false isspace _ c cs hc)

theorem At.at_next {tk : Token} {txt : List Char} (h : At tk txt) :
    Pos tk.nextToken (txt.drop (lexLen txt)) := by
  rw [← h.at_drop_last]
  exact nextToken_pos tk h.notEnd h.at_last_le

theorem init_pos (s : List Char) : Pos (Token.init s).nextToken s :=
  nextToken_pos (Token.init s) rfl (Nat.zero_le _)

theorem Pos.pos_at_head {tk : Token} {c : Char} {cs : List Char} (h : Pos tk (c :: cs))
    (hc : isspace c = false) : At tk (c :: cs) := by
  have : (c :: cs).dropWhile isspace = c :: cs := by simp [List.dropWhile_cons, hc]
  have h2 := h.2
  rw [this] at h2
  exact h2 (by simp)

theorem Pos.pos_of_space {tk : Token} {ws rest : List Char} (h : Pos tk rest)
    (hws : ∀ c ∈ ws, isspace c = true) : Pos tk (ws ++ rest) := by
  unfold Pos
  rw [dropWhile_space_append ws rest hws]
  exact h


/-! ## Decimal digits -/

theorem toDigitsCore_eq (n : Nat) : ∀ (fuel : Nat) (ds : List Char), n < fuel →
    Nat.toDigitsCore 10 fuel n ds = Nat.toDigits 10 n ++ ds := by
  induction n using Nat.strong_induction_on with
  | _ n ih =>
    intro fuel ds hf
    obtain ⟨f, rfl⟩ : ∃ f, fuel = f + 1 := ⟨fuel - 1, by omega⟩
    unfold Nat.toDigits
    simp only [Nat.toDigitsCore]
    by_cases h0 : n / 10 = 0
    · simp [h0]
    · simp only [h0, if_false]
      have hlt : n / 10 < n := by omega
      rw [ih (n / 10) hlt f _ (by omega), ih (n / 10) hlt n _ hlt]
      simp

theorem toDigits_small (n : Nat) (h : n < 10) : Nat.toDigits 10 n = [Nat.digitChar n] := by
  unfold Nat.toDigits
  simp only [Nat.toDigitsCore]
  have : n / 10 = 0 := by omega
  have h2 : n % 10 = n := by omega
  simp [this, h2]

theorem toDigits_step (n : Nat) (h : 10 ≤ n) :
    Nat.toDigits 10 n = Nat.toDigits 10 (n / 10) ++ [Nat.digitChar (n % 10)] := by
  conv_lhs => unfold Nat.toDigits
  simp only [Nat.toDigitsCore]
  have : n / 10 ≠ 0 := by omega
  simp only [this, if_false]
  exact toDigitsCore_eq (n / 10) n _ (by omega)

theorem digitChar_toNat (d : Nat) (h : d < 10) : (Nat.digitChar d).toNat = 48 + d := by
  interval_cases d <;> rfl

theorem digitChar_isDigit (d : Nat) (h : d < 10) : isDigit (Nat.digitChar d) = true := by
  interval_cases d <;> rfl

theorem toDigits_allDigits (n : Nat) : AllDigits (Nat.toDigits 10 n) := by
  induction n using Nat.strong_induction_on with
  | _ n ih =>
    by_cases h : n < 10
    · rw [toDigits_small n h]
      intro c hc
      simp only [List.mem_singleton] at hc
      rw [hc]; exact digitChar_isDigit n h
    · rw [toDigits_step n (by omega)]
      intro c hc
      rw [List.mem_append] at hc
      rcases hc with hc | hc
      · exact ih (n / 10) (by omega) c hc
      · simp only [List.mem_singleton] at hc
        rw [hc]; exact digitChar_isDigit _ (by omega)

theorem toDigits_ne_nil (n : Nat) : Nat.toDigits 10 n ≠ [] := by
  by_cases h : n < 10
  · rw [toDigits_small n h]; simp
  · rw [toDigits_step n (by omega)]; simp

theorem digitsValue_snoc (l : List Char) (hl : AllDigits l) (c : Char) (hc : isDigit c = true) :
    ∀ acc, digitsValue acc (l ++ [c]) = digitsValue acc l * 10 + (c.toNat - '0'.toNat) := by
  induction l with
  | nil => intro acc; simp [digitsValue, hc]
  | cons a l ih =>
    intro acc
    have ha : isDigit a = true := hl a (by simp)
    simp only [List.cons_append, digitsValue, ha, if_true]
    exact ih (fun x hx => hl x (by simp [hx])) _

theorem digitsValue_toDigits (n : Nat) : digitsValue 0 (Nat.toDigits 10 n) = n := by
  induction n using Nat.strong_induction_on with
  | _ n ih =>
    by_cases h : n < 10
    · rw [toDigits_small n h]
      simp only [digitsValue, digitChar_isDigit n h, if_true, digitChar_toNat n h]
      simp
    · rw [toDigits_step n (by omega),
        digitsValue_snoc _ (toDigits_allDigits _) _ (digitChar_isDigit _ (by omega)),
        ih (n / 10) (by omega), digitChar_toNat _ (by omega)]
      simp; omega

theorem toDigits_length_le (k : Nat) : ∀ n, n < 10 ^ (k + 1) ↔ (Nat.toDigits 10 n).length ≤ k + 1 := by
  induction k with
  | zero =>
    intro n
    by_cases h : n < 10
    · rw [toDigits_small n h]; simp [h]
    · rw [toDigits_step n (by omega)]
      have := toDigits_ne_nil (n / 10)
      have : 0 < (Nat.toDigits 10 (n / 10)).length := List.length_pos.mpr this
      simp only [List.length_append, List.length_singleton, zero_add, pow_one]
      omega
  | succ k ih =>
    intro n
    by_cases h : n < 10
    · rw [toDigits_small n h]
      have : (10 : Nat) ≤ 10 ^ (k + 1 + 1) := by
        calc (10 : Nat) = 10 ^ 1 := by norm_num
          _ ≤ 10 ^ (k + 1 + 1) := Nat.pow_le_pow_right (by norm_num) (by omega)
      simp; omega
    · rw [toDigits_step n (by omega)]
      have := ih (n / 10)
      simp only [List.length_append, List.length_singleton]
      rw [pow_succ]
      constructor
      · intro hn
        have : n / 10 < 10 ^ (k + 1) := by
          apply Nat.div_lt_of_lt_mul; rw [mul_comm]; exact hn
        omega
      · intro hn
        have h2 : n / 10 < 10 ^ (k + 1) := by
          rw [ih (n / 10)]; omega
        omega

theorem toDigits_head (n : Nat) (hn : 0 < n) :
    ∃ c cs, Nat.toDigits 10 n = c :: cs ∧ '1'.toNat ≤ c.toNat ∧ c.toNat ≤ '9'.toNat := by
  induction n using Nat.strong_induction_on with
  | _ n ih =>
    by_cases h : n < 10
    · rw [toDigits_small n h]
      refine ⟨_, [], rfl, ?_⟩
      rw [digitChar_toNat n h]
      constructor
      · show 49 ≤ 48 + n; omega
      · show 48 + n ≤ 57; omega
    · rw [toDigits_step n (by omega)]
      obtain ⟨c, cs, hc, h1⟩ := ih (n / 10) (by omega) (by omega)
      exact ⟨c, cs ++ [_], by rw [hc]; rfl, h1⟩

theorem boundLoop_eq (s bound : List Char) (hs : s.length = 20) (hb : bound.length = 20) :
    ∀ (fuel i : Nat), 20 - i ≤ fuel →
      JParser.boundLoop s bound fuel i = lexGt (s.drop i) (bound.drop i) := by
  intro fuel
  induction fuel with
  | zero =>
    intro i h
    have : s.drop i = [] := List.drop_eq_nil_of_le (by omega)
    simp [JParser.boundLoop, this, lexGt]
  | succ f ih =>
    intro i h
    unfold JParser.boundLoop
    by_cases hi : i < 20
    · rw [if_pos hi, strAt_eq_head s i (by omega), strAt_eq_head bound i (by omega)]
      simp only [lexGt]
      rw [ih (i + 1) (by omega)]
    · have : s.drop i = [] := List.drop_eq_nil_of_le (by omega)
      simp [hi, this, lexGt]

theorem isDigit_toNat (c : Char) (h : isDigit c = true) : 48 ≤ c.toNat ∧ c.toNat ≤ 57 := by
  simp only [isDigit, Bool.and_eq_true, decide_eq_true_eq] at h
  exact h

theorem digitsValue_acc (l : List Char) (hl : AllDigits l) :
    ∀ acc, digitsValue acc l = acc * 10 ^ l.length + digitsValue 0 l := by
  induction l with
  | nil => intro acc; simp [digitsValue]
  | cons a l ih =>
    intro acc
    have ha : isDigit a = true := hl a (by simp)
    have hl2 : AllDigits l := fun x hx => hl x (by simp [hx])
    simp only [digitsValue, ha, if_true, List.length_cons]
    rw [ih hl2 (acc * 10 + _), ih hl2 (0 * 10 + _)]
    ring

theorem digitsValue_lt (l : List Char) (hl : AllDigits l) : digitsValue 0 l < 10 ^ l.length := by
  induction l with
  | nil => simp [digitsValue]
  | cons a l ih =>
    have ha : isDigit a = true := hl a (by simp)
    have hl2 : AllDigits l := fun x hx => hl x (by simp [hx])
    have h1 := isDigit_toNat a ha
    simp only [digitsValue, ha, if_true, List.length_cons]
    rw [digitsValue_acc l hl2]
    have h2 := ih hl2
    have h3 : (0 * 10 + (a.toNat - '0'.toNat)) ≤ 9 := by
      show 0 * 10 + (a.toNat - 48) ≤ 9
      omega
    calc (0 * 10 + (a.toNat - '0'.toNat)) * 10 ^ l.length + digitsValue 0 l
        < (0 * 10 + (a.toNat - '0'.toNat)) * 10 ^ l.length + 10 ^ l.length := by omega
      _ = ((0 * 10 + (a.toNat - '0'.toNat)) + 1) * 10 ^ l.length := by ring
      _ ≤ 10 * 10 ^ l.length := Nat.mul_le_mul_right _ (by omega)
      _ = 10 ^ (l.length + 1) := by ring

theorem lexGt_iff (as : List Char) : ∀ (bs : List Char), as.length = bs.length →
    AllDigits as → AllDigits bs →
    (lexGt as bs = true ↔ digitsValue 0 bs < digitsValue 0 as) := by
  induction as with
  | nil =>
    intro bs hlen _ _
    have : bs = [] := by
      cases bs with
      | nil => rfl
      | cons b bs => simp at hlen
    simp [this, lexGt, digitsValue]
  | cons a as ih =>
    intro bs hlen ha hb
    cases bs with
    | nil => simp at hlen
    | cons b bs =>
      have hlen2 : as.length = bs.length := by simpa using hlen
      have ha1 : isDigit a = true := ha a (by simp)
      have hb1 : isDigit b = true := hb b (by simp)
      have ha2 : AllDigits as := fun x hx => ha x (by simp [hx])
      have hb2 : AllDigits bs := fun x hx => hb x (by simp [hx])
      have hA := isDigit_toNat a ha1
      have hB := isDigit_toNat b hb1
      have hva := digitsValue_lt as ha2
      have hvb := digitsValue_lt bs hb2
      simp only [lexGt, digitsValue, ha1, hb1, if_true]
      rw [digitsValue_acc as ha2, digitsValue_acc bs hb2, ← hlen2]
      rw [← hlen2] at hvb
      have e48 : '0'.toNat = 48 := rfl
      rw [e48]
      simp only [Nat.zero_mul, Nat.zero_add]
      generalize 10 ^ as.length = P at hva hvb ⊢
      by_cases h1 : a.toNat > b.toNat
      · simp only [h1, if_true, true_iff]
        have : (b.toNat - 48 + 1) * P ≤ (a.toNat - 48) * P := Nat.mul_le_mul_right _ (by omega)
        have e : (b.toNat - 48 + 1) * P = (b.toNat - 48) * P + P := by ring
        omega
      · by_cases h2 : a.toNat < b.toNat
        · simp only [h1, h2, if_true, if_false, Bool.false_eq_true, false_iff, not_lt]
          have : (a.toNat - 48 + 1) * P ≤ (b.toNat - 48) * P := Nat.mul_le_mul_right _ (by omega)
          have e : (a.toNat - 48 + 1) * P = (a.toNat - 48) * P + P := by ring
          omega
        · have heq : a.toNat = b.toNat := by omega
          simp only [h1, h2, if_false]
          rw [ih bs hlen2 ha2 hb2, heq]
          omega

theorem toDigits_length_lt (n k : Nat) (hk : 0 < k) :
    (Nat.toDigits 10 n).length < k + 1 ↔ n < 10 ^ k := by
  obtain ⟨j, rfl⟩ : ∃ j, k = j + 1 := ⟨k - 1, by omega⟩
  rw [toDigits_length_le j n]; omega


theorem strAt_zero (c : Char) (cs : List Char) : strAt (c :: cs) 0 = c := rfl

theorem strAt_succ (c : Char) (cs : List Char) (i : Nat) : strAt (c :: cs) (i + 1) = strAt cs i := rfl

theorem strAt_append_left (a b : List Char) (i : Nat) (h : i < a.length) :
    strAt (a ++ b) i = strAt a i := by
  simp [strAt, List.getD_eq_getElem?_getD, List.getElem?_append_left h]

theorem strAt_append_right (a b : List Char) (i : Nat) :
    strAt (a ++ b) (a.length + i) = strAt b i := by
  simp [strAt, List.getD_eq_getElem?_getD, List.getElem?_append_right]

theorem matchChar_hit {tk : Token} {c : Char} {rest : List Char} (h : At tk (c :: rest))
    (hc : isStructural c = true) :
    matchChar tk c = (true, tk.nextToken) ∧ Pos tk.nextToken rest := by
  have hsz : tk.size = 1 := by rw [h.at_size]; simp [lexLen, hc]
  have hat : tk.atIdx 0 = c := by rw [h.at_atIdx]; rfl
  refine ⟨by simp [matchChar, hsz, hat], ?_⟩
  have := h.at_next
  simpa [lexLen, hc] using this

theorem matchChar_miss {tk : Token} {c d : Char} {rest : List Char} (h : At tk (c :: rest))
    (hcd : c ≠ d) : matchChar tk d = (false, tk) := by
  have hat : tk.atIdx 0 = c := by rw [h.at_atIdx]; rfl
  simp [matchChar, hat, hcd]

theorem otherRun_bare (tl rest : List Char) (htl : NoDelim tl) (hr : Sep rest) :
    otherRun (tl ++ rest) = tl.length := by
  induction tl with
  | nil =>
    cases rest with
    | nil => rfl
    | cons c cs => simp [otherRun, hr c cs rfl]
  | cons a tl ih =>
    have ha := htl a (by simp)
    rw [List.cons_append]
    simp only [otherRun, ha.1, ha.2, Bool.false_eq_true, or_self, if_false,
      List.length_cons]
    rw [ih (fun x hx => htl x (by simp [hx]))]; omega

theorem lexLen_bare (c : Char) (tl rest : List Char) (hc1 : isStructural c = false)
    (hc2 : c ≠ cQuote) (htl : NoDelim tl) (hr : Sep rest) :
    lexLen (c :: tl ++ rest) = (c :: tl).length := by
  rw [List.cons_append]
  simp only [lexLen, hc1, Bool.false_eq_true, if_false, hc2, List.length_cons]
  rw [otherRun_bare tl rest htl hr]; omega

theorem strRun_plain (body rest : List Char) (hb : ∀ c ∈ body, c ≠ cQuote ∧ c ≠ cBackslash) :
    ∀ prev, prev ≠ cBackslash → strRun prev (body ++ cQuote :: rest) = body.length + 1 := by
  induction body with
  | nil => intro prev hp; simp [strRun, hp]
  | cons a body ih =>
    intro prev hp
    have ha := hb a (by simp)
    rw [List.cons_append]
    simp only [strRun, ha.1, false_and, if_false, List.length_cons]
    rw [ih (fun x hx => hb x (by simp [hx])) a ha.2]; omega

theorem lexLen_plain_string (body rest : List Char)
    (hb : ∀ c ∈ body, c ≠ cQuote ∧ c ≠ cBackslash) :
    lexLen (cQuote :: body ++ cQuote :: rest) = body.length + 2 := by
  have h1 : isStructural cQuote = false := by decide
  rw [List.cons_append]
  simp only [lexLen, h1, Bool.false_eq_true, if_false, if_true]
  rw [strRun_plain body rest hb cQuote (by decide)]; omega

theorem parseStringLoop_eq (tk : Token) (body : List Char)
    (hat : ∀ j, j < body.length → tk.atIdx (j + 1) = strAt body j) :
    ∀ (fuel k : Nat) (acc : List Char), body.length - k ≤ fuel → k ≤ body.length →
      parseStringLoop tk (body.length + 2) fuel (k + 1) acc
        = (unescape (body.drop k)).map (fun s => acc ++ s) := by
  intro fuel
  induction fuel using Nat.strong_induction_on with
  | _ fuel ih =>
    intro k acc hf hk
    by_cases hkn : k = body.length
    · have hnil : body.drop k = [] := List.drop_eq_nil_of_le (by omega)
      rw [hnil]
      cases fuel with
      | zero => simp [parseStringLoop, unescape]
      | succ f => simp [parseStringLoop, unescape, hkn]
    · have hlt : k < body.length := by omega
      obtain ⟨f, rfl⟩ : ∃ f, fuel = f + 1 := ⟨fuel - 1, by omega⟩
      have hd := strAt_eq_head body k hlt
      unfold parseStringLoop
      rw [if_pos (by omega), hat k hlt, hd]
      by_cases hk1 : k + 1 = body.length
      · have hnil : body.drop (k + 1) = [] := List.drop_eq_nil_of_le (by omega)
        rw [hnil]
        by_cases hb : strAt body k = cBackslash
        · simp [unescape, hb, hk1]
        · simp only [unescape, hb, if_false]
          rw [ih f (by omega) (k + 1) _ (by omega) (by omega), hnil]
          simp [unescape]
      · have hlt1 : k + 1 < body.length := by omega
        have hd1 := strAt_eq_head body (k + 1) hlt1
        rw [hd1]
        by_cases hb : strAt body k = cBackslash
        · simp only [unescape, hb, if_true]
          rw [if_neg (by omega), hat (k + 1) hlt1]
          by_cases he : parseEscape (strAt body (k + 1)) = cNul
          · simp [he]
          · simp only [he, if_false]
            rw [ih f (by omega) (k + 1 + 1) _ (by omega) (by omega)]
            cases unescape (body.drop (k + 1 + 1)) <;> simp
        · simp only [unescape, hb, if_false]
          rw [ih f (by omega) (k + 1) _ (by omega) (by omega), hd1]
          cases unescape (strAt body (k + 1) :: body.drop (k + 1 + 1)) <;> simp

theorem parseString_eq {tk : Token} {body rest : List Char}
    (h : At tk (cQuote :: body ++ cQuote :: rest))
    (hlen : lexLen (cQuote :: body ++ cQuote :: rest) = body.length + 2) :
    parseString tk false =
      match unescape body with
      | none => (none, tk, true)
      | some s => (some s, tk.nextToken, false) := by
  have hsz : tk.size = body.length + 2 := by rw [h.at_size, hlen]
  have h0 : tk.atIdx 0 = cQuote := by rw [h.at_atIdx]; rfl
  have hlast : tk.atIdx (body.length + 2 - 1) = cQuote := by
    rw [h.at_atIdx]
    show strAt (cQuote :: (body ++ cQuote :: rest)) (body.length + 1) = cQuote
    rw [strAt_succ]
    have := strAt_append_right body (cQuote :: rest) 0
    simpa using this
  have hat : ∀ j, j < body.length → tk.atIdx (j + 1) = strAt body j := by
    intro j hj
    rw [h.at_atIdx]
    show strAt (cQuote :: (body ++ cQuote :: rest)) (j + 1) = strAt body j
    rw [strAt_succ, strAt_append_left _ _ _ hj]
  have hloop := parseStringLoop_eq tk body hat (body.length + 2) 0 [] (by omega) (by omega)
  simp only [List.drop_zero, List.nil_append, zero_add] at hloop
  unfold parseString
  simp only [hsz, h0, hlast]
  rw [if_neg (by simp), hloop]
  cases unescape body <;> simp

theorem unescape_plain (body : List Char) (hb : ∀ c ∈ body, c ≠ cQuote ∧ c ≠ cBackslash) :
    unescape body = some body := by
  induction body with
  | nil => rfl
  | cons a body ih =>
    have ha := hb a (by simp)
    have ih2 := ih (fun x hx => hb x (by simp [hx]))
    cases body with
    | nil => simp [unescape, ha.2]
    | cons b body => simp only [unescape, ha.2, if_false, ih2, Option.map_some']

theorem at_token {tk : Token} {tok rest : List Char} (h : At tk (tok ++ rest))
    (hlen : lexLen (tok ++ rest) = tok.length) :
    tk.size = tok.length ∧ tk.tokenStr = tok ∧ (∀ j, j < tok.length → tk.atIdx j = strAt tok j)
      ∧ Pos tk.nextToken rest := by
  refine ⟨by rw [h.at_size, hlen], by rw [h.at_tokenStr, hlen]; simp, ?_, ?_⟩
  · intro j hj
    rw [h.at_atIdx, strAt_append_left _ _ _ hj]
  · have := h.at_next
    rw [hlen] at this
    simpa using this

theorem matchNumberLoop_eq (tk : Token) (tok : List Char) (hsz : tk.size = tok.length)
    (hat : ∀ j, j < tok.length → tk.atIdx j = strAt tok j) :
    ∀ (fuel i : Nat) (st : NumberStatus), tok.length - i ≤ fuel →
      matchNumberLoop tk fuel i st = runNumber st (tok.drop i) := by
  intro fuel
  induction fuel with
  | zero =>
    intro i st hf
    have : tok.drop i = [] := List.drop_eq_nil_of_le (by omega)
    simp [matchNumberLoop, this, runNumber]
  | succ f ih =>
    intro i st hf
    unfold matchNumberLoop
    by_cases hi : i < tok.length
    · rw [if_pos (by omega), hat i hi, strAt_eq_head tok i hi]
      simp only [runNumber]
      cases st.step (strAt tok i) with
      | none => rfl
      | some st1 => exact ih (i + 1) st1 (by omega)
    · have : tok.drop i = [] := List.drop_eq_nil_of_le (by omega)
      rw [if_neg (by omega), this]; rfl

theorem matchNumber_eq {tk : Token} {tok rest : List Char} (h : At tk (tok ++ rest))
    (hlen : lexLen (tok ++ rest) = tok.length) :
    matchNumber tk = runNumber .START tok := by
  obtain ⟨hsz, _, hat, _⟩ := at_token h hlen
  unfold matchNumber
  rw [matchNumberLoop_eq tk tok hsz hat _ 0 _ (by omega)]
  simp

theorem isDigit_not_delim (c : Char) (h : isDigit c = true) :
    isspace c = false ∧ isStructural c = false ∧ c ≠ cQuote ∧ c ≠ '-' := by
  have hb := isDigit_toNat c h
  refine ⟨?_, ?_, ?_, ?_⟩
  · by_contra hs
    simp only [isspace, Bool.or_eq_true, decide_eq_true_eq, Bool.not_eq_false] at hs
    rcases hs with ((((rfl | rfl) | rfl) | rfl) | rfl) | rfl <;> revert hb <;> decide
  · by_contra hs
    simp only [isStructural, Bool.or_eq_true, decide_eq_true_eq, Bool.not_eq_false] at hs
    rcases hs with ((((rfl | rfl) | rfl) | rfl) | rfl) | rfl <;> revert hb <;> decide
  · rintro rfl; revert hb; decide
  · rintro rfl; revert hb; decide

theorem allDigits_noDelim (l : List Char) (h : AllDigits l) : NoDelim l :=
  fun c hc => ⟨(isDigit_not_delim c (h c hc)).1, (isDigit_not_delim c (h c hc)).2.1⟩

theorem runNumber_nzero (l : List Char) (h : AllDigits l) : runNumber .NZERO l = 2 := by
  induction l with
  | nil => rfl
  | cons a l ih =>
    have ha := h a (by simp)
    have hb := isDigit_toNat a ha
    have hdot : a ≠ '.' := by rintro rfl; revert hb; decide
    have hd : '0'.toNat ≤ a.toNat ∧ a.toNat ≤ '9'.toNat := hb
    simp only [runNumber, NumberStatus.step, hdot, if_false, hd, and_self, if_true]
    exact ih (fun x hx => h x (by simp [hx]))

theorem runNumber_digits_from (st : NumberStatus) (hst : st = .START ∨ st = .NEG) (n : Nat) :
    runNumber st (Nat.toDigits 10 n) = 2 := by
  by_cases hn : n = 0
  · subst hn
    rcases hst with rfl | rfl <;> rfl
  · obtain ⟨c, cs, hc, h1, h9⟩ := toDigits_head n (by omega)
    have hall := toDigits_allDigits n
    rw [hc] at hall ⊢
    have hcs : AllDigits cs := fun x hx => hall x (by simp [hx])
    have hminus : c ≠ '-' := by rintro rfl; revert h1; decide
    have hzero : c ≠ '0' := by rintro rfl; revert h1; decide
    have hd : '1'.toNat ≤ c.toNat ∧ c.toNat ≤ '9'.toNat := ⟨h1, h9⟩
    rcases hst with rfl | rfl
    · simp only [runNumber, NumberStatus.step, hminus, hzero, if_false, hd, and_self, if_true]
      exact runNumber_nzero cs hcs
    · simp only [runNumber, NumberStatus.step, hzero, if_false, hd, and_self, if_true]
      exact runNumber_nzero cs hcs

theorem runNumber_uint (n : Nat) : runNumber .START (Nat.toDigits 10 n) = 2 :=
  runNumber_digits_from .START (Or.inl rfl) n

theorem runNumber_negint (n : Nat) : runNumber .START ('-' :: Nat.toDigits 10 n) = 2 := by
  have : NumberStatus.START.step '-' = some .NEG := rfl
  simp only [runNumber, this]
  exact runNumber_digits_from .NEG (Or.inr rfl) n

theorem uint_bound_digits : AllDigits uint_number_min_str ∧ uint_number_min_str.length = 20
    ∧ digitsValue 0 uint_number_min_str = 2 ^ 64 - 1 := by
  refine ⟨by unfold AllDigits; decide, rfl, by decide⟩

theorem int_bound_digits : AllDigits (int_number_min_str.drop 1) ∧ int_number_min_str.length = 20
    ∧ digitsValue 0 (int_number_min_str.drop 1) = 2 ^ 63 := by
  refine ⟨by unfold AllDigits; decide, rfl, by decide⟩

theorem greaterUIntNumberMax_digits (n : Nat) :
    greaterUIntNumberMax (Nat.toDigits 10 n) = decide (2 ^ 64 - 1 < n) := by
  obtain ⟨hb1, hb2, hb3⟩ := uint_bound_digits
  unfold greaterUIntNumberMax
  by_cases h1 : (Nat.toDigits 10 n).length > 20
  · have : ¬ n < 10 ^ 20 := by
      rw [← toDigits_length_lt n 20 (by omega)]; omega
    rw [if_pos h1]
    have : 2 ^ 64 - 1 < n := by
      have e : (2 : Nat) ^ 64 - 1 < 10 ^ 20 := by norm_num
      omega
    exact (decide_eq_true this).symm
  · rw [if_neg h1]
    by_cases h2 : (Nat.toDigits 10 n).length < 20
    · have : n < 10 ^ 19 := by
        rw [← toDigits_length_lt n 19 (by omega)]; omega
      rw [if_pos h2]
      have : ¬ 2 ^ 64 - 1 < n := by
        have e : (10 : Nat) ^ 19 ≤ 2 ^ 64 - 1 := by norm_num
        omega
      exact (decide_eq_false this).symm
    · rw [if_neg h2]
      have hl : (Nat.toDigits 10 n).length = 20 := by omega
      rw [boundLoop_eq _ _ hl hb2 20 0 (by omega)]
      simp only [List.drop_zero]
      have := lexGt_iff (Nat.toDigits 10 n) uint_number_min_str (by rw [hl, hb2])
        (toDigits_allDigits n) hb1
      rw [hb3, digitsValue_toDigits] at this
      by_cases hgt : 2 ^ 64 - 1 < n
      · rw [this.mpr hgt, decide_eq_true hgt]
      · have : lexGt (Nat.toDigits 10 n) uint_number_min_str = false := by
          cases hx : lexGt (Nat.toDigits 10 n) uint_number_min_str
          · rfl
          · exact absurd (this.mp hx) hgt
        rw [this, decide_eq_false hgt]

theorem lessIntNumberMin_digits (n : Nat) :
    lessIntNumberMin ('-' :: Nat.toDigits 10 n) = decide (2 ^ 63 < n) := by
  obtain ⟨hb1, hb2, hb3⟩ := int_bound_digits
  unfold lessIntNumberMin
  simp only [List.length_cons]
  by_cases h1 : (Nat.toDigits 10 n).length + 1 > 20
  · have : ¬ n < 10 ^ 19 := by
      rw [← toDigits_length_lt n 19 (by omega)]; omega
    rw [if_pos h1]
    have : 2 ^ 63 < n := by
      have e : (2 : Nat) ^ 63 < 10 ^ 19 := by norm_num
      omega
    exact (decide_eq_true this).symm
  · rw [if_neg h1]
    by_cases h2 : (Nat.toDigits 10 n).length + 1 < 20
    · have : n < 10 ^ 18 := by
        rw [← toDigits_length_lt n 18 (by omega)]; omega
      rw [if_pos h2]
      have : ¬ 2 ^ 63 < n := by
        have e : (10 : Nat) ^ 18 ≤ 2 ^ 63 := by norm_num
        omega
      exact (decide_eq_false this).symm
    · rw [if_neg h2]
      have hl : (Nat.toDigits 10 n).length = 19 := by omega
      rw [boundLoop_eq _ _ (by simp [hl]) hb2 20 1 (by omega)]
      rw [List.drop_succ_cons, List.drop_zero]
      have := lexGt_iff (Nat.toDigits 10 n) (int_number_min_str.drop 1) (by rw [hl]; rfl)
        (toDigits_allDigits n) hb1
      rw [hb3, digitsValue_toDigits] at this
      by_cases hgt : 2 ^ 63 < n
      · rw [this.mpr hgt, decide_eq_true hgt]
      · have : lexGt (Nat.toDigits 10 n) (int_number_min_str.drop 1) = false := by
          cases hx : lexGt (Nat.toDigits 10 n) (int_number_min_str.drop 1)
          · rfl
          · exact absurd (this.mp hx) hgt
        rw [this, decide_eq_false hgt]

theorem strtoull_digits (n : Nat) (h : n < 2 ^ 64) : strtoull (Nat.toDigits 10 n) = n := by
  unfold strtoull
  rw [digitsValue_toDigits]
  omega

theorem strtoll_digits (n : Nat) (h : n ≤ 2 ^ 63) :
    strtoll ('-' :: Nat.toDigits 10 n) = -(n : Int) := by
  unfold strtoll
  simp only [digitsValue_toDigits]
  omega

theorem structural_cases (c : Char) (h : isStructural c = false) :
    c ≠ Char.ofNat 123 ∧ c ≠ Char.ofNat 125 ∧ c ≠ ':' ∧ c ≠ ',' ∧ c ≠ '[' ∧ c ≠ ']' := by
  refine ⟨?_, ?_, ?_, ?_, ?_, ?_⟩ <;> (rintro rfl; revert h; decide)

theorem parsesAs_uint (f n : Nat) (hn : n < 2 ^ 64) :
    ParsesAs (parseValue (f + 1)) (Nat.toDigits 10 n) (some (.JUIntNumber n)) := by
  intro tk r hat hsep
  have hall := toDigits_allDigits n
  obtain ⟨c, cs, hc⟩ := List.exists_cons_of_ne_nil (toDigits_ne_nil n)
  have hcd : isDigit c = true := hall c (by rw [hc]; simp)
  obtain ⟨_, hns, hnq, hnm⟩ := isDigit_not_delim c hcd
  obtain ⟨h1, _, _, _, h5, _⟩ := structural_cases c hns
  have hcs : NoDelim cs := fun x hx => allDigits_noDelim _ hall x (by rw [hc]; simp [hx])
  have hlen : lexLen (Nat.toDigits 10 n ++ r) = (Nat.toDigits 10 n).length := by
    rw [hc]; exact lexLen_bare c cs r hns hnq hcs hsep
  obtain ⟨_, htok, hidx, hpos⟩ := at_token hat hlen
  have h0 : tk.atIdx 0 = c := by
    rw [hidx 0 (by rw [hc]; simp), hc]; rfl
  refine ⟨tk.nextToken, ?_, hpos⟩
  have hgt : greaterUIntNumberMax (Nat.toDigits 10 n) = false := by
    rw [greaterUIntNumberMax_digits]; exact decide_eq_false (by omega)
  simp [parseValue, h0, h1, h5, hnq, hnm, hcd, parseUInt, matchNumber_eq hat hlen,
    runNumber_uint, htok, hgt, strtoull_digits n hn]

theorem parsesAs_negint (f n : Nat) (hn : n ≤ 2 ^ 63) :
    ParsesAs (parseValue (f + 1)) ('-' :: Nat.toDigits 10 n) (some (.JIntNumber (-(n : Int)))) := by
  intro tk r hat hsep
  have hall := toDigits_allDigits n
  have hcs : NoDelim (Nat.toDigits 10 n) := allDigits_noDelim _ hall
  have hlen : lexLen (('-' :: Nat.toDigits 10 n) ++ r) = ('-' :: Nat.toDigits 10 n).length :=
    lexLen_bare '-' _ r (by decide) (by decide) hcs hsep
  obtain ⟨_, htok, hidx, hpos⟩ := at_token hat hlen
  have h0 : tk.atIdx 0 = '-' := by
    rw [hidx 0 (by simp)]; rfl
  refine ⟨tk.nextToken, ?_, hpos⟩
  have hgt : lessIntNumberMin ('-' :: Nat.toDigits 10 n) = false := by
    rw [lessIntNumberMin_digits]; exact decide_eq_false (by omega)
  have e1 : ('-' : Char) ≠ Char.ofNat 123 := by decide
  have e2 : ('-' : Char) ≠ '[' := by decide
  have e3 : ('-' : Char) ≠ cQuote := by decide
  simp [parseValue, h0, e1, e2, e3, parseInt, matchNumber_eq hat hlen,
    runNumber_negint, htok, hgt, strtoll_digits n hn]

theorem parsesAs_string (f : Nat) (body : List Char)
    (hb : ∀ c ∈ body, c ≠ cQuote ∧ c ≠ cBackslash) :
    ParsesAs (parseValue (f + 1)) (cQuote :: body ++ [cQuote]) (some (.JString body)) := by
  intro tk r hat hsep
  have e : (cQuote :: body ++ [cQuote]) ++ r = cQuote :: body ++ cQuote :: r := by simp
  rw [e] at hat
  have hlen := lexLen_plain_string body r hb
  have hps := parseString_eq hat hlen
  rw [unescape_plain body hb] at hps
  have h0 : tk.atIdx 0 = cQuote := by rw [hat.at_atIdx]; rfl
  have hpos : Pos tk.nextToken r := by
    have := hat.at_next
    rw [hlen] at this
    have e2 : (cQuote :: body ++ cQuote :: r).drop (body.length + 2) = r := by
      have : cQuote :: body ++ cQuote :: r = (cQuote :: body ++ [cQuote]) ++ r := by simp
      rw [this, List.drop_left' (by simp)]
    rwa [e2] at this
  refine ⟨tk.nextToken, ?_, hpos⟩
  have e1 : cQuote ≠ Char.ofNat 123 := by decide
  have e2 : cQuote ≠ '[' := by decide
  simp [parseValue, h0, e1, e2, hps]

theorem parsesAs_true (f : Nat) :
    ParsesAs (parseValue (f + 1)) ['t', 'r', 'u', 'e'] (some (.JBool true)) := by
  intro tk r hat hsep
  have hlen : lexLen (['t', 'r', 'u', 'e'] ++ r) = 4 :=
    lexLen_bare 't' ['r', 'u', 'e'] r (by decide) (by decide) (by unfold NoDelim; decide) hsep
  obtain ⟨hsz, _, hidx, hpos⟩ := at_token hat hlen
  have h0 := hidx 0 (by simp)
  have h1 := hidx 1 (by simp)
  have h2 := hidx 2 (by simp)
  have h3 := hidx 3 (by simp)
  simp only [strAt, List.getD_cons_zero, List.getD_cons_succ] at h0 h1 h2 h3
  refine ⟨tk.nextToken, ?_, hpos⟩
  have hsz4 : tk.size = 4 := hsz
  simp [parseValue, parseBool, h0, h1, h2, h3, hsz4, cQuote, isDigit]

theorem parsesAs_false (f : Nat) :
    ParsesAs (parseValue (f + 1)) ['f', 'a', 'l', 's', 'e'] (some (.JBool false)) := by
  intro tk r hat hsep
  have hlen : lexLen (['f', 'a', 'l', 's', 'e'] ++ r) = 5 :=
    lexLen_bare 'f' ['a', 'l', 's', 'e'] r (by decide) (by decide) (by unfold NoDelim; decide) hsep
  obtain ⟨hsz, _, hidx, hpos⟩ := at_token hat hlen
  have h0 := hidx 0 (by simp)
  have h1 := hidx 1 (by simp)
  have h2 := hidx 2 (by simp)
  have h3 := hidx 3 (by simp)
  have h4 := hidx 4 (by simp)
  simp only [strAt, List.getD_cons_zero, List.getD_cons_succ] at h0 h1 h2 h3 h4
  refine ⟨tk.nextToken, ?_, hpos⟩
  have hsz5 : tk.size = 5 := hsz
  simp [parseValue, parseBool, h0, h1, h2, h3, h4, hsz5, cQuote, isDigit]

theorem parsesAs_null (f : Nat) :
    ParsesAs (parseValue (f + 1)) ['n', 'u', 'l', 'l'] (some .JNull) := by
  intro tk r hat hsep
  have hlen : lexLen (['n', 'u', 'l', 'l'] ++ r) = 4 :=
    lexLen_bare 'n' ['u', 'l', 'l'] r (by decide) (by decide) (by unfold NoDelim; decide) hsep
  obtain ⟨hsz, _, hidx, hpos⟩ := at_token hat hlen
  have h0 := hidx 0 (by simp)
  have h1 := hidx 1 (by simp)
  have h2 := hidx 2 (by simp)
  have h3 := hidx 3 (by simp)
  simp only [strAt, List.getD_cons_zero, List.getD_cons_succ] at h0 h1 h2 h3
  refine ⟨tk.nextToken, ?_, hpos⟩
  have hsz4 : tk.size = 4 := hsz
  simp [parseValue, parseNull, h0, h1, h2, h3, hsz4, cQuote, isDigit]


theorem sep_blank_cons (b : List Char) (c : Char) (rest : List Char) (hb : Blank b)
    (hc : isStructural c = true) : Sep (b ++ c :: rest) := by
  intro x xs hx
  cases b with
  | nil =>
    simp only [List.nil_append, List.cons.injEq] at hx
    rw [← hx.1]; exact Or.inr hc
  | cons y ys =>
    simp only [List.cons_append, List.cons.injEq] at hx
    rw [← hx.1]; exact Or.inl (hb y (by simp))

theorem pos_at_value {tk : Token} {a t rest : List Char} (h : Pos tk (a ++ t ++ rest))
    (ha : Blank a) (ht : ValueHead t) : At tk (t ++ rest) := by
  obtain ⟨c, cs, rfl, hc, _⟩ := ht
  rw [List.append_assoc] at h
  have h2 : Pos tk ((c :: cs) ++ rest) := by
    unfold Pos at h ⊢
    rwa [dropWhile_space_append a _ ha] at h
  exact Pos.pos_at_head h2 hc

theorem structural_not_space (c : Char) (h : isStructural c = true) : isspace c = false := by
  simp only [isStructural, Bool.or_eq_true, decide_eq_true_eq] at h
  rcases h with ((((rfl | rfl) | rfl) | rfl) | rfl) | rfl <;> decide

theorem pos_at_struct {tk : Token} {b : List Char} {c : Char} {rest : List Char}
    (h : Pos tk (b ++ c :: rest)) (hb : Blank b) (hc : isStructural c = true) :
    At tk (c :: rest) := by
  have h2 : Pos tk (c :: rest) := by
    unfold Pos at h ⊢
    rwa [dropWhile_space_append b _ hb] at h
  exact Pos.pos_at_head h2 (structural_not_space c hc)

theorem arrayLoop_done (pv : Token → Bool → Step Handle) (fuel : Nat) (res : List Handle)
    (tk : Token) (err : Bool) :
    parseArrayLoop pv (fuel + 1) .END res tk err = some (res, tk, err) := by
  simp [parseArrayLoop]

theorem arrayLoop_value (pv : Token → Bool → Step Handle) (fuel : Nat) (res : List Handle)
    (tk tk1 : Token) (h : Handle) (hend : tk.isEnd = false)
    (hpv : pv tk false = some (h, tk1, false)) :
    parseArrayLoop pv (fuel + 1) .WAIT_VALUE res tk false
      = parseArrayLoop pv fuel .WAIT_COMMA_OR_END (res ++ [h]) tk1 false := by
  simp [parseArrayLoop, hend, arrayWaitValue, hpv, Array.set]

theorem arrayLoop_first (pv : Token → Bool → Step Handle) (fuel : Nat) (res : List Handle)
    (tk : Token) (hm : matchChar tk ']' = (false, tk)) :
    parseArrayLoop pv (fuel + 1) .WAIT_VALUE_OR_END res tk false
      = parseArrayLoop pv (fuel + 1) .WAIT_VALUE res tk false := by
  simp [parseArrayLoop, hm]

theorem arrayLoop_comma (pv : Token → Bool → Step Handle) (fuel : Nat) (res : List Handle)
    (tk : Token) (rest : List Char) (hat : At tk (',' :: rest)) :
    parseArrayLoop pv (fuel + 1) .WAIT_COMMA_OR_END res tk false
      = parseArrayLoop pv fuel .WAIT_VALUE res tk.nextToken false := by
  have hm := (matchChar_hit hat (by decide)).1
  simp [parseArrayLoop, hat.at_isEnd, hm]

theorem arrayLoop_close (pv : Token → Bool → Step Handle) (fuel : Nat) (res : List Handle)
    (tk : Token) (rest : List Char) (hat : At tk (']' :: rest)) :
    parseArrayLoop pv (fuel + 1) .WAIT_COMMA_OR_END res tk false
      = parseArrayLoop pv fuel .END res tk.nextToken false := by
  have hm := (matchChar_hit hat (by decide)).1
  have hm2 : matchChar tk ',' = (false, tk) := matchChar_miss hat (by decide)
  simp [parseArrayLoop, hat.at_isEnd, hm, hm2]

theorem arrayLoop_elems (pv : Token → Bool → Step Handle) :
    ∀ (es : List (List Char × List Char × List Char)) (hs : List Handle),
      List.Forall₂ (ElemOk pv) es hs → es ≠ [] →
      ∀ (fuel : Nat) (res : List Handle) (tk : Token) (rest : List Char),
        2 * es.length + 1 ≤ fuel → Pos tk (elemsText es ++ rest) →
        ∃ tk1, parseArrayLoop pv fuel .WAIT_VALUE res tk false = some (res ++ hs, tk1, false)
          ∧ Pos tk1 rest := by
  intro es hs hall
  induction hall with
  | nil => intro h; exact absurd rfl h
  | @cons e h es hs he hrest ih =>
    intro _ fuel res tk rest hfuel hpos
    obtain ⟨ha, hb, hv, hp⟩ := he
    obtain ⟨f, rfl⟩ : ∃ f, fuel = f + 1 + 1 + 1 := ⟨fuel - 3, by simp at hfuel; omega⟩
    cases es with
    | nil =>
      cases hrest
      have e1 : elemsText [e] ++ rest = e.1 ++ e.2.1 ++ (e.2.2 ++ ']' :: rest) := by
        simp [elemsText]
      rw [e1] at hpos
      have hat := pos_at_value hpos ha hv
      obtain ⟨tk1, hpv, hpos1⟩ := hp tk _ hat (sep_blank_cons _ _ _ hb (by decide))
      have hat1 := pos_at_struct hpos1 hb (by decide)
      refine ⟨tk1.nextToken, ?_, (matchChar_hit hat1 (by decide)).2⟩
      rw [arrayLoop_value pv _ res tk tk1 h hat.at_isEnd hpv,
        arrayLoop_close pv _ _ tk1 rest hat1, arrayLoop_done]
    | cons e1 es1 =>
      cases hrest with
      | @cons _ h1 _ hs1 he1 hrest1 =>
        have e2 : elemsText (e :: e1 :: es1) ++ rest
            = e.1 ++ e.2.1 ++ (e.2.2 ++ ',' :: (elemsText (e1 :: es1) ++ rest)) := by
          simp [elemsText]
        rw [e2] at hpos
        have hat := pos_at_value hpos ha hv
        obtain ⟨tk1, hpv, hpos1⟩ := hp tk _ hat (sep_blank_cons _ _ _ hb (by decide))
        have hat1 := pos_at_struct hpos1 hb (by decide)
        have hpos2 := (matchChar_hit hat1 (by decide)).2
        obtain ⟨tk3, hloop, hpos3⟩ := ih (by simp) (f + 1)
          (res ++ [h]) tk1.nextToken rest (by simp at hfuel ⊢; omega) hpos2
        refine ⟨tk3, ?_, hpos3⟩
        rw [arrayLoop_value pv _ res tk tk1 h hat.at_isEnd hpv,
          arrayLoop_comma pv _ _ tk1 _ hat1, hloop]
        simp

theorem parseValue_array (f : Nat) (tk : Token) (h0 : tk.atIdx 0 = '[') :
    parseValue (f + 1) tk false
      = (parseArray (parseValue f) f tk false).map (fun r => (r.1.map JValue.JArray, r.2)) := by
  have e1 : ('[' : Char) ≠ Char.ofNat 123 := by decide
  rw [parseValue]
  simp [h0, e1]

theorem parseValue_object (f : Nat) (tk : Token) (h0 : tk.atIdx 0 = Char.ofNat 123) :
    parseValue (f + 1) tk false
      = (parseObject (parseValue f) f tk false).map (fun r => (r.1.map JValue.JObject, r.2)) := by
  rw [parseValue]
  simp [h0]

theorem parsesAs_array (f : Nat) (es : List (List Char × List Char × List Char))
    (hs : List Handle) (hall : List.Forall₂ (ElemOk (parseValue f)) es hs) (hne : es ≠ [])
    (hfuel : 2 * es.length + 1 ≤ f) :
    ParsesAs (parseValue (f + 1)) ('[' :: elemsText es) (some (.JArray hs)) := by
  intro tk r hat hsep
  have hat0 : At tk ('[' :: (elemsText es ++ r)) := by simpa using hat
  obtain ⟨hm, hpos⟩ := matchChar_hit hat0 (by decide)
  obtain ⟨e, es1, rfl⟩ := List.exists_cons_of_ne_nil hne
  obtain ⟨tk1, hloop, hpos1⟩ := arrayLoop_elems (parseValue f) (e :: es1) hs hall hne f []
    tk.nextToken r hfuel hpos
  -- the first round: the token is not `]`
  have hfirst : matchChar tk.nextToken ']' = (false, tk.nextToken) := by
    cases hall with
    | @cons _ h0 _ hs0 he0 hrest0 =>
      obtain ⟨ha, hb, hv, _⟩ := he0
      obtain ⟨c, cs, hc, hcs, hcb⟩ := hv
      have hx : ∃ tail, elemsText (e :: es1) ++ r = e.1 ++ e.2.1 ++ tail := by
        cases es1 with
        | nil => exact ⟨e.2.2 ++ ']' :: r, by simp [elemsText]⟩
        | cons e1 es2 => exact ⟨e.2.2 ++ ',' :: (elemsText (e1 :: es2) ++ r), by simp [elemsText]⟩
      obtain ⟨tail, htail⟩ := hx
      rw [htail] at hpos
      have hatv := pos_at_value hpos ha ⟨c, cs, hc, hcs, hcb⟩
      rw [hc] at hatv
      exact matchChar_miss hatv hcb
  refine ⟨tk1, ?_, hpos1⟩
  obtain ⟨f1, rfl⟩ : ∃ f1, f = f1 + 1 := ⟨f - 1, by omega⟩
  have h0 : tk.atIdx 0 = '[' := by rw [hat0.at_atIdx]; rfl
  rw [← arrayLoop_first _ _ _ _ hfirst] at hloop
  rw [parseValue_array _ _ h0]
  simp [parseArray, hm, hloop]

theorem objectLoop_done (pv : Token → Bool → Step Handle) (fuel : Nat) (res : Members)
    (key : Option (List Char)) (value : Handle) (tk : Token) (err : Bool) :
    parseObjectLoop pv (fuel + 1) .END res key value tk err = some (res, tk, err) := by
  simp [parseObjectLoop]

theorem objectLoop_key (pv : Token → Bool → Step Handle) (fuel : Nat) (res : Members)
    (key : Option (List Char)) (value : Handle) (tk : Token) (k rest : List Char)
    (hk : PlainText k) (hat : At tk (cQuote :: k ++ cQuote :: rest)) :
    parseObjectLoop pv (fuel + 1) .WAIT_KEY res key value tk false
      = parseObjectLoop pv fuel .WAIT_COLON res (some k) value tk.nextToken false
    ∧ Pos tk.nextToken rest := by
  have hlen := lexLen_plain_string k rest hk
  have hps := parseString_eq hat hlen
  rw [unescape_plain k hk] at hps
  have hpos : Pos tk.nextToken rest := by
    have := hat.at_next
    rw [hlen] at this
    have e2 : (cQuote :: k ++ cQuote :: rest).drop (k.length + 2) = rest := by
      have : cQuote :: k ++ cQuote :: rest = (cQuote :: k ++ [cQuote]) ++ rest := by simp
      rw [this, List.drop_left' (by simp)]
    rwa [e2] at this
  refine ⟨?_, hpos⟩
  rw [parseObjectLoop]
  simp [hat.at_isEnd, objectWaitKey, hps]

theorem objectLoop_first (pv : Token → Bool → Step Handle) (fuel : Nat) (res : Members)
    (key : Option (List Char)) (value : Handle) (tk : Token)
    (hm : matchChar tk (Char.ofNat 125) = (false, tk)) :
    parseObjectLoop pv (fuel + 1) .WAIT_KEY_OR_END res key value tk false
      = parseObjectLoop pv (fuel + 1) .WAIT_KEY res key value tk false := by
  rw [parseObjectLoop, parseObjectLoop]
  simp [hm]

theorem objectLoop_empty (pv : Token → Bool → Step Handle) (fuel : Nat) (res : Members)
    (key : Option (List Char)) (value : Handle) (tk : Token) (rest : List Char)
    (hat : At tk (Char.ofNat 125 :: rest)) :
    parseObjectLoop pv (fuel + 1) .WAIT_KEY_OR_END res key value tk false
      = parseObjectLoop pv fuel .END res key value tk.nextToken false := by
  have hm := (matchChar_hit hat (by decide)).1
  rw [parseObjectLoop]
  simp [hat.at_isEnd, hm]

theorem objectLoop_colon (pv : Token → Bool → Step Handle) (fuel : Nat) (res : Members)
    (key : Option (List Char)) (value : Handle) (tk : Token) (rest : List Char)
    (hat : At tk (':' :: rest)) :
    parseObjectLoop pv (fuel + 1) .WAIT_COLON res key value tk false
      = parseObjectLoop pv fuel .WAIT_VALUE res key value tk.nextToken false := by
  have hm := (matchChar_hit hat (by decide)).1
  rw [parseObjectLoop]
  simp [hat.at_isEnd, hm]

theorem objectLoop_value (pv : Token → Bool → Step Handle) (fuel : Nat) (res : Members)
    (key : Option (List Char)) (value : Handle) (tk tk1 : Token) (h : Handle)
    (hend : tk.isEnd = false) (hpv : pv tk false = some (h, tk1, false)) :
    parseObjectLoop pv (fuel + 1) .WAIT_VALUE res key value tk false
      = parseObjectLoop pv fuel .WAIT_COMMA_OR_END res key h tk1 false := by
  rw [parseObjectLoop]
  simp [hend, hpv]

theorem objectLoop_comma (pv : Token → Bool → Step Handle) (fuel : Nat) (res : Members)
    (k : List Char) (value : Handle) (tk : Token) (rest : List Char)
    (hat : At tk (',' :: rest)) :
    parseObjectLoop pv (fuel + 1) .WAIT_COMMA_OR_END res (some k) value tk false
      = parseObjectLoop pv fuel .WAIT_KEY (Object.set res k value).2 (some k) value
          tk.nextToken false := by
  have hm := (matchChar_hit hat (by decide)).1
  have hm2 : matchChar tk (Char.ofNat 125) = (false, tk) := matchChar_miss hat (by decide)
  rw [parseObjectLoop]
  simp [hat.at_isEnd, hm, hm2]

theorem objectLoop_close (pv : Token → Bool → Step Handle) (fuel : Nat) (res : Members)
    (k : List Char) (value : Handle) (tk : Token) (rest : List Char)
    (hat : At tk (Char.ofNat 125 :: rest)) :
    parseObjectLoop pv (fuel + 1) .WAIT_COMMA_OR_END res (some k) value tk false
      = parseObjectLoop pv fuel .END (Object.set res k value).2 (some k) value
          tk.nextToken false := by
  have hm := (matchChar_hit hat (by decide)).1
  rw [parseObjectLoop]
  simp [hat.at_isEnd, hm]

theorem objectLoop_members (pv : Token → Bool → Step Handle) :
    ∀ (ms : List (List Char × List Char)) (hs : List Handle),
      List.Forall₂ (MemberOk pv) ms hs → ms ≠ [] →
      ∀ (fuel : Nat) (res : Members) (key : Option (List Char)) (value : Handle)
        (tk : Token) (rest : List Char),
        4 * ms.length + 1 ≤ fuel → At tk (membersText ms ++ rest) →
        ∃ tk1, parseObjectLoop pv fuel .WAIT_KEY res key value tk false
            = some (insertAll res ((ms.map Prod.fst).zip hs), tk1, false)
          ∧ Pos tk1 rest := by
  intro ms hs hall
  induction hall with
  | nil => intro h; exact absurd rfl h
  | @cons m h ms hs hm hrest ih =>
    intro _ fuel res key value tk rest hfuel hat
    obtain ⟨hk, hv, hp⟩ := hm
    obtain ⟨f, rfl⟩ : ∃ f, fuel = f + 1 + 1 + 1 + 1 + 1 :=
      ⟨fuel - 5, by simp at hfuel; omega⟩
    cases ms with
    | nil =>
      cases hrest
      have e1 : membersText [m] ++ rest
          = cQuote :: m.1 ++ cQuote :: (':' :: (m.2 ++ (Char.ofNat 125 :: rest))) := by
        simp [membersText]
      rw [e1] at hat
      obtain ⟨hkey, hpos1⟩ := objectLoop_key pv _ res key value tk m.1 _ hk hat
      have hat1 := Pos.pos_at_head hpos1 (by decide)
      have hpos2 := (matchChar_hit hat1 (by decide)).2
      have hat2 : At tk.nextToken.nextToken (m.2 ++ (Char.ofNat 125 :: rest)) :=
        @pos_at_value _ [] _ _ (by simpa using hpos2) (by intro c hc; simp at hc) hv
      obtain ⟨tk3, hpv, hpos3⟩ := hp _ _ hat2
        (sep_blank_cons [] _ _ (by intro c hc; simp at hc) (by decide))
      have hat3 := Pos.pos_at_head hpos3 (by decide)
      refine ⟨tk3.nextToken, ?_, (matchChar_hit hat3 (by decide)).2⟩
      rw [hkey, objectLoop_colon pv _ _ _ _ _ _ hat1,
        objectLoop_value pv _ _ _ _ _ tk3 h hat2.at_isEnd hpv,
        objectLoop_close pv _ _ _ _ _ _ hat3, objectLoop_done]
      simp [insertAll]
    | cons m1 ms1 =>
      cases hrest with
      | @cons _ h1 _ hs1 hm1 hrest1 =>
        have e2 : membersText (m :: m1 :: ms1) ++ rest
            = cQuote :: m.1 ++ cQuote :: (':' :: (m.2 ++ (',' :: (membersText (m1 :: ms1) ++ rest)))) := by
          simp [membersText]
        rw [e2] at hat
        obtain ⟨hkey, hpos1⟩ := objectLoop_key pv _ res key value tk m.1 _ hk hat
        have hat1 := Pos.pos_at_head hpos1 (by decide)
        have hpos2 := (matchChar_hit hat1 (by decide)).2
        have hat2 : At tk.nextToken.nextToken (m.2 ++ (',' :: (membersText (m1 :: ms1) ++ rest))) :=
          @pos_at_value _ [] _ _ (by simpa using hpos2) (by intro c hc; simp at hc) hv
        obtain ⟨tk3, hpv, hpos3⟩ := hp _ _ hat2
          (sep_blank_cons [] _ _ (by intro c hc; simp at hc) (by decide))
        have hat3 := Pos.pos_at_head hpos3 (by decide)
        have hpos4 := (matchChar_hit hat3 (by decide)).2
        have hat4 : At tk3.nextToken (membersText (m1 :: ms1) ++ rest) := by
          have hx : ∃ tail, membersText (m1 :: ms1) ++ rest = cQuote :: tail := by
            cases ms1 with
            | nil => exact ⟨_, by simp [membersText]; rfl⟩
            | cons m2 ms2 => exact ⟨_, by simp [membersText]; rfl⟩
          obtain ⟨tail, htail⟩ := hx
          rw [htail] at hpos4 ⊢
          exact Pos.pos_at_head hpos4 (by decide)
        obtain ⟨tk5, hloop, hpos5⟩ := ih (by simp) (f + 1) (Object.set res m.1 h).2 (some m.1) h
          tk3.nextToken rest (by simp only [List.length_cons] at hfuel ⊢; omega) hat4
        refine ⟨tk5, ?_, hpos5⟩
        rw [hkey, objectLoop_colon pv _ _ _ _ _ _ hat1,
          objectLoop_value pv _ _ _ _ _ tk3 h hat2.at_isEnd hpv,
          objectLoop_comma pv _ _ _ _ _ _ hat3]
        rw [hloop]
        simp [insertAll]

theorem parsesAs_object (f : Nat) (ms : List (List Char × List Char))
    (hs : List Handle) (hall : List.Forall₂ (MemberOk (parseValue f)) ms hs)
    (hfuel : 4 * ms.length + 2 ≤ f) :
    ParsesAs (parseValue (f + 1)) (Char.ofNat 123 :: membersText ms)
      (some (.JObject (insertAll [] ((ms.map Prod.fst).zip hs)))) := by
  intro tk r hat hsep
  have hat0 : At tk (Char.ofNat 123 :: (membersText ms ++ r)) := by simpa using hat
  obtain ⟨hm, hpos⟩ := matchChar_hit hat0 (by decide)
  have h0 : tk.atIdx 0 = Char.ofNat 123 := by rw [hat0.at_atIdx]; rfl
  obtain ⟨f1, rfl⟩ : ∃ f1, f = f1 + 1 + 1 := ⟨f - 2, by omega⟩
  rw [parseValue_object _ _ h0]
  cases ms with
  | nil =>
    cases hall
    have hat1 : At tk.nextToken (Char.ofNat 125 :: r) :=
      Pos.pos_at_head (by simpa [membersText] using hpos) (by decide)
    refine ⟨tk.nextToken.nextToken, ?_, (matchChar_hit hat1 (by decide)).2⟩
    simp [parseObject, hm, objectLoop_empty _ _ _ _ _ _ _ hat1, objectLoop_done, insertAll]
  | cons m ms1 =>
    have hx : ∃ tail, membersText (m :: ms1) ++ r = cQuote :: tail := by
      cases ms1 with
      | nil => exact ⟨_, by simp [membersText]; rfl⟩
      | cons m2 ms2 => exact ⟨_, by simp [membersText]; rfl⟩
    obtain ⟨tail, htail⟩ := hx
    have hat1 : At tk.nextToken (membersText (m :: ms1) ++ r) := by
      rw [htail] at hpos ⊢
      exact Pos.pos_at_head hpos (by decide)
    have hfirst : matchChar tk.nextToken (Char.ofNat 125) = (false, tk.nextToken) := by
      rw [htail] at hat1
      exact matchChar_miss hat1 (by decide)
    obtain ⟨tk1, hloop, hpos1⟩ := objectLoop_members (parseValue (f1 + 1 + 1)) (m :: ms1) hs hall
      (by simp) (f1 + 1 + 1) [] none none tk.nextToken r (by omega) hat1
    refine ⟨tk1, ?_, hpos1⟩
    rw [← objectLoop_first _ _ _ _ _ _ hfirst] at hloop
    simp [parseObject, hm, hloop]


/-! ## Claims C2 and C3: the integer boundaries -/

theorem parse_eq_of_at (s : List Char) (h : Handle) (err : Bool) (tk1 : Token)
    (hp : parseValue (s.length + 2) (Token.init s).nextToken false = some (h, tk1, err)) :
    parse s = some (h, err) := by
  simp [parse, hp]

theorem parse_of_parsesAs (t r : List Char) (h : Handle) (c : Char) (cs : List Char)
    (ht : t = c :: cs) (hc : isspace c = false) (hsep : Sep r)
    (hp : ParsesAs (parseValue ((t ++ r).length + 1 + 1)) t h) :
    parse (t ++ r) = some (h, false) := by
  have hpos := init_pos (t ++ r)
  have hat : At (Token.init (t ++ r)).nextToken (t ++ r) := by
    rw [ht] at hpos ⊢
    exact Pos.pos_at_head hpos hc
  obtain ⟨tk1, hpv, _⟩ := hp _ r hat hsep
  exact parse_eq_of_at _ _ _ tk1 hpv

theorem sep_nil : Sep [] := by
  intro c cs h
  simp at h

theorem parsesAs_uint_big (f n : Nat) (hn : 2 ^ 64 ≤ n) :
    ParsesAs (parseValue (f + 1)) (Nat.toDigits 10 n)
      (some (.JFloatNumber (strtod (Nat.toDigits 10 n)))) := by
  intro tk r hat hsep
  have hall := toDigits_allDigits n
  obtain ⟨c, cs, hc⟩ := List.exists_cons_of_ne_nil (toDigits_ne_nil n)
  have hcd : isDigit c = true := hall c (by rw [hc]; simp)
  obtain ⟨_, hns, hnq, hnm⟩ := isDigit_not_delim c hcd
  obtain ⟨h1, _, _, _, h5, _⟩ := structural_cases c hns
  have hcs : NoDelim cs := fun x hx => allDigits_noDelim _ hall x (by rw [hc]; simp [hx])
  have hlen : lexLen (Nat.toDigits 10 n ++ r) = (Nat.toDigits 10 n).length := by
    rw [hc]; exact lexLen_bare c cs r hns hnq hcs hsep
  obtain ⟨_, htok, hidx, hpos⟩ := at_token hat hlen
  have h0 : tk.atIdx 0 = c := by
    rw [hidx 0 (by rw [hc]; simp), hc]; rfl
  refine ⟨tk.nextToken, ?_, hpos⟩
  have hgt : greaterUIntNumberMax (Nat.toDigits 10 n) = true := by
    rw [greaterUIntNumberMax_digits]; exact decide_eq_true (by omega)
  simp [parseValue, h0, h1, h5, hnq, hnm, hcd, parseUInt, matchNumber_eq hat hlen,
    runNumber_uint, htok, hgt]

theorem parsesAs_negint_big (f n : Nat) (hn : 2 ^ 63 < n) :
    ParsesAs (parseValue (f + 1)) ('-' :: Nat.toDigits 10 n)
      (some (.JFloatNumber (strtod ('-' :: Nat.toDigits 10 n)))) := by
  intro tk r hat hsep
  have hall := toDigits_allDigits n
  have hcs : NoDelim (Nat.toDigits 10 n) := allDigits_noDelim _ hall
  have hlen : lexLen (('-' :: Nat.toDigits 10 n) ++ r) = ('-' :: Nat.toDigits 10 n).length :=
    lexLen_bare '-' _ r (by decide) (by decide) hcs hsep
  obtain ⟨_, htok, hidx, hpos⟩ := at_token hat hlen
  have h0 : tk.atIdx 0 = '-' := by
    rw [hidx 0 (by simp)]; rfl
  refine ⟨tk.nextToken, ?_, hpos⟩
  have hgt : lessIntNumberMin ('-' :: Nat.toDigits 10 n) = true := by
    rw [lessIntNumberMin_digits]; exact decide_eq_true (by omega)
  have e1 : ('-' : Char) ≠ Char.ofNat 123 := by decide
  have e2 : ('-' : Char) ≠ '[' := by decide
  have e3 : ('-' : Char) ≠ cQuote := by decide
  simp [parseValue, h0, e1, e2, e3, parseInt, matchNumber_eq hat hlen,
    runNumber_negint, htok, hgt]

theorem digits_head_not_space (n : Nat) :
    ∃ c cs, Nat.toDigits 10 n = c :: cs ∧ isspace c = false := by
  obtain ⟨c, cs, hc⟩ := List.exists_cons_of_ne_nil (toDigits_ne_nil n)
  exact ⟨c, cs, hc, (isDigit_not_delim c (toDigits_allDigits n c (by rw [hc]; simp))).1⟩

/-- C2 (unsigned boundary).  For every natural number `n`, written in canonical decimal
(`Nat.toDigits 10 n`: no sign, no leading zero), `parse` reports no error; it returns a
`UIntNumber` whose payload is exactly `n` when `n ≤ 18446744073709551615`, and a
`FloatNumber` (converted from the same text) when `n > 18446744073709551615`. -/
theorem unsigned_boundary (n : Nat) :
    (n ≤ 18446744073709551615 →
      parse (Nat.toDigits 10 n) = some (some (.JUIntNumber n), false)) ∧
    (18446744073709551615 < n →
      parse (Nat.toDigits 10 n)
        = some (some (.JFloatNumber (strtod (Nat.toDigits 10 n))), false)) := by
  obtain ⟨c, cs, hc, hsp⟩ := digits_head_not_space n
  constructor
  · intro hn
    have := parse_of_parsesAs (Nat.toDigits 10 n) [] _ c cs hc hsp sep_nil
      (parsesAs_uint _ n (by omega))
    simpa using this
  · intro hn
    have := parse_of_parsesAs (Nat.toDigits 10 n) [] _ c cs hc hsp sep_nil
      (parsesAs_uint_big _ n (by omega))
    simpa using this

/-- C2, at the two sides of the boundary: `18446744073709551615` is a `UIntNumber`,
`18446744073709551616` a `FloatNumber`. -/
theorem unsigned_boundary_witness :
    parse "18446744073709551615".toList = some (some (.JUIntNumber 18446744073709551615), false) ∧
    parse "18446744073709551616".toList
      = some (some (.JFloatNumber (strtod "18446744073709551616".toList)), false) :=
  ⟨(unsigned_boundary 18446744073709551615).1 (by decide),
   (unsigned_boundary 18446744073709551616).2 (by decide)⟩

/-- C3 (signed boundary).  For every natural number `n`, `parse` of `-` followed by the
canonical decimal of `n` reports no error; it returns an `IntNumber` whose payload is
exactly `-n` when `n ≤ 9223372036854775808` (so `-0` gives `IntNumber 0`), and a
`FloatNumber` (converted from the same text) when `n > 9223372036854775808`. -/
theorem signed_boundary (n : Nat) :
    (n ≤ 9223372036854775808 →
      parse ('-' :: Nat.toDigits 10 n) = some (some (.JIntNumber (-(n : Int))), false)) ∧
    (9223372036854775808 < n →
      parse ('-' :: Nat.toDigits 10 n)
        = some (some (.JFloatNumber (strtod ('-' :: Nat.toDigits 10 n))), false)) := by
  constructor
  · intro hn
    have := parse_of_parsesAs ('-' :: Nat.toDigits 10 n) [] _ '-' _ rfl (by decide) sep_nil
      (parsesAs_negint _ n (by omega))
    simpa using this
  · intro hn
    have := parse_of_parsesAs ('-' :: Nat.toDigits 10 n) [] _ '-' _ rfl (by decide) sep_nil
      (parsesAs_negint_big _ n (by omega))
    simpa using this

/-- C3, at the boundary and at zero: `-9223372036854775808` is the least `IntNumber`,
`-9223372036854775809` is a `FloatNumber`, and `-0` is `IntNumber 0`. -/
theorem signed_boundary_witness :
    parse "-9223372036854775808".toList = some (some (.JIntNumber (-9223372036854775808)), false) ∧
    parse "-9223372036854775809".toList
      = some (some (.JFloatNumber (strtod "-9223372036854775809".toList)), false) ∧
    parse "-0".toList = some (some (.JIntNumber 0), false) :=
  ⟨(signed_boundary 9223372036854775808).1 (by decide),
   (signed_boundary 9223372036854775809).2 (by decide),
   (signed_boundary 0).1 (by decide)⟩


/-! ## Claims C6 and C7: arrays of literals and objects of integers -/

theorem literal_parsesAs (t : List Char) (ht : IsLiteral t) :
    ∃ h : Handle, (∃ c cs, t = c :: cs ∧ isspace c = false ∧ c ≠ ']') ∧
      ∀ f, ParsesAs (parseValue (f + 1)) t h := by
  rcases ht with ⟨n, hn, rfl⟩ | ⟨n, hn, rfl⟩ | rfl | rfl | rfl
  · obtain ⟨c, cs, hc⟩ := List.exists_cons_of_ne_nil (toDigits_ne_nil n)
    have hd := isDigit_not_delim c (toDigits_allDigits n c (by rw [hc]; simp))
    exact ⟨_, ⟨c, cs, hc, hd.1, (structural_cases c hd.2.1).2.2.2.2.2⟩,
      fun f => parsesAs_uint f n hn⟩
  · exact ⟨_, ⟨'-', _, rfl, by decide, by decide⟩, fun f => parsesAs_negint f n hn⟩
  · exact ⟨_, ⟨'t', _, rfl, by decide, by decide⟩, fun f => parsesAs_true f⟩
  · exact ⟨_, ⟨'f', _, rfl, by decide, by decide⟩, fun f => parsesAs_false f⟩
  · exact ⟨_, ⟨'n', _, rfl, by decide, by decide⟩, fun f => parsesAs_null f⟩

theorem literal_elems (f : Nat) :
    ∀ (es : List (List Char × List Char × List Char)),
      (∀ e ∈ es, Blank e.1 ∧ IsLiteral e.2.1 ∧ Blank e.2.2) →
      ∃ hs : List Handle, List.Forall₂ (ElemOk (parseValue (f + 1))) es hs ∧
        List.Forall₂ (fun e h => parse e.2.1 = some (h, false)) es hs := by
  intro es
  induction es with
  | nil => intro _; exact ⟨[], List.Forall₂.nil, List.Forall₂.nil⟩
  | cons e es ih =>
    intro hes
    obtain ⟨hs, h1, h2⟩ := ih (fun x hx => hes x (by simp [hx]))
    obtain ⟨ha, hl, hb⟩ := hes e (by simp)
    obtain ⟨h, ⟨c, cs, hc, hsp, hbr⟩, hp⟩ := literal_parsesAs e.2.1 hl
    refine ⟨h :: hs, List.Forall₂.cons ⟨ha, hb, ⟨c, cs, hc, hsp, hbr⟩, hp f⟩ h1,
      List.Forall₂.cons ?_ h2⟩
    have := parse_of_parsesAs e.2.1 [] h c cs hc hsp sep_nil (hp _)
    simpa using this

theorem elemsText_length (es : List (List Char × List Char × List Char))
    (hes : ∀ e ∈ es, e.2.1 ≠ []) : 2 * es.length ≤ (elemsText es).length := by
  induction es with
  | nil => simp
  | cons e es ih =>
    have h1 : 0 < e.2.1.length := List.length_pos.mpr (hes e (by simp))
    have h2 := ih (fun x hx => hes x (by simp [hx]))
    cases es with
    | nil => simp [elemsText]; omega
    | cons e1 es1 =>
      simp only [elemsText, List.length_append, List.length_cons] at h2 ⊢
      omega

/-- C6 (array element order).  For every non-empty list of elements, each a literal text
(an in-range integer, `true`, `false` or `null`) with any whitespace before and after it,
`parse` of `[` + the elements separated by commas + `]` reports no error and returns an
Array with one element per literal, in order: the element at index `i` is the value that
`parse` returns for the `i`-th literal alone. -/
theorem array_element_order (es : List (List Char × List Char × List Char))
    (hne : es ≠ []) (hes : ∀ e ∈ es, Blank e.1 ∧ IsLiteral e.2.1 ∧ Blank e.2.2) :
    ∃ hs : List Handle,
      parse ('[' :: elemsText es) = some (some (.JArray hs), false) ∧
      Array.size hs = es.length ∧
      ∀ (i : Nat) (hi : i < es.length), ∃ h,
        Array.get hs i = some h ∧ parse (es[i]).2.1 = some (h, false) := by
  obtain ⟨hs, h1, h2⟩ := literal_elems (('[' :: elemsText es).length) es hes
  have hlen : 2 * es.length ≤ (elemsText es).length := by
    apply elemsText_length
    intro e he
    obtain ⟨_, hl, _⟩ := hes e he
    obtain ⟨_, ⟨c, cs, hc, _⟩, _⟩ := literal_parsesAs e.2.1 hl
    rw [hc]; simp
  have hp := parsesAs_array _ es hs h1 hne (by simp only [List.length_cons]; omega)
  have hparse := parse_of_parsesAs ('[' :: elemsText es) [] _ '[' _ rfl (by decide) sep_nil
    (by simpa using hp)
  refine ⟨hs, by simpa using hparse, h2.length_eq.symm, ?_⟩
  intro i hi
  have hi2 : i < hs.length := by rw [← h2.length_eq]; exact hi
  refine ⟨hs[i], by simp [Array.get, List.getElem?_eq_getElem hi2], ?_⟩
  exact (List.forall₂_iff_get.mp h2).2 i hi hi2

/-- C6 on the text `[1 , true,-5]`. -/
theorem array_element_order_witness :
    ∃ hs : List Handle,
      parse "[1 , true,-5]".toList = some (some (.JArray hs), false) ∧
      Array.size hs = 3 ∧
      ∀ (i : Nat) (hi : i < 3), ∃ h, Array.get hs i = some h ∧
        parse ([("1".toList), ("true".toList), ("-5".toList)][i]) = some (h, false) := by
  have h := array_element_order
    [([], "1".toList, [' ']), ([' '], "true".toList, []), ([], "-5".toList, [])]
    (by simp)
    (by
      intro e he
      simp only [List.mem_cons, List.mem_singleton, List.not_mem_nil, or_false] at he
      rcases he with rfl | rfl | rfl
      · exact ⟨by intro c hc; simp at hc, Or.inl ⟨1, by norm_num, rfl⟩,
          by intro c hc; simp at hc; rw [hc]; rfl⟩
      · exact ⟨by intro c hc; simp at hc; rw [hc]; rfl, Or.inr (Or.inr (Or.inl rfl)),
          by intro c hc; simp at hc⟩
      · exact ⟨by intro c hc; simp at hc, Or.inr (Or.inl ⟨5, by norm_num, rfl⟩),
          by intro c hc; simp at hc⟩)
  obtain ⟨hs, h1, h2, h3⟩ := h
  refine ⟨hs, h1, h2, ?_⟩
  intro i hi
  obtain ⟨x, hx1, hx2⟩ := h3 i hi
  refine ⟨x, hx1, ?_⟩
  interval_cases i <;> exact hx2

theorem contain_append (m : Members) (k : List Char) (v : Handle) (s : List Char) :
    Object.contain (m ++ [(k, v)]) s = (Object.contain m s || decide (k = s)) := by
  induction m with
  | nil => by_cases h : k = s <;> simp [Object.contain, h]
  | cons a m ih =>
    obtain ⟨ak, av⟩ := a
    by_cases h : ak = s
    · simp [Object.contain, h]
    · simp only [List.cons_append, Object.contain, h, if_false]
      exact ih

theorem get_append (m : Members) (k : List Char) (v : Handle) (s : List Char) :
    Object.get (m ++ [(k, v)]) s
      = if Object.contain m s = true then Object.get m s else if k = s then v else none := by
  induction m with
  | nil => by_cases h : k = s <;> simp [Object.get, Object.contain, h]
  | cons a m ih =>
    obtain ⟨ak, av⟩ := a
    by_cases h : ak = s
    · simp [Object.get, Object.contain, h]
    · simp only [List.cons_append, Object.get, Object.contain, h, if_false]
      exact ih

theorem get_of_not_contain (m : Members) (s : List Char) (h : Object.contain m s = false) :
    Object.get m s = none := by
  induction m with
  | nil => rfl
  | cons a m ih =>
    obtain ⟨ak, av⟩ := a
    by_cases hk : ak = s
    · simp [Object.contain, hk] at h
    · simp only [Object.contain, hk, if_false] at h
      simp only [Object.get, hk, if_false]
      exact ih h

theorem contain_iff_mem (m : Members) (s : List Char) :
    Object.contain m s = true ↔ s ∈ m.map Prod.fst := by
  induction m with
  | nil => simp [Object.contain]
  | cons a m ih =>
    obtain ⟨ak, av⟩ := a
    by_cases hk : ak = s
    · simp [Object.contain, hk]
    · simp only [Object.contain, hk, if_false, List.map_cons, List.mem_cons]
      rw [ih]
      constructor
      · intro h; exact Or.inr h
      · rintro (h | h)
        · exact absurd h.symm hk
        · exact h

theorem get_insertAll (kvs : List (List Char × Handle)) :
    ∀ (res : Members) (s : List Char),
      Object.get (insertAll res kvs) s
        = if Object.contain res s = true then Object.get res s else firstValue kvs s := by
  induction kvs with
  | nil =>
    intro res s
    by_cases h : Object.contain res s = true
    · simp [insertAll, h]
    · simp only [insertAll, h, if_false, firstValue]
      exact get_of_not_contain res s (by simpa using h)
  | cons kv kvs ih =>
    intro res s
    obtain ⟨k, v⟩ := kv
    simp only [insertAll, firstValue]
    rw [ih]
    unfold Object.set
    by_cases hk : Object.contain res k = true
    · simp only [hk, if_true]
      by_cases hs : Object.contain res s = true
      · simp [hs]
      · simp only [hs, if_false]
        have : k ≠ s := by rintro rfl; exact hs hk
        simp [this]
    · simp only [hk, Bool.false_eq_true, if_false]
      rw [contain_append, get_append]
      by_cases hs : Object.contain res s = true
      · simp [hs]
      · by_cases hks : k = s
        · simp [hs, hks]
        · simp [hs, hks]

theorem keys_insertAll (kvs : List (List Char × Handle)) :
    ∀ (res : Members), (res.map Prod.fst).Nodup →
      ((insertAll res kvs).map Prod.fst).Nodup ∧
      ∀ s, s ∈ (insertAll res kvs).map Prod.fst ↔ s ∈ res.map Prod.fst ∨ s ∈ kvs.map Prod.fst := by
  induction kvs with
  | nil => intro res h; exact ⟨h, by simp [insertAll]⟩
  | cons kv kvs ih =>
    intro res hres
    obtain ⟨k, v⟩ := kv
    simp only [insertAll]
    unfold Object.set
    by_cases hk : Object.contain res k = true
    · simp only [hk, if_true]
      obtain ⟨h1, h2⟩ := ih res hres
      refine ⟨h1, fun s => ?_⟩
      rw [h2 s]
      have hmem := (contain_iff_mem res k).mp hk
      simp only [List.map_cons, List.mem_cons]
      constructor
      · rintro (h | h)
        · exact Or.inl h
        · exact Or.inr (Or.inr h)
      · rintro (h | h | h)
        · exact Or.inl h
        · rw [h]; exact Or.inl hmem
        · exact Or.inr h
    · simp only [hk, Bool.false_eq_true, if_false]
      have hnot : k ∉ res.map Prod.fst := fun hm => hk ((contain_iff_mem res k).mpr hm)
      have hnd : ((res ++ [(k, v)]).map Prod.fst).Nodup := by
        rw [List.map_append, List.nodup_append]
        refine ⟨hres, by simp, ?_⟩
        intro a ha hb
        simp only [List.map_cons, List.map_nil, List.mem_singleton] at hb
        rw [hb] at ha
        exact hnot ha
      obtain ⟨h1, h2⟩ := ih _ hnd
      refine ⟨h1, fun s => ?_⟩
      rw [h2 s]
      simp only [List.map_append, List.map_cons, List.map_nil, List.mem_append,
        List.mem_singleton, List.mem_cons]
      tauto

theorem size_insertAll (kvs : List (List Char × Handle)) :
    Object.size (insertAll [] kvs) = (kvs.map Prod.fst).toFinset.card := by
  obtain ⟨h1, h2⟩ := keys_insertAll kvs [] (by simp)
  have : Object.size (insertAll [] kvs) = ((insertAll [] kvs).map Prod.fst).length := by
    simp [Object.size]
  rw [this, ← List.toFinset_card_of_nodup h1]
  congr 1
  ext s
  simp only [List.mem_toFinset]
  rw [h2 s]
  simp

theorem uint_members (f : Nat) :
    ∀ (ps : List (List Char × Nat)), (∀ p ∈ ps, PlainText p.1 ∧ p.2 < 2 ^ 64) →
      List.Forall₂ (MemberOk (parseValue (f + 1))) (uintMembers ps)
        (ps.map (fun p => some (JValue.JUIntNumber p.2))) := by
  intro ps
  induction ps with
  | nil => intro _; exact List.Forall₂.nil
  | cons p ps ih =>
    intro hps
    obtain ⟨hk, hn⟩ := hps p (by simp)
    obtain ⟨c, cs, hc⟩ := List.exists_cons_of_ne_nil (toDigits_ne_nil p.2)
    have hd := isDigit_not_delim c (toDigits_allDigits p.2 c (by rw [hc]; simp))
    exact List.Forall₂.cons
      ⟨hk, ⟨c, cs, hc, hd.1, (structural_cases c hd.2.1).2.2.2.2.2⟩, parsesAs_uint f p.2 hn⟩
      (ih (fun x hx => hps x (by simp [hx])))

theorem membersText_length (ms : List (List Char × List Char)) (hms : ∀ m ∈ ms, m.2 ≠ []) :
    4 * ms.length + 1 ≤ (membersText ms).length := by
  induction ms with
  | nil => simp [membersText]
  | cons m ms ih =>
    have h1 : 0 < m.2.length := List.length_pos.mpr (hms m (by simp))
    have h2 := ih (fun x hx => hms x (by simp [hx]))
    cases ms with
    | nil => simp [membersText]; omega
    | cons m1 ms1 =>
      simp only [membersText, List.length_append, List.length_cons] at h2 ⊢
      omega

theorem firstValue_find (ps : List (List Char × Nat)) (k : List Char) (n : Nat)
    (h : ps.find? (fun p => decide (p.1 = k)) = some (k, n)) :
    firstValue (((uintMembers ps).map Prod.fst).zip
      (ps.map (fun p => some (JValue.JUIntNumber p.2)))) k = some (.JUIntNumber n) := by
  induction ps with
  | nil => simp at h
  | cons p ps ih =>
    by_cases hp : p.1 = k
    · simp only [List.find?_cons, hp, decide_True, Option.some.injEq] at h
      simp [uintMembers, firstValue, hp, h]
    · simp only [List.find?_cons, hp, decide_False] at h
      have := ih h
      simp only [uintMembers, List.map_map, List.map_cons, List.zip_cons_cons, firstValue,
        Function.comp_apply, hp, if_false] at this ⊢
      exact this

/-- C7 (first key wins).  For every list of pairs `(k, n)` in which each key has neither a
double quote nor a backslash and each `n` is below `2^64`, `parse` of the compact object
text `{"k_1":n_1,...,"k_m":n_m}` reports no error and returns an Object whose `size()` is
the number of distinct keys and whose `get(k)` is the `UIntNumber` of the first pair with
key `k`; later pairs with the same key are dropped. -/
theorem object_first_key_wins (ps : List (List Char × Nat))
    (hps : ∀ p ∈ ps, PlainText p.1 ∧ p.2 < 2 ^ 64) :
    ∃ res : Members,
      parse (Char.ofNat 123 :: membersText (uintMembers ps)) = some (some (.JObject res), false) ∧
      Object.size res = (ps.map Prod.fst).toFinset.card ∧
      ∀ (k : List Char) (n : Nat), ps.find? (fun p => decide (p.1 = k)) = some (k, n) →
        Object.get res k = some (.JUIntNumber n) := by
  have hall := uint_members ((Char.ofNat 123 :: membersText (uintMembers ps)).length) ps hps
  have hlen : 4 * (uintMembers ps).length + 1 ≤ (membersText (uintMembers ps)).length := by
    apply membersText_length
    intro m hm
    simp only [uintMembers, List.mem_map] at hm
    obtain ⟨p, _, rfl⟩ := hm
    exact toDigits_ne_nil p.2
  have hp := parsesAs_object _ (uintMembers ps) _ hall (by simp only [List.length_cons]; omega)
  have hparse := parse_of_parsesAs (Char.ofNat 123 :: membersText (uintMembers ps)) [] _
    (Char.ofNat 123) _ rfl (by decide) sep_nil (by simpa using hp)
  refine ⟨_, by simpa using hparse, ?_, ?_⟩
  · rw [size_insertAll]
    congr 2
    have : ((uintMembers ps).map Prod.fst).length
        = (ps.map (fun p => some (JValue.JUIntNumber p.2))).length := by simp [uintMembers]
    rw [List.map_fst_zip _ _ (by rw [this])]
    simp [uintMembers]
  · intro k n hfind
    rw [get_insertAll]
    simp only [Object.contain, Bool.false_eq_true, if_false]
    exact firstValue_find ps k n hfind

/-- C7 on the text `{"a":1,"b":2,"a":3}`: two entries, `a` bound to 1 and `b` to 2. -/
theorem object_first_key_wins_witness :
    ∃ res : Members,
      parse ([Char.ofNat 123] ++ "\"a\":1,\"b\":2,\"a\":3".toList ++ [Char.ofNat 125])
        = some (some (.JObject res), false) ∧
      Object.size res = 2 ∧
      Object.get res ['a'] = some (.JUIntNumber 1) ∧
      Object.get res ['b'] = some (.JUIntNumber 2) := by
  have hplain : ∀ p ∈ [(['a'], 1), (['b'], 2), (['a'], 3)],
      PlainText p.1 ∧ p.2 < 2 ^ 64 := by
    intro p hp
    simp only [List.mem_cons, List.mem_singleton, List.not_mem_nil, or_false] at hp
    rcases hp with rfl | rfl | rfl <;>
      exact ⟨by intro c hc; simp at hc; rw [hc]; decide, by norm_num⟩
  obtain ⟨res, h1, h2, h3⟩ :=
    object_first_key_wins [(['a'], 1), (['b'], 2), (['a'], 3)] hplain
  exact ⟨res, h1, by rw [h2]; decide, h3 ['a'] 1 (by decide), h3 ['b'] 2 (by decide)⟩


/-! ## Claim C10: escape decoding -/

theorem parseEscape_letter (e : Escape) :
    parseEscape e.letter = e.meaning ∧ parseEscape e.letter ≠ cNul := by
  cases e <;> exact ⟨by rfl, by decide⟩

theorem parseEscape_other (c : Char) (h : ∀ e : Escape, c ≠ e.letter) : parseEscape c = cNul := by
  have h1 := h .quote
  have h2 := h .backslash
  have h3 := h .slash
  have h4 := h .b
  have h5 := h .f
  have h6 := h .n
  have h7 := h .r
  have h8 := h .t
  simp only [Escape.letter] at h1 h2 h3 h4 h5 h6 h7 h8
  simp [parseEscape, h1, h2, h3, h4, h5, h6, h7, h8]

theorem unescape_cons_plain (c : Char) (l : List Char) (hc : c ≠ cBackslash) :
    unescape (c :: l) = (unescape l).map (fun s => c :: s) := by
  cases l with
  | nil => simp [unescape, hc]
  | cons e r => simp [unescape, hc]

theorem unescape_cons_escape (e : Char) (l : List Char) :
    unescape (cBackslash :: e :: l)
      = if parseEscape e = cNul then none else (unescape l).map (fun s => parseEscape e :: s) := by
  simp [unescape]

theorem strRun_items (items : List Item) (hv : ∀ it ∈ items, it.Valid) :
    ∀ prev, strRun prev (itemsText items ++ [cQuote]) = (itemsText items).length + 1 := by
  induction items with
  | nil =>
    intro prev
    by_cases h : prev = cBackslash <;> simp [itemsText, strRun, h]
  | cons it its ih =>
    intro prev
    have ih2 := ih (fun x hx => hv x (by simp [hx]))
    cases it with
    | plain c =>
      have hc : c ≠ cQuote ∧ c ≠ cBackslash := hv (.plain c) (by simp)
      have e1 : itemsText (Item.plain c :: its) ++ [cQuote] = c :: (itemsText its ++ [cQuote]) := rfl
      have e2 : (itemsText (Item.plain c :: its)).length = (itemsText its).length + 1 := by
        simp [itemsText, Item.text]
      rw [e1, e2]
      simp only [strRun, hc.1, false_and, if_false]
      rw [ih2 c]; omega
    | escape e =>
      have hb : cBackslash ≠ cQuote := by decide
      have e1 : itemsText (Item.escape e :: its) ++ [cQuote]
          = cBackslash :: e.letter :: (itemsText its ++ [cQuote]) := rfl
      have e2 : (itemsText (Item.escape e :: its)).length = (itemsText its).length + 2 := by
        simp [itemsText, Item.text]
      rw [e1, e2]
      simp only [strRun, hb, false_and, if_false, ne_eq, not_true_eq_false, and_false]
      rw [ih2 e.letter]; omega

theorem unescape_items (items : List Item) (hv : ∀ it ∈ items, it.Valid) :
    unescape (itemsText items) = some (items.map Item.decoded) := by
  induction items with
  | nil => rfl
  | cons it its ih =>
    have ih2 := ih (fun x hx => hv x (by simp [hx]))
    cases it with
    | plain c =>
      have hc : c ≠ cQuote ∧ c ≠ cBackslash := hv (.plain c) (by simp)
      simp only [itemsText, Item.text, List.cons_append, List.nil_append]
      rw [unescape_cons_plain c _ hc.2, ih2]
      rfl
    | escape e =>
      simp only [itemsText, Item.text, List.cons_append, List.nil_append]
      rw [unescape_cons_escape, if_neg (parseEscape_letter e).2, ih2, (parseEscape_letter e).1]
      rfl

theorem parseValue_string (f : Nat) (tk : Token) (h0 : tk.atIdx 0 = cQuote) :
    parseValue (f + 1) tk false
      = some ((parseString tk false).1.map JValue.JString, (parseString tk false).2) := by
  have e1 : cQuote ≠ Char.ofNat 123 := by decide
  have e2 : cQuote ≠ '[' := by decide
  rw [parseValue]
  simp [h0, e1, e2]

theorem strRun_items_bad (pre : List Item) (hv : ∀ it ∈ pre, it.Valid) (c : Char)
    (hc : c ≠ cQuote) (rest : List Char) :
    ∀ prev, (itemsText pre).length + 2 ≤ strRun prev (itemsText pre ++ cBackslash :: c :: rest) := by
  induction pre with
  | nil =>
    intro prev
    have hb : cBackslash ≠ cQuote := by decide
    simp only [itemsText, List.nil_append, List.length_nil, strRun, hb, false_and, if_false, hc]
    omega
  | cons it its ih =>
    intro prev
    have ih2 := ih (fun x hx => hv x (by simp [hx]))
    cases it with
    | plain x =>
      have hx : x ≠ cQuote ∧ x ≠ cBackslash := hv (.plain x) (by simp)
      have e1 : itemsText (Item.plain x :: its) ++ cBackslash :: c :: rest
          = x :: (itemsText its ++ cBackslash :: c :: rest) := rfl
      have e2 : (itemsText (Item.plain x :: its)).length = (itemsText its).length + 1 := by
        simp [itemsText, Item.text]
      rw [e1, e2]
      simp only [strRun, hx.1, false_and, if_false]
      have := ih2 x; omega
    | escape e =>
      have hb : cBackslash ≠ cQuote := by decide
      have e1 : itemsText (Item.escape e :: its) ++ cBackslash :: c :: rest
          = cBackslash :: e.letter :: (itemsText its ++ cBackslash :: c :: rest) := rfl
      have e2 : (itemsText (Item.escape e :: its)).length = (itemsText its).length + 2 := by
        simp [itemsText, Item.text]
      rw [e1, e2]
      simp only [strRun, hb, false_and, if_false, ne_eq, not_true_eq_false, and_false]
      have := ih2 e.letter; omega

theorem unescape_items_bad (pre : List Item) (hv : ∀ it ∈ pre, it.Valid) (c : Char)
    (hc : parseEscape c = cNul) (rest : List Char) :
    ∀ k, (itemsText pre).length + 1 ≤ k →
      unescape ((itemsText pre ++ cBackslash :: c :: rest).take k) = none := by
  induction pre with
  | nil =>
    intro k hk
    obtain ⟨k1, rfl⟩ : ∃ k1, k = k1 + 1 := ⟨k - 1, by simp [itemsText] at hk; omega⟩
    cases k1 with
    | zero => simp [itemsText, unescape]
    | succ k2 => simp [itemsText, unescape_cons_escape, hc]
  | cons it its ih =>
    intro k hk
    have ih2 := ih (fun x hx => hv x (by simp [hx]))
    cases it with
    | plain x =>
      have hx : x ≠ cQuote ∧ x ≠ cBackslash := hv (.plain x) (by simp)
      simp only [itemsText, Item.text, List.cons_append, List.nil_append, List.length_cons] at hk ⊢
      obtain ⟨k1, rfl⟩ : ∃ k1, k = k1 + 1 := ⟨k - 1, by omega⟩
      rw [List.take_succ_cons, unescape_cons_plain x _ hx.2, ih2 k1 (by omega)]
      rfl
    | escape e =>
      simp only [itemsText, Item.text, List.cons_append, List.nil_append, List.length_cons] at hk ⊢
      obtain ⟨k1, rfl⟩ : ∃ k1, k = k1 + 1 + 1 := ⟨k - 2, by omega⟩
      rw [List.take_succ_cons, List.take_succ_cons, unescape_cons_escape,
        if_neg (parseEscape_letter e).2, ih2 k1 (by omega)]
      rfl

theorem parseString_bad (tk : Token) (pre : List Item) (hv : ∀ it ∈ pre, it.Valid) (c : Char)
    (hc : parseEscape c = cNul) (rest : List Char)
    (hat : At tk (cQuote :: (itemsText pre ++ cBackslash :: c :: rest))) :
    parseString tk false = (none, tk, true) := by
  have hcq : c ≠ cQuote := by
    rintro rfl
    revert hc; decide
  have hrun := strRun_items_bad pre hv c hcq rest cQuote
  have hsz : tk.size = 1 + strRun cQuote (itemsText pre ++ cBackslash :: c :: rest) := by
    rw [hat.at_size]
    have h1 : isStructural cQuote = false := by decide
    simp [lexLen, h1]
  have hle := strRun_le (itemsText pre ++ cBackslash :: c :: rest) cQuote
  generalize hL : strRun cQuote (itemsText pre ++ cBackslash :: c :: rest) = L at hrun hsz hle
  obtain ⟨L1, rfl⟩ : ∃ L1, L = L1 + 1 := ⟨L - 1, by omega⟩
  let body := (itemsText pre ++ cBackslash :: c :: rest).take L1
  have hbl : body.length = L1 := by
    simp only [body, List.length_take]
    omega
  have hidx : ∀ j, j < body.length → tk.atIdx (j + 1) = strAt body j := by
    intro j hj
    rw [hat.at_atIdx, strAt_succ]
    simp only [body, strAt, List.getD_eq_getElem?_getD]
    rw [List.getElem?_take_of_lt (by rw [hbl] at hj; exact hj)]
  have hloop := parseStringLoop_eq tk body hidx (body.length + 2) 0 [] (by omega) (by omega)
  have hnone : unescape body = none := unescape_items_bad pre hv c hc rest L1 (by omega)
  simp only [List.drop_zero, hnone, Option.map_none', zero_add] at hloop
  have e : tk.size = body.length + 2 := by rw [hsz, hbl]; omega
  simp only [parseString, e, hloop]
  simp

/-- C10 (escape decoding).  For every sequence of items, each a single character other
than the double quote and the backslash or one of the eight escapes, `parse` of the text
quote + items + quote reports no error and returns the String of the items in order, each
escape replaced by the single character it stands for.  And when, after any such items, a
backslash is followed by a character `c` outside the eight escape letters, `parse` sets the
error flag whatever follows. -/
theorem escape_decoding (items : List Item) (hv : ∀ it ∈ items, it.Valid)
    (pre : List Item) (hpre : ∀ it ∈ pre, it.Valid) (c : Char)
    (hc : ∀ e : Escape, c ≠ e.letter) (rest : List Char) :
    parse (cQuote :: itemsText items ++ [cQuote])
      = some (some (.JString (items.map Item.decoded)), false) ∧
    parse (cQuote :: (itemsText pre ++ cBackslash :: c :: rest)) = some (none, true) := by
  constructor
  · have hpos := init_pos (cQuote :: itemsText items ++ [cQuote])
    have hat : At (Token.init (cQuote :: itemsText items ++ [cQuote])).nextToken
        (cQuote :: itemsText items ++ cQuote :: []) := by
      exact Pos.pos_at_head (by simpa using hpos) (by decide)
    have hlen : lexLen (cQuote :: itemsText items ++ cQuote :: [])
        = (itemsText items).length + 2 := by
      have h1 : isStructural cQuote = false := by decide
      rw [List.cons_append]
      simp only [lexLen, h1, Bool.false_eq_true, if_false, if_true]
      rw [strRun_items items hv cQuote]; omega
    have hps := parseString_eq hat hlen
    rw [unescape_items items hv] at hps
    have h0 : (Token.init (cQuote :: itemsText items ++ [cQuote])).nextToken.atIdx 0 = cQuote := by
      rw [hat.at_atIdx]; rfl
    apply parse_eq_of_at _ _ _ (Token.init (cQuote :: itemsText items ++ [cQuote])).nextToken.nextToken
    rw [parseValue_string _ _ h0, hps]
    rfl
  · have hpos := init_pos (cQuote :: (itemsText pre ++ cBackslash :: c :: rest))
    have hat := Pos.pos_at_head hpos (by decide)
    have hps := parseString_bad _ pre hpre c (parseEscape_other c hc) rest hat
    have h0 : (Token.init (cQuote :: (itemsText pre ++ cBackslash :: c :: rest))).nextToken.atIdx 0
        = cQuote := by
      rw [hat.at_atIdx]; rfl
    apply parse_eq_of_at _ _ _ (Token.init (cQuote :: (itemsText pre ++ cBackslash :: c :: rest))).nextToken
    rw [parseValue_string _ _ h0, hps]
    rfl

/-- C10 on the texts `"a\nb\\"` (the characters `a`, newline, `b`, backslash) and `"a\x"`
(an unknown escape, rejected). -/
theorem escape_decoding_witness :
    parse [cQuote, 'a', cBackslash, 'n', 'b', cBackslash, cBackslash, cQuote]
      = some (some (.JString ['a', Char.ofNat 10, 'b', cBackslash]), false) ∧
    parse [cQuote, 'a', cBackslash, 'x', cQuote] = some (none, true) :=
  escape_decoding [.plain 'a', .escape .n, .plain 'b', .escape .backslash]
    (by
      intro it hit
      simp only [List.mem_cons, List.mem_singleton, List.not_mem_nil, or_false] at hit
      rcases hit with rfl | rfl | rfl | rfl
      · exact ⟨by decide, by decide⟩
      · trivial
      · exact ⟨by decide, by decide⟩
      · trivial)
    [.plain 'a']
    (by
      intro it hit
      simp only [List.mem_singleton] at hit
      rw [hit]
      exact ⟨by decide, by decide⟩)
    'x' (by intro e; cases e <;> decide) [cQuote]


/-! ## Claim C1: the round trip through `toString` and `parse` -/

mutual
theorem equiv_refl : ∀ v : JValue, JValue.Equiv v v
  | .JObject m => JValue.Equiv.object m m (fun _ => rfl) (fun _ => rfl)
      (fun k v1 v2 h1 h2 => by
        have : v1 = v2 := by rw [h1] at h2; exact Option.some.inj h2
        subst this
        exact equiv_refl_members m k v1 h1)
  | .JArray l => JValue.Equiv.array l l rfl (fun _ => Iff.rfl)
      (fun i v1 v2 h1 h2 => by
        have : v1 = v2 := by rw [h1] at h2; exact Option.some.inj (Option.some.inj h2)
        subst this
        exact equiv_refl_elems l i v1 h1)
  | .JString s => JValue.Equiv.string s
  | .JIntNumber i => JValue.Equiv.intNumber i
  | .JUIntNumber n => JValue.Equiv.uintNumber n
  | .JFloatNumber d => JValue.Equiv.floatNumber d
  | .JBool b => JValue.Equiv.bool b
  | .JNull => JValue.Equiv.null
theorem equiv_refl_members : ∀ (m : Members) (k : List Char) (v : JValue),
    Object.get m k = some v → JValue.Equiv v v
  | [], _, _, h => by simp [Object.get] at h
  | (_, none) :: m, k, v, h => by
    simp only [Object.get] at h
    split at h
    · simp at h
    · exact equiv_refl_members m k v h
  | (_, some v0) :: m, k, v, h => by
    simp only [Object.get] at h
    split at h
    · have : v0 = v := Option.some.inj h
      subst this
      exact equiv_refl v0
    · exact equiv_refl_members m k v h
theorem equiv_refl_elems : ∀ (l : List Handle) (i : Nat) (v : JValue),
    Array.get l i = some (some v) → JValue.Equiv v v
  | [], _, _, h => by simp [Array.get] at h
  | none :: l, i, v, h => by
    cases i with
    | zero => simp [Array.get] at h
    | succ j => exact equiv_refl_elems l j v (by simpa [Array.get] using h)
  | some v0 :: l, i, v, h => by
    cases i with
    | zero =>
      have : v0 = v := by simpa [Array.get] using h
      subst this
      exact equiv_refl v0
    | succ j => exact equiv_refl_elems l j v (by simpa [Array.get] using h)
end

theorem commaJoin_succ (ts : List (List Char)) : ∀ i,
    commaJoin ts (i + 1) ++ [']']
      = if ts = [] then [']'] else ',' :: elemsText (compactElems ts) := by
  induction ts with
  | nil => intro i; rfl
  | cons t ts ih =>
    intro i
    simp only [commaJoin, List.append_assoc]
    rw [ih (i + 1)]
    cases ts with
    | nil => simp [compactElems, elemsText]
    | cons t1 ts1 => simp [compactElems, elemsText]

theorem commaJoin_zero (ts : List (List Char)) (hne : ts ≠ []) :
    '[' :: commaJoin ts 0 ++ [']'] = '[' :: elemsText (compactElems ts) := by
  obtain ⟨t, ts1, rfl⟩ := List.exists_cons_of_ne_nil hne
  simp only [commaJoin, List.cons_append, List.append_assoc]
  rw [commaJoin_succ ts1 0]
  cases ts1 with
  | nil => simp [compactElems, elemsText]
  | cons t1 ts2 => simp [compactElems, elemsText]

theorem entriesText_members (ms : List (List Char × List Char)) (hne : ms ≠ []) :
    ∃ X, entriesText ms = X ++ [','] ∧ X ++ [Char.ofNat 125] = membersText ms := by
  induction ms with
  | nil => exact absurd rfl hne
  | cons m ms ih =>
    cases ms with
    | nil =>
      exact ⟨cQuote :: m.1 ++ cQuote :: ':' :: m.2, by simp [entriesText], by simp [membersText]⟩
    | cons m1 ms1 =>
      obtain ⟨X, h1, h2⟩ := ih (by simp)
      refine ⟨cQuote :: m.1 ++ cQuote :: ':' :: m.2 ++ ',' :: X, ?_, ?_⟩
      · simp only [entriesText] at h1 ⊢
        rw [h1]; simp
      · simp only [membersText]
        rw [← h2]; simp

theorem object_text (ms : List (List Char × List Char)) :
    (if (Char.ofNat 123 :: entriesText ms).getLast? = some ','
      then (Char.ofNat 123 :: entriesText ms).dropLast
      else Char.ofNat 123 :: entriesText ms) ++ [Char.ofNat 125]
      = Char.ofNat 123 :: membersText ms := by
  by_cases hne : ms = []
  · subst hne
    have : (Char.ofNat 123 : Char) ≠ ',' := by decide
    simp [entriesText, membersText, this]
  · obtain ⟨X, h1, h2⟩ := entriesText_members ms hne
    rw [h1, ← h2]
    have e : Char.ofNat 123 :: (X ++ [',']) = (Char.ofNat 123 :: X) ++ [','] := rfl
    rw [e, List.getLast?_append, List.dropLast_concat]
    simp

theorem insertAll_nodup (kvs : Members) : ∀ (res : Members),
    ((res ++ kvs).map Prod.fst).Nodup → insertAll res kvs = res ++ kvs := by
  induction kvs with
  | nil => intro res _; simp [insertAll]
  | cons kv kvs ih =>
    intro res h
    have hk : Object.contain res kv.1 = false := by
      by_contra hc
      have hm := (contain_iff_mem res kv.1).mp (by simpa using hc)
      rw [List.map_append, List.nodup_append] at h
      exact h.2.2 hm (by simp)
    simp only [insertAll, Object.set, hk, Bool.false_eq_true, if_false]
    rw [ih (res ++ [kv]) (by simpa using h)]
    simp

theorem zip_fst_snd (m : Members) : (m.map Prod.fst).zip (m.map Prod.snd) = m := by
  induction m with
  | nil => rfl
  | cons a m ih => simp [ih]

theorem member_length (ms : List (List Char × List Char)) (x : List Char × List Char)
    (hx : x ∈ ms) : x.2.length + 4 ≤ (membersText ms).length := by
  induction ms with
  | nil => simp at hx
  | cons m ms ih =>
    cases ms with
    | nil =>
      simp only [List.mem_singleton] at hx
      subst hx
      simp [membersText]
    | cons m1 ms1 =>
      simp only [membersText, List.length_append, List.length_cons]
      rcases List.mem_cons.mp hx with h | h
      · subst h; omega
      · have := ih h
        omega

theorem elem_length (ts : List (List Char)) (t : List Char) (ht : t ∈ ts) :
    t.length + 1 ≤ (elemsText (compactElems ts)).length := by
  induction ts with
  | nil => simp at ht
  | cons a ts ih =>
    cases ts with
    | nil =>
      simp only [List.mem_singleton] at ht
      subst ht
      simp [compactElems, elemsText]
    | cons a1 ts1 =>
      have e : elemsText (compactElems (a :: a1 :: ts1))
          = a ++ ',' :: elemsText (compactElems (a1 :: ts1)) := by
        simp [compactElems, elemsText]
      rw [e]
      simp only [List.length_append, List.length_cons]
      rcases List.mem_cons.mp ht with h | h
      · subst h; omega
      · have := ih h
        omega

theorem to_string_i_neg (i : Int) (h : i < 0) :
    to_string_i i = '-' :: Nat.toDigits 10 i.natAbs := by
  simp [to_string_i, h]

mutual
theorem roundtrip_value (g : Double → List Char) : ∀ v : JValue, v.Plain →
    ∃ t, v.toString g = some t ∧ ValueHead t ∧
      ∀ f, t.length ≤ f → ParsesAs (parseValue (f + 1)) t (some v)
  | .JObject m, hp => by
    obtain ⟨hm, hnd⟩ : membersPlain m ∧ (m.map Prod.fst).Nodup := by
      simpa [JValue.Plain] using hp
    obtain ⟨ms, hkeys, hent, hne, hall⟩ := roundtrip_members g m hm
    refine ⟨Char.ofNat 123 :: membersText ms, ?_, ⟨_, _, rfl, by decide, by decide⟩, ?_⟩
    · simp only [JValue.toString, hent]
      rw [object_text ms]
    · intro f hf
      have hlen := membersText_length ms hne
      simp only [List.length_cons] at hf
      obtain ⟨f0, rfl⟩ : ∃ f0, f = f0 + 1 := ⟨f - 1, by omega⟩
      have hall2 := hall f0 (fun x hx => by have := member_length ms x hx; omega)
      have hpo := parsesAs_object (f0 + 1) ms (m.map Prod.snd) hall2 (by omega)
      rw [hkeys, zip_fst_snd, insertAll_nodup m [] (by simpa using hnd)] at hpo
      simpa using hpo
  | .JArray l, hp => by
    obtain ⟨hl, he⟩ : l ≠ [] ∧ elemsPlain l := by
      simpa [JValue.Plain] using hp
    obtain ⟨ts, hent, hlen, hne, hall⟩ := roundtrip_elems g l 0 he
    have htsne : ts ≠ [] := by
      intro h
      rw [h] at hlen
      exact hl (List.length_eq_zero.mp hlen.symm)
    refine ⟨'[' :: elemsText (compactElems ts), ?_, ⟨_, _, rfl, by decide, by decide⟩, ?_⟩
    · simp only [JValue.toString, hent]
      rw [commaJoin_zero ts htsne]
    · intro f hf
      have hlen2 := elemsText_length (compactElems ts) (by
        intro e he
        simp only [compactElems, List.mem_map] at he
        obtain ⟨t, ht, rfl⟩ := he
        exact hne t ht)
      simp only [List.length_cons] at hf
      obtain ⟨f0, rfl⟩ : ∃ f0, f = f0 + 1 := ⟨f - 1, by omega⟩
      have hall2 := hall f0 (fun t ht => by have := elem_length ts t ht; omega)
      have hcl : (compactElems ts).length = ts.length := by simp [compactElems]
      have hcne : compactElems ts ≠ [] := by
        intro h
        rw [h] at hcl
        exact htsne (List.length_eq_zero.mp hcl.symm)
      have htl : 0 < ts.length := List.length_pos.mpr htsne
      exact parsesAs_array (f0 + 1) (compactElems ts) l hall2 hcne (by omega)
  | .JString s, hp => by
    have hs : PlainText s := by simpa [JValue.Plain] using hp
    exact ⟨cQuote :: s ++ [cQuote], by simp [JValue.toString],
      ⟨_, _, rfl, by decide, by decide⟩, fun f _ => parsesAs_string f s hs⟩
  | .JIntNumber i, hp => by
    obtain ⟨h1, h2⟩ : -(2 ^ 63 : Int) ≤ i ∧ i < 0 := by simpa [JValue.Plain] using hp
    refine ⟨'-' :: Nat.toDigits 10 i.natAbs, by simp [JValue.toString, to_string_i_neg i h2],
      ⟨_, _, rfl, by decide, by decide⟩, fun f _ => ?_⟩
    have := parsesAs_negint f i.natAbs (by omega)
    have e : -((i.natAbs : Nat) : Int) = i := by omega
    rwa [e] at this
  | .JUIntNumber n, hp => by
    have hn : n < 2 ^ 64 := by simpa [JValue.Plain] using hp
    obtain ⟨c, cs, hc⟩ := List.exists_cons_of_ne_nil (toDigits_ne_nil n)
    have hd := isDigit_not_delim c (toDigits_allDigits n c (by rw [hc]; simp))
    exact ⟨Nat.toDigits 10 n, by simp [JValue.toString, to_string_u],
      ⟨c, cs, hc, hd.1, (structural_cases c hd.2.1).2.2.2.2.2⟩, fun f _ => parsesAs_uint f n hn⟩
  | .JFloatNumber d, hp => by
    exact absurd hp (by simp [JValue.Plain])
  | .JBool true, _ =>
    ⟨['t', 'r', 'u', 'e'], by simp [JValue.toString],
      ⟨_, _, rfl, by decide, by decide⟩, fun f _ => parsesAs_true f⟩
  | .JBool false, _ =>
    ⟨['f', 'a', 'l', 's', 'e'], by simp [JValue.toString],
      ⟨_, _, rfl, by decide, by decide⟩, fun f _ => parsesAs_false f⟩
  | .JNull, _ =>
    ⟨['n', 'u', 'l', 'l'], by simp [JValue.toString],
      ⟨_, _, rfl, by decide, by decide⟩, fun f _ => parsesAs_null f⟩
theorem roundtrip_members (g : Double → List Char) : ∀ m : Members, membersPlain m →
    ∃ ms : List (List Char × List Char),
      ms.map Prod.fst = m.map Prod.fst ∧ objectEntries g m = some (entriesText ms) ∧
      (∀ x ∈ ms, x.2 ≠ []) ∧
      ∀ f, (∀ x ∈ ms, x.2.length ≤ f) →
        List.Forall₂ (MemberOk (parseValue (f + 1))) ms (m.map Prod.snd)
  | [], _ => ⟨[], rfl, by simp [objectEntries, entriesText], by simp,
      fun _ _ => List.Forall₂.nil⟩
  | (_, none) :: _, hp => by
    exact absurd hp (by simp [membersPlain])
  | (k, some v) :: m, hp => by
    obtain ⟨hk, hv, hm⟩ : PlainText k ∧ v.Plain ∧ membersPlain m := by
      simpa [membersPlain] using hp
    obtain ⟨t, ht, hhead, hpa⟩ := roundtrip_value g v hv
    obtain ⟨ms, hkeys, hent, hne, hall⟩ := roundtrip_members g m hm
    refine ⟨(k, t) :: ms, by simp [hkeys], by simp [objectEntries, ht, hent, entriesText], ?_, ?_⟩
    · intro x hx
      rcases List.mem_cons.mp hx with h | h
      · subst h
        obtain ⟨c, cs, hc, _⟩ := hhead
        simp [hc]
      · exact hne x h
    · intro f hf
      exact List.Forall₂.cons ⟨hk, hhead, hpa f (hf (k, t) (by simp))⟩
        (hall f (fun x hx => hf x (by simp [hx])))
theorem roundtrip_elems (g : Double → List Char) : ∀ (l : List Handle) (i : Nat), elemsPlain l →
    ∃ ts : List (List Char),
      arrayEntries g l i = some (commaJoin ts i) ∧ ts.length = l.length ∧
      (∀ t ∈ ts, t ≠ []) ∧
      ∀ f, (∀ t ∈ ts, t.length ≤ f) →
        List.Forall₂ (ElemOk (parseValue (f + 1))) (compactElems ts) l
  | [], _, _ => ⟨[], by simp [arrayEntries, commaJoin], rfl, by simp,
      fun _ _ => List.Forall₂.nil⟩
  | none :: _, _, hp => by
    exact absurd hp (by simp [elemsPlain])
  | some v :: l, i, hp => by
    obtain ⟨hv, hl⟩ : v.Plain ∧ elemsPlain l := by
      simpa [elemsPlain] using hp
    obtain ⟨t, ht, hhead, hpa⟩ := roundtrip_value g v hv
    obtain ⟨ts, hent, hlen, hne, hall⟩ := roundtrip_elems g l (i + 1) hl
    refine ⟨t :: ts, by simp [arrayEntries, ht, hent, commaJoin], by simp [hlen], ?_, ?_⟩
    · intro x hx
      rcases List.mem_cons.mp hx with h | h
      · subst h
        obtain ⟨c, cs, hc, _⟩ := hhead
        simp [hc]
      · exact hne x h
    · intro f hf
      exact List.Forall₂.cons
        ⟨by intro c hc; simp at hc, by intro c hc; simp at hc, hhead, hpa f (hf t (by simp))⟩
        (hall f (fun x hx => hf x (by simp [hx])))
end

/-- C1 as stated fails: the tree `IntNumber 5`, built with `getNewIntNumber` and `set(5)`,
prints as `5`, which `parse` reads as a `UIntNumber`: the kind differs. -/
theorem roundtrip_counterexample : ¬ RoundTrip (fun _ => []) (.JIntNumber 5) := by
  rintro ⟨t, v1, ht, hp, he⟩
  have e : t = ['5'] := by
    have : (JValue.JIntNumber 5).toString (fun _ => []) = some ['5'] := rfl
    rw [this] at ht
    exact (Option.some.inj ht).symm
  subst e
  have hparse : parse ['5'] = some (some (.JUIntNumber 5), false) := rfl
  rw [hparse] at hp
  have hv : v1 = .JUIntNumber 5 := by
    have := Option.some.inj hp
    simp only [Prod.mk.injEq, Option.some.injEq, and_true] at this
    exact this.symm
  subst hv
  cases he

/-- C1, amended.  For every value tree in which every handle is non-empty, no node is a
`FloatNumber`, every `IntNumber` payload is negative, every string payload and object key
has neither a double quote nor a backslash, and no array is empty, `toString` gives a text
whose `parse` reports no error and returns a tree equivalent to the original. -/
theorem roundtrip_plain (g : Double → List Char) (v : JValue) (hv : v.Plain) :
    RoundTrip g v := by
  obtain ⟨t, ht, ⟨c, cs, hc, hsp, _⟩, hpa⟩ := roundtrip_value g v hv
  have hparse := parse_of_parsesAs t [] (some v) c cs hc hsp sep_nil
    (hpa _ (by simp))
  exact ⟨t, v, ht, by simpa using hparse, equiv_refl v⟩

/-- C1, amended, on the tree of the text `{"a":[-5,"x",null],"b":true,"c":{}}`. -/
theorem roundtrip_plain_witness :
    RoundTrip (fun _ => [])
      (.JObject [(['a'], some (.JArray [some (.JIntNumber (-5)), some (.JString ['x']),
          some .JNull])), (['b'], some (.JBool true)), (['c'], some (.JObject []))]) :=
  roundtrip_plain _ _ (by
    simp only [JValue.Plain, membersPlain, elemsPlain, PlainText]
    exact ⟨⟨by decide, ⟨by simp, by decide, by decide, trivial, trivial⟩, by decide, trivial,
      by decide, ⟨trivial, by simp⟩, trivial⟩, by decide⟩)


/-! ## Claims C4, C5, C8 and C9: where the code departs from the claims -/

/-- C4 (number grammar) fails on the code at `0e5`: the text matches the JSON number
grammar, yet `matchNumber` returns 0 (state `ZERO` accepts only `.`) and `parse` sets the
error flag; the same exponent after a non-zero digit, `1e5`, is accepted as float-shaped. -/
theorem number_grammar_zero_exponent :
    jsonNumber "0e5".toList = true ∧
    matchNumber (Token.init "0e5".toList).nextToken = 0 ∧
    parse "0e5".toList = some (none, true) ∧
    matchNumber (Token.init "1e5".toList).nextToken = 1 := by
  refine ⟨by decide, by decide, by rfl, by decide⟩

/-- C5 (empty array) fails on the code: after `]` is matched in `WAIT_VALUE_OR_END` control
falls into `WAIT_VALUE`, so `parse("[]")` sets the error flag and returns an Array of size 1
holding an empty handle; `parse` of the empty object text reports no error and returns an
Object of size 0. -/
theorem empty_array_rejected :
    parse "[]".toList = some (some (.JArray [none]), true) ∧
    parse [Char.ofNat 123, Char.ofNat 125] = some (some (.JObject []), false) := by
  exact ⟨by rfl, by rfl⟩

/-- C8 (unterminated containers) fails on the code: the loops of `parseObject` and
`parseArray` stop when the token stream ends and the state reached is not checked, so each
of the five example texts parses with the error flag clear. -/
theorem unterminated_accepted :
    parse "[1,2".toList
      = some (some (.JArray [some (.JUIntNumber 1), some (.JUIntNumber 2)]), false) ∧
    parse "[".toList = some (some (.JArray []), false) ∧
    parse [Char.ofNat 123] = some (some (.JObject []), false) ∧
    parse (Char.ofNat 123 :: "\"a\":1".toList) = some (some (.JObject []), false) ∧
    parse (Char.ofNat 123 :: "\"a\":".toList) = some (some (.JObject []), false) := by
  exact ⟨by rfl, by rfl, by rfl, by rfl, by rfl⟩

/-- Trailing input after the text of a plain tree is ignored: `parse` of the text followed
by a space and anything returns the same tree, with the error flag clear. -/
theorem trailing_ignored_plain (g : Double → List Char) (v : JValue) (hv : v.Plain)
    (u : List Char) :
    ∃ t, v.toString g = some t ∧ parse t = some (some v, false) ∧
      parse (t ++ ' ' :: u) = some (some v, false) := by
  obtain ⟨t, ht, ⟨c, cs, hc, hsp, _⟩, hpa⟩ := roundtrip_value g v hv
  have h1 := parse_of_parsesAs t [] (some v) c cs hc hsp sep_nil (hpa _ (by simp))
  have hsep : Sep (' ' :: u) := by
    intro x xs hx
    simp only [List.cons.injEq] at hx
    rw [← hx.1]
    exact Or.inl (by decide)
  have h2 := parse_of_parsesAs t (' ' :: u) (some v) c cs hc hsp hsep
    (hpa _ (by simp; omega))
  exact ⟨t, ht, by simpa using h1, h2⟩

/-- C9 (trailing input) fails on the code for the closed string literal `"a\\"` (the
string `a\`): alone it parses without error, but followed by a space and `x` the tokenizer
takes the closing quote for an escaped one, the token runs to the end of the text and
`parse` sets the error flag; followed by a space and a quote it returns another string. -/
theorem trailing_input_after_backslash :
    parse [cQuote, 'a', cBackslash, cBackslash, cQuote]
      = some (some (.JString ['a', cBackslash]), false) ∧
    parse ([cQuote, 'a', cBackslash, cBackslash, cQuote] ++ [' '] ++ ['x'])
      = some (none, true) ∧
    parse ([cQuote, 'a', cBackslash, cBackslash, cQuote] ++ [' '] ++ [cQuote])
      = some (some (.JString ['a', cBackslash, cQuote, ' ']), false) := by
  exact ⟨by rfl, by rfl, by rfl⟩


/-! ## Claim C14: the narrowing accessors -/

theorem getTypeString_eq (h : Handle) : JsonTypeString.getTypeString h = actualName h := by
  cases h with
  | none => rfl
  | some v =>
    simp only [JsonTypeString.getTypeString, actualName]
    cases v.type <;> rfl

theorem accessor_some (K : JType) (v : JValue) :
    accessor K (some v)
      = if v.type = K then .ok (some v)
        else .error ⟨actualName (some v) ++ JFactory.cannotConvert ++ kindName K⟩ := by
  rw [← getTypeString_eq]
  cases K <;> cases hv : v.type <;>
    simp [accessor, JFactory.getObject, JFactory.getArray, JFactory.getString,
      JFactory.getIntNumber, JFactory.getUIntNumber, JFactory.getFloatNumber, JFactory.getBool,
      JFactory.getNull, JValue.isObject, JValue.isArray, JValue.isString, JValue.isIntNumber,
      JValue.isUIntNumber, JValue.isFloatNumber, JValue.isBool, JValue.isNull, hv, kindName]

theorem accessor_none (K : JType) :
    accessor K none = .error ⟨actualName none ++ JFactory.cannotConvert ++ kindName K⟩ := by
  cases K <;> rfl

/-- C14 (narrowing accessors).  For every handle `h` and every kind `K`, the accessor of
`JFactory` for `K` succeeds if and only if `h` is non-empty and its kind is `K`; it then
returns the same handle, on which the accessor succeeds again with the same result; in every
other case it fails with a `JsonException` whose message is the name of the actual kind
(`JsonInvaild` for an empty handle), then ` cannot be converted to `, then the name of `K`. -/
theorem narrowing_accessors (h : Handle) (K : JType) :
    ((∃ r, accessor K h = .ok r) ↔ ∃ v, h = some v ∧ v.type = K) ∧
    (∀ r, accessor K h = .ok r → r = h ∧ accessor K r = .ok r) ∧
    ((¬ ∃ v, h = some v ∧ v.type = K) →
      accessor K h
        = .error ⟨JsonTypeString.getTypeString h ++ " cannot be converted to ".toList
            ++ kindName K⟩) ∧
    JsonTypeString.getTypeString h
      = (match h with
        | none => "JsonInvaild".toList
        | some v => kindName v.type) := by
  have hname : JsonTypeString.getTypeString h
      = (match h with
        | none => "JsonInvaild".toList
        | some v => kindName v.type) := by
    rw [getTypeString_eq]; cases h <;> rfl
  refine ⟨?_, ?_, ?_, hname⟩
  · cases h with
    | none => simp [accessor_none]
    | some v =>
      rw [accessor_some]
      by_cases hk : v.type = K <;> simp [hk]
  · intro r hr
    cases h with
    | none => simp [accessor_none] at hr
    | some v =>
      rw [accessor_some] at hr
      by_cases hk : v.type = K
      · simp only [hk, if_true, Except.ok.injEq] at hr
        subst hr
        exact ⟨rfl, by rw [accessor_some]; simp [hk]⟩
      · simp [hk] at hr
  · intro hne
    rw [getTypeString_eq]
    cases h with
    | none => exact accessor_none K
    | some v =>
      rw [accessor_some]
      have hk : v.type ≠ K := fun hk => hne ⟨v, rfl, hk⟩
      simp [hk, JFactory.cannotConvert]


/-! ## Claims C15 and C16: the members of `_Object_` and `_Array_` -/

theorem contain_get_keep (m : Members) (k : List Char) (v : Handle) (s : List Char)
    (hks : k ≠ s) : Object.get (m ++ [(k, v)]) s = Object.get m s := by
  rw [get_append]
  by_cases hc : Object.contain m s = true
  · simp [hc]
  · simp only [hc, Bool.false_eq_true, if_false, hks]
    exact (get_of_not_contain m s (by simpa using hc)).symm

/-- C15 (object insert-if-absent).  For every Object `o`, key `k` and handle `v`:
`set(k, v)` returns true exactly when `o` did not contain `k`; afterwards `get(k)` is `v`
when it returned true and the handle stored before when it returned false, `size()` grew by
one exactly when it returned true, `contain(k)` is true, and `get` of every other key is
unchanged; and `get` of a key that the object does not contain is the empty handle. -/
theorem object_insert_if_absent (o : Members) (k : List Char) (v : Handle) :
    ((Object.set o k v).1 = true ↔ Object.contain o k = false) ∧
    ((Object.set o k v).1 = true → Object.get (Object.set o k v).2 k = v) ∧
    ((Object.set o k v).1 = false → Object.get (Object.set o k v).2 k = Object.get o k) ∧
    (Object.size (Object.set o k v).2
      = if (Object.set o k v).1 = true then Object.size o + 1 else Object.size o) ∧
    Object.contain (Object.set o k v).2 k = true ∧
    (∀ k1, k1 ≠ k → Object.get (Object.set o k v).2 k1 = Object.get o k1) ∧
    (∀ k1, Object.contain o k1 = false → Object.get o k1 = none) := by
  by_cases hc : Object.contain o k = true
  · have hs : Object.set o k v = (false, o) := by simp [Object.set, hc]
    rw [hs]
    refine ⟨by simp [hc], by simp, fun _ => rfl, by simp, hc, fun _ _ => rfl,
      fun k1 h1 => get_of_not_contain o k1 h1⟩
  · have hc2 : Object.contain o k = false := by simpa using hc
    have hs : Object.set o k v = (true, o ++ [(k, v)]) := by simp [Object.set, hc2]
    rw [hs]
    refine ⟨by simp [hc2], fun _ => ?_, by simp, by simp [Object.size], ?_, ?_,
      fun k1 h1 => get_of_not_contain o k1 h1⟩
    · show Object.get (o ++ [(k, v)]) k = v
      rw [get_append]; simp [hc2]
    · show Object.contain (o ++ [(k, v)]) k = true
      rw [contain_append]; simp
    · intro k1 hk1
      exact contain_get_keep o k v k1 (fun h => hk1 h.symm)

/-- C16 (array append and bounds).  For every Array `a` and handle `v`: after `set(v)` the
size is the old size plus one, `get(old size)` is `v`, and `get(i)` is unchanged for every
`i` below the old size; and for every index `i`, `get(i)` fails (out of range) exactly when
`i ≥ size()`. -/
theorem array_append_and_bounds (a : List Handle) (v : Handle) :
    Array.size (Array.set a v) = Array.size a + 1 ∧
    Array.get (Array.set a v) (Array.size a) = some v ∧
    (∀ i, i < Array.size a → Array.get (Array.set a v) i = Array.get a i) ∧
    (∀ i, Array.get a i = none ↔ Array.size a ≤ i) := by
  refine ⟨by simp [Array.size, Array.set], ?_, ?_, ?_⟩
  · simp [Array.get, Array.set, Array.size]
  · intro i hi
    simp only [Array.size] at hi
    simp [Array.get, Array.set, List.getElem?_append_left hi]
  · intro i
    simp [Array.get, Array.size]


/-! ## Claims C17 and C18: printing integers and containers -/

/-- C17 (printing a parsed integer).  For every `n` below `2^64` the canonical decimal text
of `n` parses to a `UIntNumber` whose `toString` is that text; for every `n` with
`0 < n ≤ 2^63` the text `-` + decimal of `n` parses to an `IntNumber` whose `toString` is
that text; and `-0` parses to a value whose `toString` is `0`. -/
theorem printing_parsed_integer (g : Double → List Char) (n : Nat) :
    (n < 2 ^ 64 → ∃ v, parse (Nat.toDigits 10 n) = some (some v, false) ∧
      v.type = .JUINTNUMBER ∧ v.toString g = some (Nat.toDigits 10 n)) ∧
    (0 < n → n ≤ 2 ^ 63 → ∃ v, parse ('-' :: Nat.toDigits 10 n) = some (some v, false) ∧
      v.type = .JINTNUMBER ∧ v.toString g = some ('-' :: Nat.toDigits 10 n)) ∧
    (∃ v, parse ['-', '0'] = some (some v, false) ∧
      v.type = .JINTNUMBER ∧ v.toString g = some ['0']) := by
  refine ⟨fun hn => ?_, fun h0 hn => ?_, ?_⟩
  · obtain ⟨c, cs, hc, hsp⟩ := digits_head_not_space n
    have := parse_of_parsesAs (Nat.toDigits 10 n) [] _ c cs hc hsp sep_nil
      (parsesAs_uint _ n hn)
    exact ⟨.JUIntNumber n, by simpa using this, rfl, by simp [JValue.toString, to_string_u]⟩
  · have := parse_of_parsesAs ('-' :: Nat.toDigits 10 n) [] _ '-' _ rfl (by decide) sep_nil
      (parsesAs_negint _ n hn)
    refine ⟨.JIntNumber (-(n : Int)), by simpa using this, rfl, ?_⟩
    have hneg : -(n : Int) < 0 := by omega
    simp [JValue.toString, to_string_i, hneg]
  · exact ⟨.JIntNumber 0, by rfl, rfl, by rfl⟩

/-- C17 on the texts `18446744073709551615`, `-9223372036854775808` and `-0`. -/
theorem printing_parsed_integer_witness :
    (∃ v, parse "18446744073709551615".toList = some (some v, false) ∧
      v.type = .JUINTNUMBER ∧
      v.toString (fun _ => []) = some "18446744073709551615".toList) ∧
    (∃ v, parse "-9223372036854775808".toList = some (some v, false) ∧
      v.type = .JINTNUMBER ∧
      v.toString (fun _ => []) = some "-9223372036854775808".toList) :=
  ⟨(printing_parsed_integer (fun _ => []) 18446744073709551615).1 (by decide),
   (printing_parsed_integer (fun _ => []) 9223372036854775808).2.1 (by decide) (by decide)⟩

theorem commaEnded_eq (ts : List (List Char)) (hne : ts ≠ []) :
    commaEnded ts = commaSep ts ++ [','] := by
  induction ts with
  | nil => exact absurd rfl hne
  | cons t ts ih =>
    cases ts with
    | nil => simp [commaEnded, commaSep]
    | cons t1 ts1 =>
      simp only [commaEnded, commaSep] at ih ⊢
      rw [ih (by simp)]
      simp

theorem commaJoin_eq (ts : List (List Char)) : ∀ i,
    commaJoin ts i
      = if ts = [] then [] else (if i ≠ 0 then [','] else []) ++ commaSep ts := by
  induction ts with
  | nil => intro i; rfl
  | cons t ts ih =>
    intro i
    simp only [commaJoin]
    rw [ih (i + 1)]
    cases ts with
    | nil => simp [commaSep]
    | cons t1 ts1 => simp [commaSep]

theorem arrayEntries_eq (g : Double → List Char) (l : List Handle) : ∀ i,
    arrayEntries g l i = (elementTexts g l).map (fun ts => commaJoin ts i) := by
  induction l with
  | nil => intro i; rfl
  | cons h l ih =>
    intro i
    cases h with
    | none => rfl
    | some v =>
      simp only [arrayEntries, elementTexts]
      rw [ih (i + 1)]
      cases v.toString g <;> cases elementTexts g l <;> simp [commaJoin]

theorem objectEntries_eq (g : Double → List Char) (m : Members) :
    objectEntries g m = (entryTexts g m).map commaEnded := by
  induction m with
  | nil => rfl
  | cons e m ih =>
    obtain ⟨k, h⟩ := e
    cases h with
    | none => rfl
    | some v =>
      simp only [objectEntries, entryTexts]
      rw [ih]
      cases v.toString g <;> cases entryTexts g m <;> simp [commaEnded]

theorem elementTexts_iff (g : Double → List Char) (l : List Handle) :
    ∀ ts, elementTexts g l = some ts ↔
      List.Forall₂ (fun h t => ∃ v, h = some v ∧ v.toString g = some t) l ts := by
  induction l with
  | nil =>
    intro ts
    cases ts <;> simp [elementTexts]
  | cons h l ih =>
    intro ts
    cases h with
    | none =>
      simp only [elementTexts]
      constructor
      · intro h; cases h
      · intro h
        cases h with
        | cons h1 _ => obtain ⟨v, hv, _⟩ := h1; cases hv
    | some v =>
      simp only [elementTexts]
      constructor
      · intro h
        cases hv : v.toString g with
        | none => simp [hv] at h
        | some t =>
          cases hl : elementTexts g l with
          | none => simp [hv, hl] at h
          | some ts1 =>
            simp only [hv, hl, Option.some.injEq] at h
            subst h
            exact List.Forall₂.cons ⟨v, rfl, hv⟩ ((ih ts1).mp hl)
      · intro h
        cases h with
        | @cons _ t _ ts1 h1 h2 =>
          obtain ⟨v1, hv1, ht⟩ := h1
          cases hv1
          rw [ht, (ih ts1).mpr h2]

theorem entryTexts_iff (g : Double → List Char) (m : Members) :
    ∀ es, entryTexts g m = some es ↔
      List.Forall₂ (fun e x => ∃ v t, e.2 = some v ∧ v.toString g = some t ∧
        x = cQuote :: e.1 ++ cQuote :: ':' :: t) m es := by
  induction m with
  | nil =>
    intro es
    cases es <;> simp [entryTexts]
  | cons e m ih =>
    intro es
    obtain ⟨k, h⟩ := e
    cases h with
    | none =>
      simp only [entryTexts]
      constructor
      · intro h; cases h
      · intro h
        cases h with
        | cons h1 _ => obtain ⟨v, t, hv, _⟩ := h1; cases hv
    | some v =>
      simp only [entryTexts]
      constructor
      · intro h
        cases hv : v.toString g with
        | none => simp [hv] at h
        | some t =>
          cases hl : entryTexts g m with
          | none => simp [hv, hl] at h
          | some es1 =>
            simp only [hv, hl, Option.some.injEq] at h
            subst h
            exact List.Forall₂.cons ⟨v, t, rfl, hv, rfl⟩ ((ih es1).mp hl)
      · intro h
        cases h with
        | @cons _ x _ es1 h1 h2 =>
          obtain ⟨v1, t, hv1, ht, hx⟩ := h1
          cases hv1
          rw [ht, (ih es1).mpr h2, hx]

/-- C18 (compact serialization of containers).  For every Array, `toString()` is `[`, the
`toString()` results of the elements in index order separated by single commas, and `]`;
for every Object, `toString()` is an opening brace, one entry per stored key in iteration
order (the key in double quotes, a colon, the `toString()` result of the value) separated by
single commas, and a closing brace.  The element and entry texts are exactly those of
non-empty handles whose own `toString()` is defined; with an empty handle neither side is
defined.  The empty containers print as `[]` and as the two braces. -/
theorem compact_serialization (g : Double → List Char) (l : List Handle) (m : Members) :
    (JValue.JArray l).toString g
      = (elementTexts g l).map (fun ts => '[' :: commaSep ts ++ [']']) ∧
    (JValue.JObject m).toString g
      = (entryTexts g m).map (fun es => Char.ofNat 123 :: commaSep es ++ [Char.ofNat 125]) ∧
    (∀ ts, elementTexts g l = some ts ↔
      List.Forall₂ (fun h t => ∃ v, h = some v ∧ v.toString g = some t) l ts) ∧
    (∀ es, entryTexts g m = some es ↔
      List.Forall₂ (fun e x => ∃ v t, e.2 = some v ∧ v.toString g = some t ∧
        x = cQuote :: e.1 ++ cQuote :: ':' :: t) m es) ∧
    (JValue.JArray []).toString g = some ['[', ']'] ∧
    (JValue.JObject []).toString g = some [Char.ofNat 123, Char.ofNat 125] := by
  refine ⟨?_, ?_, elementTexts_iff g l, entryTexts_iff g m, by rfl, by rfl⟩
  · simp only [JValue.toString]
    rw [arrayEntries_eq]
    cases elementTexts g l with
    | none => rfl
    | some ts =>
      simp only [Option.map_some']
      rw [commaJoin_eq]
      by_cases hts : ts = []
      · subst hts; rfl
      · simp [hts]
  · simp only [JValue.toString]
    rw [objectEntries_eq]
    cases entryTexts g m with
    | none => rfl
    | some es =>
      simp only [Option.map_some']
      by_cases hes : es = []
      · subst hes
        have : (Char.ofNat 123 : Char) ≠ ',' := by decide
        simp [commaEnded, commaSep, this]
      · rw [commaEnded_eq es hes]
        have e : Char.ofNat 123 :: (commaSep es ++ [',']) = (Char.ofNat 123 :: commaSep es) ++ [','] := rfl
        rw [e, List.getLast?_append, List.dropLast_concat]
        simp


/-! ## Claims C12 and C13: rejected leading characters and literal spelling -/

theorem parseValue_reject (f : Nat) (tk : Token) (h : ¬ LeadOk (tk.atIdx 0)) :
    parseValue (f + 1) tk false = some (none, tk, true) := by
  simp only [LeadOk, not_or] at h
  obtain ⟨h1, h2, h3, h4, h5, h6, h7, h8⟩ := h
  rw [parseValue]
  simp [h1, h2, h3, h4, h5, h6, h7, h8]

theorem space_not_leadOk (c : Char) (h : isspace c = true) : ¬ LeadOk c := by
  simp only [isspace, Bool.or_eq_true, decide_eq_true_eq] at h
  rcases h with ((((rfl | rfl) | rfl) | rfl) | rfl) | rfl <;>
    (unfold LeadOk; decide)

theorem nextToken_blank (s : List Char) (h : s.dropWhile isspace = []) :
    (Token.init s).nextToken = ⟨s, 0, s.length, true⟩ := by
  have hskip := skipSpace_eq s (s.length - 0) 0 (le_refl _)
  have htw : (s.takeWhile isspace).length = s.length := by
    have := drop_takeWhile_length isspace s
    rw [h] at this
    have h2 : (s.drop (s.takeWhile isspace).length).length = 0 := by rw [this]; rfl
    have h3 : (s.takeWhile isspace).length ≤ s.length := (List.takeWhile_sublist _).length_le
    simp at h2
    omega
  simp only [List.drop_zero, htw, zero_add, Nat.sub_zero] at hskip
  simp [Token.nextToken, Token.init, hskip]

theorem blank_dropWhile (ws : List Char) (h : Blank ws) : ws.dropWhile isspace = [] := by
  have := dropWhile_space_append ws [] h
  simpa using this

/-- C12 (rejected leading characters).  For every text made of whitespace followed by
`rest`: when `rest` is empty (the text has no token: it is empty or whitespace only), or
when `rest` starts with a character that is not whitespace (so the first token begins with
it) and is none of the opening brace, `[`, the double quote, `-`, a decimal digit, `t`, `f`
and `n`, `parse` sets the error flag. -/
theorem rejected_leading (ws rest : List Char) (hws : Blank ws)
    (h : rest = [] ∨ ∃ c cs, rest = c :: cs ∧ isspace c = false ∧ ¬ LeadOk c) :
    parse (ws ++ rest) = some (none, true) := by
  rcases h with rfl | ⟨c, cs, rfl, hsp, hlead⟩
  · rw [List.append_nil]
    have htk := nextToken_blank ws (blank_dropWhile ws hws)
    have h0 : ¬ LeadOk ((Token.init ws).nextToken.atIdx 0) := by
      rw [htk]
      cases ws with
      | nil => unfold LeadOk; decide
      | cons a as => exact space_not_leadOk a (hws a (by simp))
    exact parse_eq_of_at _ _ _ _ (parseValue_reject _ _ h0)
  · have hpos := init_pos (ws ++ c :: cs)
    have hat : At (Token.init (ws ++ c :: cs)).nextToken (c :: cs) := by
      have h2 : Pos (Token.init (ws ++ c :: cs)).nextToken (c :: cs) := by
        unfold Pos at hpos ⊢
        rwa [dropWhile_space_append ws _ hws] at hpos
      exact Pos.pos_at_head h2 hsp
    have h0 : ¬ LeadOk ((Token.init (ws ++ c :: cs)).nextToken.atIdx 0) := by
      rw [hat.at_atIdx]; exact hlead
    exact parse_eq_of_at _ _ _ _ (parseValue_reject _ _ h0)

/-- C12 on the texts of the tests and on texts without a token: `!aaa`, the empty text,
two spaces, and a closing bracket after a tab. -/
theorem rejected_leading_witness :
    parse "!aaa".toList = some (none, true) ∧ parse [] = some (none, true) ∧
    parse [' ', ' '] = some (none, true) ∧ parse [Char.ofNat 9, ']'] = some (none, true) :=
  ⟨rejected_leading [] "!aaa".toList (by intro c hc; simp at hc)
      (Or.inr ⟨'!', _, rfl, by decide, by unfold LeadOk; decide⟩),
   rejected_leading [] [] (by intro c hc; simp at hc) (Or.inl rfl),
   rejected_leading [' ', ' '] [] (by intro c hc; simp at hc; rw [hc]; rfl) (Or.inl rfl),
   rejected_leading [Char.ofNat 9] [']'] (by intro c hc; simp at hc; rw [hc]; rfl)
      (Or.inr ⟨']', _, rfl, by decide, by unfold LeadOk; decide⟩)⟩

theorem list_eq_four (tok : List Char) (a b c d : Char) :
    (tok.length = 4 ∧ strAt tok 0 = a ∧ strAt tok 1 = b ∧ strAt tok 2 = c ∧ strAt tok 3 = d)
      ↔ tok = [a, b, c, d] := by
  constructor
  · rintro ⟨hl, h0, h1, h2, h3⟩
    match tok, hl with
    | [x0, x1, x2, x3], _ =>
      simp only [strAt, List.getD_cons_zero, List.getD_cons_succ] at h0 h1 h2 h3
      rw [h0, h1, h2, h3]
  · rintro rfl
    exact ⟨rfl, rfl, rfl, rfl, rfl⟩

theorem list_eq_five (tok : List Char) (a b c d e : Char) :
    (tok.length = 5 ∧ strAt tok 0 = a ∧ strAt tok 1 = b ∧ strAt tok 2 = c ∧ strAt tok 3 = d
      ∧ strAt tok 4 = e) ↔ tok = [a, b, c, d, e] := by
  constructor
  · rintro ⟨hl, h0, h1, h2, h3, h4⟩
    match tok, hl with
    | [x0, x1, x2, x3, x4], _ =>
      simp only [strAt, List.getD_cons_zero, List.getD_cons_succ] at h0 h1 h2 h3 h4
      rw [h0, h1, h2, h3, h4]
  · rintro rfl
    exact ⟨rfl, rfl, rfl, rfl, rfl, rfl⟩

theorem token_cond_four (tk : Token) (tok : List Char) (hsz : tk.size = tok.length)
    (hidx : ∀ j, j < tok.length → tk.atIdx j = strAt tok j) (a b c d : Char) :
    (tk.size = 4 ∧ tk.atIdx 0 = a ∧ tk.atIdx 1 = b ∧ tk.atIdx 2 = c ∧ tk.atIdx 3 = d)
      ↔ tok = [a, b, c, d] := by
  rw [← list_eq_four]
  constructor
  · rintro ⟨hl, h0, h1, h2, h3⟩
    have hl4 : tok.length = 4 := by omega
    rw [hidx 0 (by omega)] at h0
    rw [hidx 1 (by omega)] at h1
    rw [hidx 2 (by omega)] at h2
    rw [hidx 3 (by omega)] at h3
    exact ⟨hl4, h0, h1, h2, h3⟩
  · rintro ⟨hl, h0, h1, h2, h3⟩
    exact ⟨by omega, by rw [hidx 0 (by omega)]; exact h0, by rw [hidx 1 (by omega)]; exact h1,
      by rw [hidx 2 (by omega)]; exact h2, by rw [hidx 3 (by omega)]; exact h3⟩

theorem token_cond_five (tk : Token) (tok : List Char) (hsz : tk.size = tok.length)
    (hidx : ∀ j, j < tok.length → tk.atIdx j = strAt tok j) (a b c d e : Char) :
    (tk.size = 5 ∧ tk.atIdx 0 = a ∧ tk.atIdx 1 = b ∧ tk.atIdx 2 = c ∧ tk.atIdx 3 = d
      ∧ tk.atIdx 4 = e) ↔ tok = [a, b, c, d, e] := by
  rw [← list_eq_five]
  constructor
  · rintro ⟨hl, h0, h1, h2, h3, h4⟩
    have hl5 : tok.length = 5 := by omega
    rw [hidx 0 (by omega)] at h0
    rw [hidx 1 (by omega)] at h1
    rw [hidx 2 (by omega)] at h2
    rw [hidx 3 (by omega)] at h3
    rw [hidx 4 (by omega)] at h4
    exact ⟨hl5, h0, h1, h2, h3, h4⟩
  · rintro ⟨hl, h0, h1, h2, h3, h4⟩
    exact ⟨by omega, by rw [hidx 0 (by omega)]; exact h0, by rw [hidx 1 (by omega)]; exact h1,
      by rw [hidx 2 (by omega)]; exact h2, by rw [hidx 3 (by omega)]; exact h3,
      by rw [hidx 4 (by omega)]; exact h4⟩

theorem parseBool_token (tk : Token) (tok : List Char) (hsz : tk.size = tok.length)
    (hidx : ∀ j, j < tok.length → tk.atIdx j = strAt tok j) :
    parseBool tk false
      = if tok = ['t', 'r', 'u', 'e'] then (some (.JBool true), tk.nextToken, false)
        else if tok = ['f', 'a', 'l', 's', 'e'] then (some (.JBool false), tk.nextToken, false)
        else (none, tk, true) := by
  unfold parseBool
  simp only [token_cond_four tk tok hsz hidx, token_cond_five tk tok hsz hidx]

theorem parseNull_token (tk : Token) (tok : List Char) (hsz : tk.size = tok.length)
    (hidx : ∀ j, j < tok.length → tk.atIdx j = strAt tok j) :
    parseNull tk false
      = if tok = ['n', 'u', 'l', 'l'] then (some .JNull, tk.nextToken, false)
        else (none, tk, true) := by
  unfold parseNull
  simp only [token_cond_four tk tok hsz hidx]

/-- C13 (literal spelling).  For every text that is a single bare token (no whitespace and
no structural character in it) beginning with `t`, `f` or `n`: `parse` returns `Bool(true)`
for `true`, `Bool(false)` for `false` and `Null` for `null`, each without error, and sets
the error flag for every other spelling; so it reports no error exactly for these three. -/
theorem literal_spelling (tok : List Char) (hnd : NoDelim tok)
    (hhead : ∃ cs, tok = 't' :: cs ∨ tok = 'f' :: cs ∨ tok = 'n' :: cs) :
    parse tok
      = if tok = ['t', 'r', 'u', 'e'] then some (some (.JBool true), false)
        else if tok = ['f', 'a', 'l', 's', 'e'] then some (some (.JBool false), false)
        else if tok = ['n', 'u', 'l', 'l'] then some (some .JNull, false)
        else some (none, true) := by
  obtain ⟨cs, hcs⟩ := hhead
  have hc : ∃ c, tok = c :: cs ∧ (c = 't' ∨ c = 'f' ∨ c = 'n') := by
    rcases hcs with h | h | h
    · exact ⟨'t', h, Or.inl rfl⟩
    · exact ⟨'f', h, Or.inr (Or.inl rfl)⟩
    · exact ⟨'n', h, Or.inr (Or.inr rfl)⟩
  obtain ⟨c, htok, hc3⟩ := hc
  have hcnd := hnd c (by rw [htok]; simp)
  have hcq : c ≠ cQuote := by rcases hc3 with rfl | rfl | rfl <;> decide
  have hlen : lexLen (tok ++ []) = tok.length := by
    rw [htok]
    exact lexLen_bare c cs [] hcnd.2 hcq (fun x hx => hnd x (by rw [htok]; simp [hx])) sep_nil
  have hpos := init_pos tok
  have hat : At (Token.init tok).nextToken (tok ++ []) := by
    rw [List.append_nil]
    rw [htok] at hpos ⊢
    exact Pos.pos_at_head hpos hcnd.1
  obtain ⟨hsz, _, hidx, _⟩ := at_token hat hlen
  have h0 : (Token.init tok).nextToken.atIdx 0 = c := by
    rw [hidx 0 (by rw [htok]; simp), htok]; rfl
  have hpv : parseValue (tok.length + 1 + 1) (Token.init tok).nextToken false
      = if c = 'n' then some (parseNull (Token.init tok).nextToken false)
        else some (parseBool (Token.init tok).nextToken false) := by
    rw [parseValue]
    rcases hc3 with rfl | rfl | rfl <;> simp [h0, cQuote, isDigit]
  have hparse : parse tok = (parseValue (tok.length + 1 + 1) (Token.init tok).nextToken false).map
      (fun r => (r.1, r.2.2)) := rfl
  rw [hparse, hpv, parseBool_token _ tok hsz hidx, parseNull_token _ tok hsz hidx]
  rcases hc3 with rfl | rfl | rfl
  · have e1 : tok ≠ ['f', 'a', 'l', 's', 'e'] := by rw [htok]; simp
    have e2 : tok ≠ ['n', 'u', 'l', 'l'] := by rw [htok]; simp
    by_cases ht : tok = ['t', 'r', 'u', 'e'] <;> simp [ht, e1, e2]
  · have e1 : tok ≠ ['t', 'r', 'u', 'e'] := by rw [htok]; simp
    have e2 : tok ≠ ['n', 'u', 'l', 'l'] := by rw [htok]; simp
    by_cases ht : tok = ['f', 'a', 'l', 's', 'e'] <;> simp [ht, e1, e2]
  · have e1 : tok ≠ ['t', 'r', 'u', 'e'] := by rw [htok]; simp
    have e2 : tok ≠ ['f', 'a', 'l', 's', 'e'] := by rw [htok]; simp
    by_cases ht : tok = ['n', 'u', 'l', 'l'] <;> simp [ht, e1, e2]

/-- C13 on the tokens `true`, `null` and the misspelling `nul`. -/
theorem literal_spelling_witness :
    parse "true".toList = some (some (.JBool true), false) ∧
    parse "null".toList = some (some .JNull, false) ∧
    parse "nul".toList = some (none, true) :=
  ⟨literal_spelling "true".toList (by unfold NoDelim; decide) ⟨_, Or.inl rfl⟩,
   literal_spelling "null".toList (by unfold NoDelim; decide) ⟨_, Or.inr (Or.inr rfl)⟩,
   literal_spelling "nul".toList (by unfold NoDelim; decide) ⟨_, Or.inr (Or.inr rfl)⟩⟩


/-! ## Claim C11: unterminated strings -/

theorem takeWhile_snoc (p : Char → Bool) (xs : List Char) (c : Char) :
    (xs ++ [c]).takeWhile p
      = if xs.all p = true then xs ++ (if p c = true then [c] else []) else xs.takeWhile p := by
  induction xs with
  | nil => by_cases h : p c = true <;> simp [List.takeWhile, h]
  | cons a xs ih =>
    by_cases ha : p a = true
    · simp only [List.cons_append, List.takeWhile_cons, ha, if_true, List.all_cons, Bool.true_and]
      rw [ih]
      by_cases hall : xs.all p = true <;> simp [hall]
    · simp [List.takeWhile_cons, ha]

theorem takeWhile_all (p : Char → Bool) (xs : List Char) (h : xs.all p = true) :
    xs.takeWhile p = xs := by
  induction xs with
  | nil => rfl
  | cons a xs ih =>
    simp only [List.all_cons, Bool.and_eq_true] at h
    simp [List.takeWhile_cons, h.1, ih h.2]

theorem backslashRun_cons (c : Char) (l : List Char) :
    backslashRun (c :: l)
      = if l.all (fun x => decide (x = cBackslash)) = true then
          (if c = cBackslash then l.length + 1 else l.length)
        else backslashRun l := by
  unfold backslashRun
  rw [List.reverse_cons, takeWhile_snoc, List.all_reverse]
  by_cases hall : l.all (fun x => decide (x = cBackslash)) = true
  · simp only [hall, if_true]
    by_cases hc : c = cBackslash <;> simp [hc]
  · simp [hall]

theorem backslashRun_all (l : List Char)
    (h : l.all (fun x => decide (x = cBackslash)) = true) : backslashRun l = l.length := by
  unfold backslashRun
  rw [takeWhile_all _ _ (by rw [List.all_reverse]; exact h)]
  simp

theorem backslashRun_last (pre : List Char) (h : 0 < backslashRun pre) :
    pre.getLast? = some cBackslash := by
  unfold backslashRun at h
  rw [List.getLast?_eq_head?_reverse]
  cases hr : pre.reverse with
  | nil => rw [hr] at h; simp at h
  | cons x xs =>
    rw [hr] at h
    by_cases hx : x = cBackslash
    · simp [hx]
    · simp [List.takeWhile_cons, hx] at h

theorem unescape_odd_run (n : Nat) : ∀ body : List Char, body.length ≤ n →
    Odd (backslashRun body) → unescape body = none := by
  induction n using Nat.strong_induction_on with
  | _ n ih =>
    intro body hlen hodd
    match body, hlen, hodd with
    | [], _, hodd => simp [backslashRun] at hodd
    | [c], _, hodd =>
      by_cases hc : c = cBackslash
      · simp [unescape, hc]
      · rw [backslashRun_cons] at hodd
        simp [hc] at hodd
    | c :: e :: r, hlen, hodd =>
      simp only [List.length_cons] at hlen
      by_cases hc : c = cBackslash
      · have hr : Odd (backslashRun r) := by
          rw [backslashRun_cons, backslashRun_cons] at hodd
          by_cases hall : r.all (fun x => decide (x = cBackslash)) = true
          · rw [backslashRun_all r hall]
            by_cases he : e = cBackslash
            · simp only [List.all_cons, he, decide_True, Bool.true_and, hall, if_true, hc,
                List.length_cons] at hodd
              rcases hodd with ⟨k, hk⟩
              exact ⟨k - 1, by omega⟩
            · simpa [List.all_cons, he, hall] using hodd
          · simpa [List.all_cons, hall] using hodd
        rw [hc, unescape_cons_escape]
        by_cases hp : parseEscape e = cNul
        · simp [hp]
        · simp only [hp, if_false]
          rw [ih (n - 2) (by omega) r (by omega) hr]
          rfl
      · have her : Odd (backslashRun (e :: r)) := by
          rw [backslashRun_cons] at hodd
          by_cases hall : (e :: r).all (fun x => decide (x = cBackslash)) = true
          · rw [backslashRun_all _ hall]
            simpa [hall, hc] using hodd
          · simpa [hall] using hodd
        rw [unescape_cons_plain c _ hc, ih (n - 1) (by omega) (e :: r) (by simp; omega) her]
        rfl

theorem strRun_never_closed (rest : List Char) : ∀ prev : Char,
    (∀ pre post, rest = pre ++ cQuote :: post → (prev :: pre).getLast? = some cBackslash) →
    strRun prev rest = rest.length := by
  induction rest with
  | nil => intro prev _; rfl
  | cons c cs ih =>
    intro prev h
    have hcond : ¬ (c = cQuote ∧ prev ≠ cBackslash) := by
      rintro ⟨hc, hp⟩
      have := h [] cs (by rw [hc]; rfl)
      simp at this
      exact hp this
    simp only [strRun, hcond, if_false, List.length_cons]
    rw [ih c (fun pre post hcs => by
      have := h (c :: pre) post (by rw [hcs]; rfl)
      simpa [List.getLast?_cons_cons] using this)]
    omega

/-- C11 (unterminated strings).  For every text that begins with a double quote and in which
every later double quote is preceded by an odd number of consecutive backslashes (none at
all included), `parse` sets the error flag. -/
theorem unterminated_string_rejected (rest : List Char)
    (h : ∀ pre post, rest = pre ++ cQuote :: post → Odd (backslashRun pre)) :
    parse (cQuote :: rest) = some (none, true) := by
  have hlast : ∀ pre post, rest = pre ++ cQuote :: post → pre.getLast? = some cBackslash := by
    intro pre post hr
    obtain ⟨k, hk⟩ := h pre post hr
    exact backslashRun_last pre (by omega)
  have hrun : strRun cQuote rest = rest.length := by
    apply strRun_never_closed
    intro pre post hr
    have hl := hlast pre post hr
    cases pre with
    | nil => simp at hl
    | cons a as => rw [List.getLast?_cons_cons]; exact hl
  have hpos := init_pos (cQuote :: rest)
  have hat := Pos.pos_at_head hpos (by decide)
  have hlex : lexLen (cQuote :: rest) = rest.length + 1 := by
    have h1 : isStructural cQuote = false := by decide
    simp only [lexLen, h1, Bool.false_eq_true, if_false, if_true, hrun]
    omega
  have h0 : (Token.init (cQuote :: rest)).nextToken.atIdx 0 = cQuote := by
    rw [hat.at_atIdx]; rfl
  have hps : parseString (Token.init (cQuote :: rest)).nextToken false
      = (none, (Token.init (cQuote :: rest)).nextToken, true) := by
    rcases List.eq_nil_or_concat rest with hnil | ⟨body, x, hbx⟩
    all_goals try rw [List.concat_eq_append] at hbx
    · have hsz : (Token.init (cQuote :: rest)).nextToken.size = 1 := by
        rw [hat.at_size, hlex, hnil]; rfl
      simp [parseString, hsz]
    · by_cases hx : x = cQuote
      · have hrest : rest = body ++ cQuote :: [] := by rw [hbx, hx]
        have hodd := h body [] hrest
        have hat2 : At (Token.init (cQuote :: rest)).nextToken
            (cQuote :: body ++ cQuote :: []) := by
          have e : cQuote :: body ++ cQuote :: [] = cQuote :: rest := by rw [hrest]; rfl
          rw [e]; exact hat
        have hlen2 : lexLen (cQuote :: body ++ cQuote :: []) = body.length + 2 := by
          have e : cQuote :: body ++ cQuote :: [] = cQuote :: rest := by rw [hrest]; rfl
          rw [e, hlex, hrest]; simp
        have := parseString_eq hat2 hlen2
        rw [unescape_odd_run body.length body (le_refl _) hodd] at this
        exact this
      · have hsz : (Token.init (cQuote :: rest)).nextToken.size = body.length + 2 := by
          rw [hat.at_size, hlex, hbx]; simp
        have hend : (Token.init (cQuote :: rest)).nextToken.atIdx (body.length + 2 - 1) = x := by
          rw [hat.at_atIdx, hbx]
          show strAt (cQuote :: (body ++ [x])) (body.length + 1) = x
          rw [strAt_succ]
          have := strAt_append_right body [x] 0
          simpa using this
        unfold parseString
        simp only [hsz]
        rw [if_pos (Or.inr (Or.inr (Or.inl (by rw [hend]; exact hx))))]
  apply parse_eq_of_at _ _ _ (Token.init (cQuote :: rest)).nextToken
  rw [parseValue_string _ _ h0, hps]
  rfl

/-- C11 on the text of the tests, `"aaa\"` (its last quote follows one backslash). -/
theorem unterminated_string_rejected_witness :
    parse [cQuote, 'a', 'a', 'a', cBackslash, cQuote] = some (none, true) :=
  unterminated_string_rejected ['a', 'a', 'a', cBackslash, cQuote] (by
    intro pre post hr
    have hpre : pre = ['a', 'a', 'a', cBackslash] := by
      have hq : ∀ (l : List Char), l = ['a', 'a', 'a', cBackslash, cQuote] →
          ∀ pre post, l = pre ++ cQuote :: post → pre = ['a', 'a', 'a', cBackslash] := by
        intro l hl pre post hpp
        subst hl
        match pre, hpp with
        | [], hpp => simp at hpp; exact absurd hpp.1 (by decide)
        | [_], hpp => simp at hpp; exact absurd hpp.2.1 (by decide)
        | [_, _], hpp => simp at hpp; exact absurd hpp.2.2.1 (by decide)
        | [_, _, _], hpp => simp at hpp; exact absurd hpp.2.2.2.1 (by decide)
        | [a, b, c, d], hpp =>
          simp at hpp
          obtain ⟨h1, h2, h3, h4, _⟩ := hpp
          rw [← h1, ← h2, ← h3, ← h4]
        | _ :: _ :: _ :: _ :: _ :: _, hpp => simp at hpp
      exact hq _ rfl pre post hr
    rw [hpre]
    decide)


/-! ## Claims C19 and C20: the string token boundary and the whitespace set -/

theorem nextToken_s (tk : Token) : tk.nextToken.s = tk.s := by
  unfold Token.nextToken
  by_cases hf : tk.finish = true
  · rw [if_pos hf]
  · rw [if_neg hf]
    dsimp only
    split_ifs <;> rfl

theorem init_at (ws cs : List Char) (c : Char) (hws : Blank ws) (hc : isspace c = false) :
    At (Token.init (ws ++ c :: cs)).nextToken (c :: cs) ∧
      (Token.init (ws ++ c :: cs)).nextToken.s = ws ++ c :: cs ∧
      (Token.init (ws ++ c :: cs)).nextToken.first = ws.length := by
  have hdw : (ws ++ c :: cs).dropWhile isspace = c :: cs := by
    rw [dropWhile_space_append ws _ hws]
    simp [List.dropWhile_cons, hc]
  have hpos := init_pos (ws ++ c :: cs)
  have hat : At (Token.init (ws ++ c :: cs)).nextToken (c :: cs) := by
    have := hpos.2 (by rw [hdw]; simp)
    rw [hdw] at this
    exact this
  have hs : (Token.init (ws ++ c :: cs)).nextToken.s = ws ++ c :: cs := nextToken_s _
  refine ⟨hat, hs, ?_⟩
  have ht := hat.text
  rw [hs] at ht
  have hl := congrArg List.length ht
  simp only [List.length_drop, List.length_append, List.length_cons] at hl
  omega

/-- C20, the claim refuted: the vertical tab and the form feed are whitespace for the
tokenizer, and the text made of a vertical tab followed by `1` parses to UIntNumber 1
without error. -/
theorem whitespace_counterexample :
    isspace (Char.ofNat 11) = true ∧ isspace (Char.ofNat 12) = true ∧
    (Token.init [Char.ofNat 11, '1']).nextToken.tokenStr = ['1'] ∧
    parse [Char.ofNat 11, '1'] = some (some (.JUIntNumber 1), false) :=
  ⟨by decide, by decide, by decide, rfl⟩

/-- C20, amended.  The tokenizer's whitespace is the set of the C library `isspace`: exactly
the six characters space, tab, line feed, vertical tab, form feed and carriage return.
For every text made of whitespace `ws` followed by a character `c` that is not whitespace
and any `cs`: the first token starts at `c`, right after `ws` (whitespace, and nothing else,
is skipped); when `c` is neither structural nor the double quote, the token runs over every
following character that is neither whitespace nor structural and ends at the first
character that is one of them, or at the end of the text; and a text of whitespace only
has no token. -/
theorem whitespace_set (ws cs : List Char) (c : Char) (hws : Blank ws)
    (hc : isspace c = false) :
    (∀ x, isspace x = true ↔ (x = ' ' ∨ x = Char.ofNat 9 ∨ x = Char.ofNat 10 ∨
        x = Char.ofNat 11 ∨ x = Char.ofNat 12 ∨ x = Char.ofNat 13)) ∧
    ((Token.init (ws ++ c :: cs)).nextToken.isEnd = false ∧
      (Token.init (ws ++ c :: cs)).nextToken.first = ws.length ∧
      (Token.init (ws ++ c :: cs)).nextToken.atIdx 0 = c) ∧
    (isStructural c = false → c ≠ cQuote → ∀ tl rest, cs = tl ++ rest → NoDelim tl → Sep rest →
      (Token.init (ws ++ c :: cs)).nextToken.tokenStr = c :: tl ∧
      (Token.init (ws ++ c :: cs)).nextToken.last = ws.length + (1 + tl.length)) ∧
    (Token.init ws).nextToken.isEnd = true := by
  obtain ⟨hat, _, hfirst⟩ := init_at ws cs c hws hc
  refine ⟨?_, ⟨hat.at_isEnd, hfirst, by rw [hat.at_atIdx]; rfl⟩, ?_, ?_⟩
  · intro x
    simp [isspace, or_assoc]
  · intro hs hq tl rest hcs htl hr
    have hlen : lexLen (c :: tl ++ rest) = (c :: tl).length := lexLen_bare c tl rest hs hq htl hr
    have hat2 : At (Token.init (ws ++ c :: cs)).nextToken ((c :: tl) ++ rest) := by
      rw [List.cons_append, ← hcs]; exact hat
    obtain ⟨_, htok, _, _⟩ := at_token hat2 hlen
    refine ⟨htok, ?_⟩
    rw [hat2.last, hfirst, hlen, List.length_cons]
    omega
  · rw [nextToken_blank ws (blank_dropWhile ws hws)]
    rfl

/-- C20, amended, on two form feeds followed by `12 `: the token `12` spans positions 2 to 4. -/
theorem whitespace_set_witness :
    (Token.init [Char.ofNat 12, Char.ofNat 12, '1', '2', ' ']).nextToken.tokenStr = ['1', '2'] ∧
    (Token.init [Char.ofNat 12, Char.ofNat 12, '1', '2', ' ']).nextToken.last = 4 :=
  (whitespace_set [Char.ofNat 12, Char.ofNat 12] ['2', ' '] '1'
    (by intro x hx; simp at hx; subst hx; decide) (by decide)).2.2.1
    (by decide) (by decide) ['2'] [' '] rfl
    (by intro x hx; simp at hx; subst hx; decide)
    (by intro x xs hx; simp at hx; rw [← hx.1]; left; decide)

/-- C19 (string token boundary), the failing text `["a\\","b"]`: the quote that closes
`"a\\"` follows a backslash, so the tokenizer goes on to the next quote and the first string
token is `"a\\","`; the next token is `b"`, and `parse` sets the error flag, returning an
Array whose only element is the String `a\",`.  The literal alone parses to the String `a\`. -/
theorem string_token_overrun :
    (Token.init ['[', cQuote, 'a', cBackslash, cBackslash, cQuote, ',', cQuote, 'b', cQuote, ']']
      ).nextToken.nextToken.tokenStr = [cQuote, 'a', cBackslash, cBackslash, cQuote, ',', cQuote] ∧
    (Token.init ['[', cQuote, 'a', cBackslash, cBackslash, cQuote, ',', cQuote, 'b', cQuote, ']']
      ).nextToken.nextToken.nextToken.tokenStr = ['b', cQuote] ∧
    parse ['[', cQuote, 'a', cBackslash, cBackslash, cQuote, ',', cQuote, 'b', cQuote, ']']
      = some (some (.JArray [some (.JString ['a', cBackslash, cQuote, ','])]), true) ∧
    parse [cQuote, 'a', cBackslash, cBackslash, cQuote]
      = some (some (.JString ['a', cBackslash]), false) :=
  ⟨by decide, by decide, rfl, rfl⟩


/-! ## Rounds of the container loops and progress of the token stream -/

theorem parseArrayLoop_round (pv : Token → Bool → Step Handle) (fuel : Nat) (st : ArrayType)
    (res : List Handle) (tk : Token) (e : Bool) :
    parseArrayLoop pv (fuel + 1) st res tk e =
      if tk.isEnd = true ∨ e = true ∨ st = .END then some (res, tk, e)
      else
        match arrayRound pv st res tk e with
        | none => none
        | some ((st1, res1), tk1, e1) => parseArrayLoop pv fuel st1 res1 tk1 e1 := by
  by_cases hx : tk.isEnd = true ∨ e = true ∨ st = .END
  · rw [if_pos hx]
    cases st <;> rw [parseArrayLoop, if_pos hx]
  · rw [if_neg hx]
    cases st <;> rw [parseArrayLoop, if_neg hx] <;>
      first
      | rfl
      | exact absurd (Or.inr (Or.inr rfl)) hx

theorem parseObjectLoop_round (pv : Token → Bool → Step Handle) (fuel : Nat) (st : ObjectType)
    (res : Members) (key : Option (List Char)) (value : Handle) (tk : Token) (e : Bool) :
    parseObjectLoop pv (fuel + 1) st res key value tk e =
      if tk.isEnd = true ∨ e = true ∨ st = .END then some (res, tk, e)
      else
        match objectRound pv st res key value tk e with
        | none => none
        | some ((st1, res1, key1, value1), tk1, e1) =>
          parseObjectLoop pv fuel st1 res1 key1 value1 tk1 e1 := by
  by_cases hx : tk.isEnd = true ∨ e = true ∨ st = .END
  · rw [if_pos hx]
    cases st <;> rw [parseObjectLoop, if_pos hx]
  · rw [if_neg hx]
    cases st <;> rw [parseObjectLoop, if_neg hx] <;> (try simp only [objectRound]) <;>
      first
      | rfl
      | exact absurd (Or.inr (Or.inr rfl)) hx
      | (split_ifs <;> rfl)
      | (cases pv tk e <;> rfl)
      | (cases key <;> rfl)

theorem nextToken_finished (tk : Token) (h : tk.finish = true) : tk.nextToken = tk := by
  simp [Token.nextToken, h]

theorem At.at_length {tk : Token} {txt : List Char} (h : At tk txt) :
    txt.length = tk.s.length - tk.first := by
  rw [← h.text]; simp

theorem At.at_length_pos {tk : Token} {txt : List Char} (h : At tk txt) : 0 < txt.length := by
  obtain ⟨c, cs, hc, _⟩ := h.head
  rw [hc]; simp

theorem At.at_lexLen_pos {tk : Token} {txt : List Char} (h : At tk txt) : 0 < lexLen txt := by
  obtain ⟨c, cs, hc, _⟩ := h.head
  rw [hc]; exact lexLen_pos c cs

theorem At.at_left {tk : Token} {txt : List Char} (h : At tk txt) : tk.left = txt.length := by
  simp [Token.left, h.notEnd, h.at_length]

theorem dropWhile_length_le (p : Char → Bool) (l : List Char) :
    (l.dropWhile p).length ≤ l.length :=
  (List.dropWhile_sublist p).length_le

theorem At.at_next_cases {tk : Token} {txt : List Char} (h : At tk txt) :
    tk.nextToken.finish = true ∨
      (At tk.nextToken ((txt.drop (lexLen txt)).dropWhile isspace) ∧
        ((txt.drop (lexLen txt)).dropWhile isspace).length + lexLen txt ≤ txt.length) := by
  have hp := h.at_next
  by_cases hd : (txt.drop (lexLen txt)).dropWhile isspace = []
  · exact Or.inl (hp.1 hd)
  · refine Or.inr ⟨hp.2 hd, ?_⟩
    have h1 := dropWhile_length_le isspace (txt.drop (lexLen txt))
    have h2 := lexLen_le txt
    simp only [List.length_drop] at h1
    omega

theorem live_of_at {tk : Token} {txt : List Char} (h : At tk txt) : Live tk := Or.inr ⟨txt, h⟩

theorem live_next {tk : Token} (h : Live tk) : Live tk.nextToken := by
  by_cases hf : tk.finish = true
  · rw [nextToken_finished tk hf]; exact h
  · rcases h with hfin | ⟨txt, hat⟩
    · exact absurd hfin hf
    · rcases hat.at_next_cases with h1 | ⟨h1, _⟩
      · exact Or.inl h1
      · exact live_of_at h1

theorem left_finished {tk : Token} (h : tk.finish = true) : tk.left = 0 := by
  simp [Token.left, h]

theorem left_next_lt {tk : Token} (h : Live tk) (hf : tk.finish = false) :
    tk.nextToken.left < tk.left := by
  rcases h with hfin | ⟨txt, hat⟩
  · rw [hf] at hfin; cases hfin
  · have hl := hat.at_lexLen_pos
    rw [hat.at_left]
    rcases hat.at_next_cases with h1 | ⟨h1, h2⟩
    · rw [left_finished h1]; exact hat.at_length_pos
    · rw [h1.at_left]; omega

theorem left_next_le {tk : Token} (h : Live tk) : tk.nextToken.left ≤ tk.left := by
  by_cases hf : tk.finish = true
  · rw [nextToken_finished tk hf]
  · exact le_of_lt (left_next_lt h (by simpa using hf))

theorem live_iterate {tk : Token} (h : Live tk) (n : Nat) :
    Live (Nat.iterate Token.nextToken n tk) ∧ (Nat.iterate Token.nextToken n tk).left ≤ tk.left := by
  induction n with
  | zero => exact ⟨h, le_refl _⟩
  | succ k ih =>
    rw [Function.iterate_succ_apply']
    exact ⟨live_next ih.1, le_trans (left_next_le ih.1) ih.2⟩

theorem left_iterate_lt {tk : Token} (h : Live tk) (hf : tk.finish = false) (n : Nat)
    (hn : 0 < n) : (Nat.iterate Token.nextToken n tk).left < tk.left := by
  obtain ⟨k, rfl⟩ : ∃ k, n = k + 1 := ⟨n - 1, by omega⟩
  rw [Function.iterate_succ_apply]
  exact lt_of_le_of_lt (live_iterate (live_next h) k).2 (left_next_lt h hf)

theorem left_pos {tk : Token} (h : Live tk) (hf : tk.finish = false) : 0 < tk.left := by
  have := left_next_lt h hf
  omega

theorem live_init (s : List Char) :
    Live (Token.init s).nextToken ∧ (Token.init s).nextToken.left ≤ s.length := by
  have hp := init_pos s
  by_cases hd : s.dropWhile isspace = []
  · exact ⟨Or.inl (hp.1 hd), by rw [left_finished (hp.1 hd)]; omega⟩
  · have hat := hp.2 hd
    exact ⟨live_of_at hat, by rw [hat.at_left]; exact dropWhile_length_le _ _⟩

theorem iterate_finished {tk : Token} (h : tk.finish = true) (n : Nat) :
    Nat.iterate Token.nextToken n tk = tk := by
  induction n with
  | zero => rfl
  | succ k ih => rw [Function.iterate_succ_apply, nextToken_finished tk h, ih]


/-! ## Claim C21: the shape of a number token -/

theorem floatMark_toNat (c : Char) (h : FloatMark c) :
    c.toNat = 46 ∨ c.toNat = 101 ∨ c.toNat = 69 := by
  rcases h with rfl | rfl | rfl
  · left; decide
  · right; left; decide
  · right; right; decide

theorem step_pastMark (st st1 : NumberStatus) (c : Char) (h : st.step c = some st1) :
    pastMark st1 = true ↔ (pastMark st = true ∨ FloatMark c) := by
  have h0 : ('0' : Char).toNat = 48 := by decide
  have h1 : ('1' : Char).toNat = 49 := by decide
  have h9 : ('9' : Char).toNat = 57 := by decide
  have hminus : ¬ FloatMark '-' := by unfold FloatMark; decide
  have hplus : ¬ FloatMark '+' := by unfold FloatMark; decide
  have hzero : ¬ FloatMark '0' := by unfold FloatMark; decide
  have hdig : 48 ≤ c.toNat → c.toNat ≤ 57 → ¬ FloatMark c := by
    intro hlo hhi hm
    rcases floatMark_toNat c hm with e | e | e <;> omega
  cases st <;> simp only [NumberStatus.step, h0, h1, h9] at h <;> split_ifs at h <;>
    (try cases h) <;> simp only [pastMark]
  all_goals first
    | (simp; done)
    | (have hn : ¬ FloatMark c := by
        first
        | (rename_i hc; rw [hc]; unfold FloatMark; decide)
        | (rename_i hd; obtain ⟨ha, hb⟩ := hd; exact hdig (by omega) (by omega))
       simp [hn])
    | (have hy : FloatMark c := by
        first
        | (rename_i hc; rw [hc]; unfold FloatMark; decide)
        | (rename_i hc; unfold FloatMark; tauto)
       simp [hy])

theorem runNumber_shape : ∀ (l : List Char) (st : NumberStatus), runNumber st l ≠ 0 →
    (runNumber st l = 1 ∨ runNumber st l = 2) ∧
    (runNumber st l = 1 ↔ (pastMark st = true ∨ ∃ c ∈ l, FloatMark c)) := by
  intro l
  induction l with
  | nil =>
    intro st h
    cases st <;> simp [runNumber, NumberStatus.result, pastMark] at h ⊢
  | cons c cs ih =>
    intro st h
    simp only [runNumber] at h ⊢
    cases hs : st.step c with
    | none => rw [hs] at h; exact absurd rfl h
    | some st1 =>
      rw [hs] at h
      simp only at h ⊢
      obtain ⟨h12, hiff⟩ := ih st1 h
      refine ⟨h12, ?_⟩
      rw [hiff, step_pastMark st st1 c hs]
      simp only [List.mem_cons, exists_eq_or_imp]
      tauto

theorem chars_length (tk : Token) : tk.chars.length = tk.size := by
  simp [Token.chars]

theorem chars_strAt (tk : Token) (j : Nat) (hj : j < tk.size) :
    strAt tk.chars j = tk.atIdx j := by
  simp [Token.chars, strAt, List.getD_eq_getElem?_getD, List.getElem?_map,
    List.getElem?_range hj]

theorem matchNumber_chars (tk : Token) : matchNumber tk = runNumber .START tk.chars := by
  unfold matchNumber
  rw [matchNumberLoop_eq tk tk.chars (chars_length tk).symm
    (fun j hj => (chars_strAt tk j (by rw [chars_length] at hj; exact hj)).symm)
    _ 0 _ (by rw [chars_length]; omega)]
  simp

theorem mem_chars (tk : Token) (c : Char) : c ∈ tk.chars ↔ ∃ j, j < tk.size ∧ tk.atIdx j = c := by
  simp [Token.chars]

theorem mem_tokenStr (tk : Token) (c : Char) :
    c ∈ tk.tokenStr ↔ ∃ j, j < tk.size ∧ tk.first + j < tk.s.length ∧ tk.atIdx j = c := by
  unfold Token.tokenStr Token.atIdx Token.size
  rw [List.mem_iff_getElem]
  constructor
  · rintro ⟨j, hj, rfl⟩
    simp only [List.length_take, List.length_drop] at hj
    refine ⟨j, by omega, by omega, ?_⟩
    simp [strAt, List.getD_eq_getElem?_getD, List.getElem?_eq_getElem (show tk.first + j < tk.s.length by omega)]
  · rintro ⟨j, hj, hlt, rfl⟩
    refine ⟨j, by simp only [List.length_take, List.length_drop]; omega, ?_⟩
    simp [strAt, List.getD_eq_getElem?_getD, List.getElem?_eq_getElem hlt]

theorem floatMark_ne_nul (c : Char) (h : FloatMark c) : c ≠ cNul := by
  rcases h with rfl | rfl | rfl <;> decide

theorem mark_tokenStr_iff (tk : Token) :
    (∃ c ∈ tk.tokenStr, FloatMark c) ↔ ∃ c ∈ tk.chars, FloatMark c := by
  constructor
  · rintro ⟨c, hc, hm⟩
    obtain ⟨j, hj, _, hat⟩ := (mem_tokenStr tk c).1 hc
    exact ⟨c, (mem_chars tk c).2 ⟨j, hj, hat⟩, hm⟩
  · rintro ⟨c, hc, hm⟩
    obtain ⟨j, hj, hat⟩ := (mem_chars tk c).1 hc
    refine ⟨c, (mem_tokenStr tk c).2 ⟨j, hj, ?_, hat⟩, hm⟩
    by_contra hge
    have : tk.atIdx j = cNul := strAt_length_le _ _ (by omega)
    exact floatMark_ne_nul c hm (by rw [← hat, this])

theorem runNumber_start_head (l : List Char) (h : runNumber .START l ≠ 0) :
    strAt l 0 = '-' ∨ isDigit (strAt l 0) = true := by
  cases l with
  | nil => simp [runNumber, NumberStatus.result] at h
  | cons c cs =>
    simp only [runNumber] at h
    rw [strAt_zero]
    by_cases h1 : c = '-'
    · exact Or.inl h1
    · right
      by_cases h2 : c = '0'
      · rw [h2]; decide
      · simp only [NumberStatus.step, h1, h2, if_false] at h
        have e1 : ('1' : Char).toNat = 49 := by decide
        have e0 : ('0' : Char).toNat = 48 := by decide
        have e9 : ('9' : Char).toNat = 57 := by decide
        by_cases h3 : 49 ≤ c.toNat ∧ c.toNat ≤ 57
        · simp only [isDigit, Bool.and_eq_true, decide_eq_true_eq, e0, e9]
          omega
        · rw [e1, e9, if_neg h3] at h
          exact absurd rfl h

/-- C21 (number shape).  For every token that `matchNumber` accepts, the result is 1
(float-shaped) exactly when the token text contains a point, an `e` or an `E`, and 2
(integer-shaped) exactly when it contains none; and an accepted token that contains one
is turned into a FloatNumber holding `strtod` of the whole token text by `parseInt`, by
`parseUInt` and by `parseValue`, whatever its magnitude. -/
theorem number_shape (tk : Token) (f : Nat) (e : Bool) (h : matchNumber tk ≠ 0) :
    (matchNumber tk = 1 ↔ ∃ c ∈ tk.tokenStr, c = '.' ∨ c = 'e' ∨ c = 'E') ∧
    (matchNumber tk = 2 ↔ ¬ ∃ c ∈ tk.tokenStr, c = '.' ∨ c = 'e' ∨ c = 'E') ∧
    ((∃ c ∈ tk.tokenStr, c = '.' ∨ c = 'e' ∨ c = 'E') →
      parseInt tk e = (some (.JFloatNumber (strtod tk.tokenStr)), tk.nextToken, e) ∧
      parseUInt tk e = (some (.JFloatNumber (strtod tk.tokenStr)), tk.nextToken, e) ∧
      parseValue (f + 1) tk false
        = some (some (.JFloatNumber (strtod tk.tokenStr)), tk.nextToken, false)) := by
  have hrun := matchNumber_chars tk
  have hne : runNumber .START tk.chars ≠ 0 := by rw [← hrun]; exact h
  obtain ⟨h12, hiff⟩ := runNumber_shape tk.chars .START hne
  have hmark : (∃ c ∈ tk.tokenStr, c = '.' ∨ c = 'e' ∨ c = 'E') ↔ matchNumber tk = 1 := by
    rw [hrun, hiff]
    have := mark_tokenStr_iff tk
    simp only [FloatMark] at this
    simp [pastMark, FloatMark, this]
  refine ⟨hmark.symm, ?_, ?_⟩
  · rw [hmark]
    rw [← hrun] at h12
    omega
  · intro hm
    have h1 := hmark.1 hm
    have hI : parseInt tk e = (some (.JFloatNumber (strtod tk.tokenStr)), tk.nextToken, e) := by
      simp [parseInt, h1]
    have hU : parseUInt tk e = (some (.JFloatNumber (strtod tk.tokenStr)), tk.nextToken, e) := by
      simp [parseUInt, h1]
    have hIf : parseInt tk false
        = (some (.JFloatNumber (strtod tk.tokenStr)), tk.nextToken, false) := by
      simp [parseInt, h1]
    have hUf : parseUInt tk false
        = (some (.JFloatNumber (strtod tk.tokenStr)), tk.nextToken, false) := by
      simp [parseUInt, h1]
    refine ⟨hI, hU, ?_⟩
    have hhead := runNumber_start_head tk.chars hne
    have hsz : 0 < tk.size := by
      by_contra h0
      have : tk.chars = [] := by
        apply List.eq_nil_of_length_eq_zero
        rw [chars_length]; omega
      rw [this] at hne
      simp [runNumber, NumberStatus.result] at hne
    rw [chars_strAt tk 0 hsz] at hhead
    rw [parseValue]
    rcases hhead with hminus | hdig
    · have e1 : ('-' : Char) ≠ Char.ofNat 123 := by decide
      have e2 : ('-' : Char) ≠ '[' := by decide
      have e3 : ('-' : Char) ≠ cQuote := by decide
      simp [hminus, e1, e2, e3, hIf]
    · obtain ⟨_, hst, hq, hm2⟩ := isDigit_not_delim _ hdig
      have e1 : tk.atIdx 0 ≠ Char.ofNat 123 := by
        intro hc; rw [hc] at hst; exact absurd hst (by decide)
      have e2 : tk.atIdx 0 ≠ '[' := by
        intro hc; rw [hc] at hst; exact absurd hst (by decide)
      simp [e1, e2, hq, hm2, hdig, hUf]

/-- C21 on the token `1e400`, far above the range of 64-bit integers and of `double`. -/
theorem number_shape_witness :
    matchNumber (Token.init "1e400".toList).nextToken = 1 ∧
    parseValue 1 (Token.init "1e400".toList).nextToken false
      = some (some (.JFloatNumber (strtod "1e400".toList)),
          (Token.init "1e400".toList).nextToken.nextToken, false) :=
  ⟨(number_shape (Token.init "1e400".toList).nextToken 0 false (by decide)).1.2
      ⟨'e', by decide, Or.inr (Or.inl rfl)⟩,
   ((number_shape (Token.init "1e400".toList).nextToken 0 false (by decide)).2.2
      ⟨'e', by decide, Or.inr (Or.inl rfl)⟩).2.2⟩


/-! ## Claim C23: the sticky error flag -/

theorem parseValue_flag_set (f : Nat) (tk : Token) :
    parseValue (f + 1) tk true = some (none, tk, true) := by
  rw [parseValue]; simp

theorem objectLoop_flag_set (pv : Token → Bool → Step Handle) (fuel : Nat) (st : ObjectType)
    (res : Members) (key : Option (List Char)) (value : Handle) (tk : Token) :
    parseObjectLoop pv (fuel + 1) st res key value tk true = some (res, tk, true) := by
  cases st <;> simp [parseObjectLoop]

theorem arrayLoop_flag_set (pv : Token → Bool → Step Handle) (fuel : Nat) (st : ArrayType)
    (res : List Handle) (tk : Token) :
    parseArrayLoop pv (fuel + 1) st res tk true = some (res, tk, true) := by
  cases st <;> simp [parseArrayLoop]

theorem parseInt_flag (tk : Token) (e : Bool) (he : e = true) : (parseInt tk e).2.2 = true := by
  unfold parseInt
  simp only
  split_ifs <;> simp [he]

theorem parseUInt_flag (tk : Token) (e : Bool) (he : e = true) : (parseUInt tk e).2.2 = true := by
  unfold parseUInt
  simp only
  split_ifs <;> simp [he]

theorem parseBool_flag (tk : Token) (e : Bool) (he : e = true) : (parseBool tk e).2.2 = true := by
  unfold parseBool
  split_ifs <;> simp [he]

theorem parseNull_flag (tk : Token) (e : Bool) (he : e = true) : (parseNull tk e).2.2 = true := by
  unfold parseNull
  split_ifs <;> simp [he]

theorem parseString_flag_set (tk : Token) : parseString tk true = (none, tk, true) := by
  simp [parseString]

theorem parseObject_flag (pv : Token → Bool → Step Handle) (fuel : Nat) (tk : Token)
    (r : Option Members × Token × Bool) (h : parseObject pv fuel tk true = some r) :
    r.2.2 = true := by
  unfold parseObject at h
  simp only at h
  split_ifs at h with hm
  · cases h; rfl
  · cases fuel with
    | zero => simp [parseObjectLoop] at h
    | succ k =>
      rw [objectLoop_flag_set] at h
      cases h; rfl

theorem parseArray_flag (pv : Token → Bool → Step Handle) (fuel : Nat) (tk : Token)
    (r : Option (List Handle) × Token × Bool) (h : parseArray pv fuel tk true = some r) :
    r.2.2 = true := by
  unfold parseArray at h
  simp only at h
  split_ifs at h with hm
  · cases h; rfl
  · cases fuel with
    | zero => simp [parseArrayLoop] at h
    | succ k =>
      rw [arrayLoop_flag_set] at h
      cases h; rfl

/-- C23 (sticky error flag).  No parse step clears the flag: started with the flag set,
`parseString`, `parseInt`, `parseUInt`, `parseBool`, `parseNull`, `parseObject` and
`parseArray` return with the flag set, `matchChar` has no access to it, and the loops of
`parseObject` and `parseArray` stop at once, with their result and token as they are; so
once a step of a run has set the flag, every later step of that run leaves it set.
`parseValue` invoked while the flag is set returns an empty handle, leaves the token where
it is and the flag set. -/
theorem sticky_error (pv : Token → Bool → Step Handle) (f : Nat) (tk : Token) :
    parseValue (f + 1) tk true = some (none, tk, true) ∧
    parseString tk true = (none, tk, true) ∧
    (parseInt tk true).2.2 = true ∧ (parseUInt tk true).2.2 = true ∧
    (parseBool tk true).2.2 = true ∧ (parseNull tk true).2.2 = true ∧
    (∀ r, parseObject pv f tk true = some r → r.2.2 = true) ∧
    (∀ r, parseArray pv f tk true = some r → r.2.2 = true) ∧
    (∀ st res key value,
      parseObjectLoop pv (f + 1) st res key value tk true = some (res, tk, true)) ∧
    (∀ st res, parseArrayLoop pv (f + 1) st res tk true = some (res, tk, true)) ∧
    (∀ r, parseValue f tk true = some r → r = (none, tk, true)) :=
  ⟨parseValue_flag_set f tk, parseString_flag_set tk, parseInt_flag tk true rfl,
    parseUInt_flag tk true rfl, parseBool_flag tk true rfl, parseNull_flag tk true rfl,
    parseObject_flag pv f tk, parseArray_flag pv f tk,
    fun st res key value => objectLoop_flag_set pv f st res key value tk,
    fun st res => arrayLoop_flag_set pv f st res tk,
    fun r h => by
      cases f with
      | zero => simp [parseValue] at h
      | succ k => rw [parseValue_flag_set] at h; cases h; rfl⟩


/-! ## Claim C24: what every parse step keeps -/

theorem advances_stay (tk : Token) (e : Bool) : Advances tk e tk true :=
  ⟨fun _ => rfl, 0, rfl, fun h => by cases h⟩

theorem advances_next (tk : Token) (e : Bool) : Advances tk e tk.nextToken e :=
  ⟨fun h => h, 1, rfl, fun _ _ => Nat.one_pos⟩

theorem moves_refl (tk : Token) (e : Bool) : Moves tk e tk e := ⟨fun h => h, 0, rfl⟩

theorem advances_moves {a b : Token} {e0 e1 : Bool} (h : Advances a e0 b e1) :
    Moves a e0 b e1 := by
  obtain ⟨hs, n, hn, _⟩ := h
  exact ⟨hs, n, hn⟩

theorem moves_trans {a b c : Token} {e0 e1 e2 : Bool} (h1 : Moves a e0 b e1)
    (h2 : Moves b e1 c e2) : Moves a e0 c e2 := by
  obtain ⟨hs1, n1, hn1⟩ := h1
  obtain ⟨hs2, n2, hn2⟩ := h2
  exact ⟨fun h => hs2 (hs1 h), n2 + n1, by rw [hn2, hn1, Function.iterate_add_apply]⟩

theorem advances_then_moves {a b c : Token} {e0 e1 e2 : Bool} (h1 : Advances a e0 b e1)
    (h2 : Moves b e1 c e2) : Advances a e0 c e2 := by
  obtain ⟨hs1, n1, hn1, hp1⟩ := h1
  obtain ⟨hs2, n2, hn2⟩ := h2
  refine ⟨fun h => hs2 (hs1 h), n2 + n1, by rw [hn2, hn1, Function.iterate_add_apply], ?_⟩
  intro he2 ha
  have he1 : e1 = false := by
    cases e1 with
    | false => rfl
    | true => rw [hs2 rfl] at he2; cases he2
  have := hp1 he1 ha
  omega

theorem moves_then_advances {a b c : Token} {e0 e1 e2 : Bool} (h1 : Moves a e0 b e1)
    (h2 : Advances b e1 c e2) : Advances a e0 c e2 := by
  obtain ⟨hs1, n1, hn1⟩ := h1
  obtain ⟨hs2, n2, hn2, hp2⟩ := h2
  refine ⟨fun h => hs2 (hs1 h), n2 + n1, by rw [hn2, hn1, Function.iterate_add_apply], ?_⟩
  intro he2 ha
  by_cases h0 : n1 = 0
  · subst h0
    have hb : b = a := hn1
    have := hp2 he2 (by rw [hb]; exact ha)
    omega
  · omega

theorem matchChar_cases (tk : Token) (c : Char) :
    (matchChar tk c = (true, tk.nextToken) ∧ tk.size = 1 ∧ tk.atIdx 0 = c) ∨
      matchChar tk c = (false, tk) := by
  unfold matchChar
  by_cases h : tk.size = 1 ∧ tk.atIdx 0 = c
  · left; simp [h]
  · right; simp only [h, decide_False]; rfl

theorem parseString_cases (tk : Token) (e : Bool) :
    parseString tk e = (none, tk, true) ∨ ∃ s, parseString tk e = (some s, tk.nextToken, e) := by
  unfold parseString
  simp only
  split_ifs
  · exact Or.inl rfl
  · cases parseStringLoop tk tk.size tk.size 1 [] with
    | none => exact Or.inl rfl
    | some s => exact Or.inr ⟨s, rfl⟩

theorem parseInt_cases (tk : Token) (e : Bool) :
    parseInt tk e = (none, tk, true) ∨
      ∃ v, parseInt tk e = (some v, tk.nextToken, e) ∧ v.Full := by
  unfold parseInt
  simp only
  split_ifs
  · exact Or.inl rfl
  · exact Or.inr ⟨_, rfl, by simp [JValue.Full]⟩
  · exact Or.inr ⟨_, rfl, by simp [JValue.Full]⟩

theorem parseUInt_cases (tk : Token) (e : Bool) :
    parseUInt tk e = (none, tk, true) ∨
      ∃ v, parseUInt tk e = (some v, tk.nextToken, e) ∧ v.Full := by
  unfold parseUInt
  simp only
  split_ifs
  · exact Or.inl rfl
  · exact Or.inr ⟨_, rfl, by simp [JValue.Full]⟩
  · exact Or.inr ⟨_, rfl, by simp [JValue.Full]⟩

theorem parseBool_cases (tk : Token) (e : Bool) :
    parseBool tk e = (none, tk, true) ∨
      ∃ v, parseBool tk e = (some v, tk.nextToken, e) ∧ v.Full := by
  unfold parseBool
  split_ifs
  · exact Or.inr ⟨_, rfl, by simp [JValue.Full]⟩
  · exact Or.inr ⟨_, rfl, by simp [JValue.Full]⟩
  · exact Or.inl rfl

theorem parseNull_cases (tk : Token) (e : Bool) :
    parseNull tk e = (none, tk, true) ∨
      ∃ v, parseNull tk e = (some v, tk.nextToken, e) ∧ v.Full := by
  unfold parseNull
  split_ifs
  · exact Or.inr ⟨_, rfl, by simp [JValue.Full]⟩
  · exact Or.inl rfl

theorem elemsFull_append_one (res : List Handle) (h : Handle) (hr : elemsFull res)
    (hh : Handle.Full h) : elemsFull (res ++ [h]) := by
  obtain ⟨v, rfl, hv⟩ := hh
  induction res with
  | nil => simp [elemsFull, hv]
  | cons a res ih =>
    cases a with
    | none => simp [elemsFull] at hr
    | some w =>
      simp only [elemsFull, List.cons_append] at hr ⊢
      exact ⟨hr.1, ih hr.2⟩

theorem membersFull_append_one (res : Members) (k : List Char) (h : Handle)
    (hr : membersFull res) (hh : Handle.Full h) : membersFull (res ++ [(k, h)]) := by
  obtain ⟨v, rfl, hv⟩ := hh
  induction res with
  | nil => simp [membersFull, hv]
  | cons a res ih =>
    obtain ⟨ka, va⟩ := a
    cases va with
    | none => simp [membersFull] at hr
    | some w =>
      simp only [membersFull, List.cons_append] at hr ⊢
      exact ⟨hr.1, ih hr.2⟩

theorem membersFull_set (res : Members) (k : List Char) (h : Handle)
    (hr : membersFull res) (hh : Handle.Full h) : membersFull (Object.set res k h).2 := by
  unfold Object.set
  split_ifs
  · exact hr
  · exact membersFull_append_one res k h hr hh

theorem matchChar_moves (tk : Token) (c : Char) (e : Bool) :
    Moves tk e (matchChar tk c).2 e := by
  rcases matchChar_cases tk c with ⟨h1, _⟩ | h1 <;> rw [h1]
  · exact advances_moves (advances_next tk e)
  · exact moves_refl tk e

theorem arrayRound_ok (pv : Token → Bool → Step Handle) (hpv : StepOk pv) (st : ArrayType)
    (res : List Handle) (tk : Token) (e : Bool) (st1 : ArrayType) (res1 : List Handle)
    (tk1 : Token) (e1 : Bool)
    (h : arrayRound pv st res tk e = some ((st1, res1), tk1, e1)) (hst : st ≠ .END) :
    Advances tk e tk1 e1 ∧ (e1 = false → elemsFull res → elemsFull res1) := by
  have hwait : ∀ t0, Moves tk e t0 e →
      arrayWaitValue pv res t0 e = some ((st1, res1), tk1, e1) →
      Advances tk e tk1 e1 ∧ (e1 = false → elemsFull res → elemsFull res1) := by
    intro t0 hm hw
    unfold arrayWaitValue at hw
    cases hp : pv t0 e with
    | none => rw [hp] at hw; cases hw
    | some r =>
      obtain ⟨v, t1, e1a⟩ := r
      rw [hp] at hw
      simp only [Option.some.injEq, Prod.mk.injEq] at hw
      obtain ⟨⟨_, rfl⟩, rfl, rfl⟩ := hw
      obtain ⟨hadv, hfull⟩ := hpv _ _ _ _ _ hp
      exact ⟨moves_then_advances hm hadv,
        fun he hr => elemsFull_append_one res v hr (hfull he)⟩
  cases st with
  | WAIT_VALUE_OR_END => exact hwait _ (matchChar_moves tk ']' e) h
  | WAIT_VALUE => exact hwait _ (moves_refl tk e) h
  | WAIT_COMMA_OR_END =>
    rcases matchChar_cases tk ',' with ⟨h1, _⟩ | h1
    · simp only [arrayRound, h1, if_true, Option.some.injEq, Prod.mk.injEq, true_or] at h
      obtain ⟨⟨_, rfl⟩, rfl, rfl⟩ := h
      exact ⟨advances_next tk e, fun _ hr => hr⟩
    · rcases matchChar_cases tk ']' with ⟨h2, _⟩ | h2
      · simp [arrayRound, h1, h2] at h
        obtain ⟨⟨_, rfl⟩, rfl, rfl⟩ := h
        exact ⟨advances_next tk e, fun _ hr => hr⟩
      · simp [arrayRound, h1, h2] at h
        obtain ⟨⟨_, rfl⟩, rfl, rfl⟩ := h
        exact ⟨advances_stay tk e, fun _ hr => hr⟩
  | END => exact absurd rfl hst

theorem arrayLoop_ok (pv : Token → Bool → Step Handle) (hpv : StepOk pv) :
    ∀ (fuel : Nat) (st : ArrayType) (res : List Handle) (tk : Token) (e : Bool)
      (res1 : List Handle) (tk1 : Token) (e1 : Bool),
      parseArrayLoop pv fuel st res tk e = some (res1, tk1, e1) →
      Moves tk e tk1 e1 ∧ (e1 = false → elemsFull res → elemsFull res1) := by
  intro fuel
  induction fuel with
  | zero => intro st res tk e res1 tk1 e1 h; simp [parseArrayLoop] at h
  | succ k ih =>
    intro st res tk e res1 tk1 e1 h
    rw [parseArrayLoop_round] at h
    by_cases hx : tk.isEnd = true ∨ e = true ∨ st = .END
    · rw [if_pos hx] at h
      simp only [Option.some.injEq, Prod.mk.injEq] at h
      obtain ⟨rfl, rfl, rfl⟩ := h
      exact ⟨moves_refl _ _, fun _ hr => hr⟩
    · rw [if_neg hx] at h
      cases hr : arrayRound pv st res tk e with
      | none => rw [hr] at h; cases h
      | some x =>
        obtain ⟨⟨st2, res2⟩, tk2, e2⟩ := x
        rw [hr] at h
        simp only at h
        obtain ⟨hadv, hfull⟩ := arrayRound_ok pv hpv st res tk e st2 res2 tk2 e2 hr
          (fun hc => hx (Or.inr (Or.inr hc)))
        obtain ⟨hmv, hfull2⟩ := ih st2 res2 tk2 e2 res1 tk1 e1 h
        refine ⟨moves_trans (advances_moves hadv) hmv, fun he hres => ?_⟩
        have he2 : e2 = false := by
          cases e2 with
          | false => rfl
          | true => rw [hmv.1 rfl] at he; cases he
        exact hfull2 he (hfull he2 hres)

theorem parseArray_ok (pv : Token → Bool → Step Handle) (hpv : StepOk pv) (fuel : Nat)
    (tk : Token) (e : Bool) (r : Option (List Handle)) (tk1 : Token) (e1 : Bool)
    (h : parseArray pv fuel tk e = some (r, tk1, e1)) :
    Advances tk e tk1 e1 ∧ (e1 = false → ∃ l, r = some l ∧ elemsFull l) := by
  unfold parseArray at h
  simp only at h
  rcases matchChar_cases tk '[' with ⟨h1, _⟩ | h1
  · rw [h1] at h
    simp only [Bool.true_eq_false, if_false] at h
    cases hl : parseArrayLoop pv fuel .WAIT_VALUE_OR_END [] tk.nextToken e with
    | none => rw [hl] at h; cases h
    | some x =>
      obtain ⟨res, t2, e2⟩ := x
      rw [hl] at h
      simp only [Option.some.injEq, Prod.mk.injEq] at h
      obtain ⟨rfl, rfl, rfl⟩ := h
      obtain ⟨hmv, hfull⟩ := arrayLoop_ok pv hpv fuel _ _ _ _ _ _ _ hl
      exact ⟨advances_then_moves (advances_next tk e) hmv,
        fun he => ⟨res, rfl, hfull he (by simp [elemsFull])⟩⟩
  · rw [h1] at h
    simp only [if_true, Option.some.injEq, Prod.mk.injEq] at h
    obtain ⟨rfl, rfl, rfl⟩ := h
    exact ⟨advances_stay tk e, fun he => by cases he⟩

theorem objectWaitKey_ok (t0 tk : Token) (e : Bool)
    (hm : Moves tk e t0 e) :
    Advances tk e (objectWaitKey t0 e).2.2.1 (objectWaitKey t0 e).2.2.2 ∧
      (objectWaitKey t0 e).1 = .WAIT_COLON ∧
      ((objectWaitKey t0 e).2.2.2 = false → (objectWaitKey t0 e).2.1 ≠ none) := by
  unfold objectWaitKey
  rcases parseString_cases t0 e with h1 | ⟨s, h1⟩ <;> rw [h1]
  · exact ⟨moves_then_advances hm (advances_stay t0 e), rfl, fun h => by cases h⟩
  · exact ⟨moves_then_advances hm (advances_next t0 e), rfl, fun _ => by simp⟩

theorem objectRound_ok (pv : Token → Bool → Step Handle) (hpv : StepOk pv) (st : ObjectType)
    (res : Members) (key : Option (List Char)) (value : Handle) (tk : Token) (e : Bool)
    (st1 : ObjectType) (res1 : Members) (key1 : Option (List Char)) (value1 : Handle)
    (tk1 : Token) (e1 : Bool)
    (h : objectRound pv st res key value tk e = some ((st1, res1, key1, value1), tk1, e1))
    (hst : st ≠ .END) (he : e = false) (hinv : ObjectInv st key value e) :
    Advances tk e tk1 e1 ∧ (e1 = false → membersFull res → membersFull res1) ∧
      ObjectInv st1 key1 value1 e1 := by
  obtain ⟨hkey, hval⟩ := hinv he
  cases st with
  | WAIT_KEY_OR_END =>
    rcases matchChar_cases tk (Char.ofNat 125) with ⟨h1, _⟩ | h1
    · simp only [objectRound, h1, if_true, Option.some.injEq, Prod.mk.injEq] at h
      obtain ⟨⟨rfl, rfl, rfl, rfl⟩, rfl, rfl⟩ := h
      exact ⟨advances_next tk e, fun _ hr => hr, fun _ => ⟨by simp, by simp⟩⟩
    · simp only [objectRound, h1, Bool.false_eq_true, if_false, Option.some.injEq,
        Prod.mk.injEq] at h
      obtain ⟨⟨rfl, rfl, rfl, rfl⟩, rfl, rfl⟩ := h
      obtain ⟨hadv, hs, hk⟩ := objectWaitKey_ok tk tk e (moves_refl tk e)
      exact ⟨hadv, fun _ hr => hr, fun he1 => ⟨fun _ => hk he1, by rw [hs]; simp⟩⟩
  | WAIT_KEY =>
    simp only [objectRound, Option.some.injEq, Prod.mk.injEq] at h
    obtain ⟨⟨rfl, rfl, rfl, rfl⟩, rfl, rfl⟩ := h
    obtain ⟨hadv, hs, hk⟩ := objectWaitKey_ok tk tk e (moves_refl tk e)
    exact ⟨hadv, fun _ hr => hr, fun he1 => ⟨fun _ => hk he1, by rw [hs]; simp⟩⟩
  | WAIT_COLON =>
    rcases matchChar_cases tk ':' with ⟨h1, _⟩ | h1
    · simp only [objectRound, h1, if_true, Option.some.injEq, Prod.mk.injEq] at h
      obtain ⟨⟨rfl, rfl, rfl, rfl⟩, rfl, rfl⟩ := h
      exact ⟨advances_next tk e, fun _ hr => hr,
        fun _ => ⟨fun _ => hkey (Or.inl rfl), by simp⟩⟩
    · simp only [objectRound, h1, Bool.false_eq_true, if_false, Option.some.injEq,
        Prod.mk.injEq] at h
      obtain ⟨⟨rfl, rfl, rfl, rfl⟩, rfl, rfl⟩ := h
      exact ⟨advances_stay tk e, fun _ hr => hr, fun he1 => by cases he1⟩
  | WAIT_VALUE =>
    simp only [objectRound] at h
    cases hp : pv tk e with
    | none => rw [hp] at h; cases h
    | some r =>
      obtain ⟨v, t1, e1a⟩ := r
      rw [hp] at h
      simp only [Option.some.injEq, Prod.mk.injEq] at h
      obtain ⟨⟨rfl, rfl, rfl, rfl⟩, rfl, rfl⟩ := h
      obtain ⟨hadv, hfull⟩ := hpv _ _ _ _ _ hp
      exact ⟨hadv, fun _ hr => hr,
        fun he1 => ⟨fun _ => hkey (Or.inr (Or.inl rfl)), fun _ => hfull he1⟩⟩
  | WAIT_COMMA_OR_END =>
    cases key with
    | none => exact absurd rfl (hkey (Or.inr (Or.inr rfl)))
    | some k =>
      have hvf := hval rfl
      rcases matchChar_cases tk (Char.ofNat 125) with ⟨h1, _⟩ | h1
      · simp only [objectRound, h1, if_true, true_or, Option.some.injEq, Prod.mk.injEq] at h
        obtain ⟨⟨rfl, rfl, rfl, rfl⟩, rfl, rfl⟩ := h
        exact ⟨advances_next tk e, fun _ hr => membersFull_set res k value hr hvf,
          fun _ => ⟨fun _ => by simp, by simp⟩⟩
      · rcases matchChar_cases tk ',' with ⟨h2, _⟩ | h2
        · simp [objectRound, h1, h2] at h
          obtain ⟨⟨rfl, rfl, rfl, rfl⟩, rfl, rfl⟩ := h
          exact ⟨advances_next tk e, fun _ hr => membersFull_set res k value hr hvf,
            fun _ => ⟨fun _ => by simp, by simp⟩⟩
        · simp [objectRound, h1, h2] at h
          obtain ⟨⟨rfl, rfl, rfl, rfl⟩, rfl, rfl⟩ := h
          exact ⟨advances_stay tk e, fun he1 => Bool.noConfusion he1,
            fun he1 => Bool.noConfusion he1⟩
  | END => exact absurd rfl hst

theorem objectLoop_ok (pv : Token → Bool → Step Handle) (hpv : StepOk pv) :
    ∀ (fuel : Nat) (st : ObjectType) (res : Members) (key : Option (List Char))
      (value : Handle) (tk : Token) (e : Bool) (res1 : Members) (tk1 : Token) (e1 : Bool),
      ObjectInv st key value e →
      parseObjectLoop pv fuel st res key value tk e = some (res1, tk1, e1) →
      Moves tk e tk1 e1 ∧ (e1 = false → membersFull res → membersFull res1) := by
  intro fuel
  induction fuel with
  | zero => intro st res key value tk e res1 tk1 e1 _ h; simp [parseObjectLoop] at h
  | succ k ih =>
    intro st res key value tk e res1 tk1 e1 hinv h
    rw [parseObjectLoop_round] at h
    by_cases hx : tk.isEnd = true ∨ e = true ∨ st = .END
    · rw [if_pos hx] at h
      simp only [Option.some.injEq, Prod.mk.injEq] at h
      obtain ⟨rfl, rfl, rfl⟩ := h
      exact ⟨moves_refl _ _, fun _ hr => hr⟩
    · rw [if_neg hx] at h
      have he : e = false := by
        cases e with
        | false => rfl
        | true => exact absurd (Or.inr (Or.inl rfl)) hx
      cases hr : objectRound pv st res key value tk e with
      | none => rw [hr] at h; cases h
      | some x =>
        obtain ⟨⟨st2, res2, key2, value2⟩, tk2, e2⟩ := x
        rw [hr] at h
        simp only at h
        obtain ⟨hadv, hfull, hinv2⟩ := objectRound_ok pv hpv st res key value tk e
          st2 res2 key2 value2 tk2 e2 hr (fun hc => hx (Or.inr (Or.inr hc))) he hinv
        obtain ⟨hmv, hfull2⟩ := ih st2 res2 key2 value2 tk2 e2 res1 tk1 e1 hinv2 h
        refine ⟨moves_trans (advances_moves hadv) hmv, fun he1 hres => ?_⟩
        have he2 : e2 = false := by
          cases e2 with
          | false => rfl
          | true => rw [hmv.1 rfl] at he1; cases he1
        exact hfull2 he1 (hfull he2 hres)

theorem objectInv_start (key : Option (List Char)) (value : Handle) (e : Bool) :
    ObjectInv .WAIT_KEY_OR_END key value e :=
  fun _ => ⟨by simp, by simp⟩

theorem parseObject_ok (pv : Token → Bool → Step Handle) (hpv : StepOk pv) (fuel : Nat)
    (tk : Token) (e : Bool) (r : Option Members) (tk1 : Token) (e1 : Bool)
    (h : parseObject pv fuel tk e = some (r, tk1, e1)) :
    Advances tk e tk1 e1 ∧ (e1 = false → ∃ m, r = some m ∧ membersFull m) := by
  unfold parseObject at h
  simp only at h
  rcases matchChar_cases tk (Char.ofNat 123) with ⟨h1, _⟩ | h1
  · rw [h1] at h
    simp only [Bool.true_eq_false, if_false] at h
    cases hl : parseObjectLoop pv fuel .WAIT_KEY_OR_END [] none none tk.nextToken e with
    | none => rw [hl] at h; cases h
    | some x =>
      obtain ⟨res, t2, e2⟩ := x
      rw [hl] at h
      simp only [Option.some.injEq, Prod.mk.injEq] at h
      obtain ⟨rfl, rfl, rfl⟩ := h
      obtain ⟨hmv, hfull⟩ := objectLoop_ok pv hpv fuel _ _ _ _ _ _ _ _ _
        (objectInv_start none none e) hl
      exact ⟨advances_then_moves (advances_next tk e) hmv,
        fun he => ⟨res, rfl, hfull he (by simp [membersFull])⟩⟩
  · rw [h1] at h
    simp only [if_true, Option.some.injEq, Prod.mk.injEq] at h
    obtain ⟨rfl, rfl, rfl⟩ := h
    exact ⟨advances_stay tk e, fun he => by cases he⟩

theorem leaf_ok (tk : Token) (e : Bool) (r : Handle × Token × Bool)
    (hr : r = (none, tk, true) ∨ ∃ v, r = (some v, tk.nextToken, e) ∧ v.Full) :
    Advances tk e r.2.1 r.2.2 ∧ (r.2.2 = false → Handle.Full r.1) := by
  rcases hr with rfl | ⟨v, rfl, hv⟩
  · exact ⟨advances_stay tk e, fun h => Bool.noConfusion h⟩
  · exact ⟨advances_next tk e, fun _ => ⟨v, rfl, hv⟩⟩

theorem parseValue_ok : ∀ f : Nat, StepOk (parseValue f) := by
  intro f
  induction f with
  | zero => intro tk e h tk1 e1 hp; simp [parseValue] at hp
  | succ k ih =>
    intro tk e h tk1 e1 hp
    rw [parseValue] at hp
    by_cases he : e = true
    · rw [if_pos he] at hp
      simp only [Option.some.injEq, Prod.mk.injEq] at hp
      obtain ⟨rfl, rfl, rfl⟩ := hp
      subst he
      exact ⟨advances_stay tk true, fun h => Bool.noConfusion h⟩
    · rw [if_neg he] at hp
      simp only at hp
      split_ifs at hp with h1 h2 h3 h4 h5 h6 h7
      · cases ho : parseObject (parseValue k) k tk e with
        | none => rw [ho] at hp; cases hp
        | some x =>
          obtain ⟨r, t2, e2⟩ := x
          rw [ho] at hp
          simp only [Option.map_some', Option.some.injEq, Prod.mk.injEq] at hp
          obtain ⟨rfl, rfl, rfl⟩ := hp
          obtain ⟨hadv, hfull⟩ := parseObject_ok _ ih k tk e r _ _ ho
          refine ⟨hadv, fun he1 => ?_⟩
          obtain ⟨m, rfl, hm⟩ := hfull he1
          exact ⟨.JObject m, rfl, by simpa [JValue.Full] using hm⟩
      · cases ho : parseArray (parseValue k) k tk e with
        | none => rw [ho] at hp; cases hp
        | some x =>
          obtain ⟨r, t2, e2⟩ := x
          rw [ho] at hp
          simp only [Option.map_some', Option.some.injEq, Prod.mk.injEq] at hp
          obtain ⟨rfl, rfl, rfl⟩ := hp
          obtain ⟨hadv, hfull⟩ := parseArray_ok _ ih k tk e r _ _ ho
          refine ⟨hadv, fun he1 => ?_⟩
          obtain ⟨l, rfl, hl⟩ := hfull he1
          exact ⟨.JArray l, rfl, by simpa [JValue.Full] using hl⟩
      · rcases parseString_cases tk e with hs | ⟨s, hs⟩ <;> rw [hs] at hp <;>
          simp only [Option.map_none', Option.map_some', Option.some.injEq, Prod.mk.injEq] at hp <;>
          obtain ⟨rfl, rfl, rfl⟩ := hp
        · exact ⟨advances_stay tk e, fun h => Bool.noConfusion h⟩
        · exact ⟨advances_next tk e, fun _ => ⟨.JString s, rfl, by simp [JValue.Full]⟩⟩
      · simp only [Option.some.injEq] at hp
        have := leaf_ok tk e _ (parseInt_cases tk e)
        rw [hp] at this
        exact this
      · simp only [Option.some.injEq] at hp
        have := leaf_ok tk e _ (parseUInt_cases tk e)
        rw [hp] at this
        exact this
      · simp only [Option.some.injEq] at hp
        have := leaf_ok tk e _ (parseBool_cases tk e)
        rw [hp] at this
        exact this
      · simp only [Option.some.injEq] at hp
        have := leaf_ok tk e _ (parseNull_cases tk e)
        rw [hp] at this
        exact this
      · simp only [Option.some.injEq, Prod.mk.injEq] at hp
        obtain ⟨rfl, rfl, rfl⟩ := hp
        exact ⟨advances_stay tk e, fun h => Bool.noConfusion h⟩

mutual
theorem full_toString (g : Double → List Char) :
    ∀ v : JValue, v.Full → ∃ t, v.toString g = some t
  | .JObject m, h => by
    obtain ⟨t, ht⟩ := full_objectEntries g m (by simpa [JValue.Full] using h)
    simp [JValue.toString, ht]
  | .JArray l, h => by
    obtain ⟨t, ht⟩ := full_arrayEntries g l 0 (by simpa [JValue.Full] using h)
    simp [JValue.toString, ht]
  | .JString s, _ => ⟨_, rfl⟩
  | .JIntNumber i, _ => ⟨_, rfl⟩
  | .JUIntNumber n, _ => ⟨_, rfl⟩
  | .JFloatNumber d, _ => ⟨_, rfl⟩
  | .JBool b, _ => ⟨_, rfl⟩
  | .JNull, _ => ⟨_, rfl⟩
theorem full_objectEntries (g : Double → List Char) :
    ∀ m : Members, membersFull m → ∃ t, objectEntries g m = some t
  | [], _ => ⟨[], rfl⟩
  | (_, none) :: _, h => by simp [membersFull] at h
  | (k, some v) :: m, h => by
    obtain ⟨hv, hm⟩ : v.Full ∧ membersFull m := by simpa [membersFull] using h
    obtain ⟨t, ht⟩ := full_toString g v hv
    obtain ⟨r, hr⟩ := full_objectEntries g m hm
    simp [objectEntries, ht, hr]
theorem full_arrayEntries (g : Double → List Char) :
    ∀ (l : List Handle) (i : Nat), elemsFull l → ∃ t, arrayEntries g l i = some t
  | [], _, _ => ⟨[], rfl⟩
  | none :: _, _, h => by simp [elemsFull] at h
  | some v :: l, i, h => by
    obtain ⟨hv, hl⟩ : v.Full ∧ elemsFull l := by simpa [elemsFull] using h
    obtain ⟨t, ht⟩ := full_toString g v hv
    obtain ⟨r, hr⟩ := full_arrayEntries g l (i + 1) hl
    simp [arrayEntries, ht, hr]
end

theorem parse_result (s : List Char) (h : Handle) (e : Bool) (hp : parse s = some (h, e)) :
    ∃ tk1, parseValue (s.length + 2) (Token.init s).nextToken false = some (h, tk1, e) := by
  unfold parse at hp
  simp only at hp
  cases hv : parseValue (s.length + 2) (Token.init s).nextToken false with
  | none => rw [hv] at hp; cases hp
  | some x =>
    obtain ⟨h2, t2, e2⟩ := x
    rw [hv] at hp
    simp only [Option.map_some', Option.some.injEq, Prod.mk.injEq] at hp
    obtain ⟨rfl, rfl⟩ := hp
    exact ⟨t2, rfl⟩

mutual
theorem full_stored : ∀ v : JValue, v.Full → ∀ x ∈ v.stored, Handle.Full x
  | .JObject m, h => by
    simpa [JValue.stored] using full_storedMembers m (by simpa [JValue.Full] using h)
  | .JArray l, h => by
    simpa [JValue.stored] using full_storedElems l (by simpa [JValue.Full] using h)
  | .JString _, _ => by simp [JValue.stored]
  | .JIntNumber _, _ => by simp [JValue.stored]
  | .JUIntNumber _, _ => by simp [JValue.stored]
  | .JFloatNumber _, _ => by simp [JValue.stored]
  | .JBool _, _ => by simp [JValue.stored]
  | .JNull, _ => by simp [JValue.stored]
theorem full_storedMembers : ∀ m : Members, membersFull m → ∀ x ∈ storedMembers m, Handle.Full x
  | [], _ => by simp [storedMembers]
  | (_, none) :: _, h => by simp [membersFull] at h
  | (_, some v) :: m, h => by
    obtain ⟨hv, hm⟩ : v.Full ∧ membersFull m := by simpa [membersFull] using h
    intro x hx
    simp only [storedMembers, List.mem_cons, List.mem_append] at hx
    rcases hx with rfl | hx | hx
    · exact ⟨v, rfl, hv⟩
    · exact full_stored v hv x hx
    · exact full_storedMembers m hm x hx
theorem full_storedElems : ∀ l : List Handle, elemsFull l → ∀ x ∈ storedElems l, Handle.Full x
  | [], _ => by simp [storedElems]
  | none :: _, h => by simp [elemsFull] at h
  | some v :: l, h => by
    obtain ⟨hv, hl⟩ : v.Full ∧ elemsFull l := by simpa [elemsFull] using h
    intro x hx
    simp only [storedElems, List.mem_cons, List.mem_append] at hx
    rcases hx with rfl | hx | hx
    · exact ⟨v, rfl, hv⟩
    · exact full_stored v hv x hx
    · exact full_storedElems l hl x hx
end

theorem accessor_own (v : JValue) : accessor v.type (some v) = .ok (some v) := by
  rw [accessor_some]; simp

/-- C24 (a successful parse has no empty handles).  For every text `t`, if `parse t`
returns with the error flag clear, then the root handle is non-empty, every handle stored
in an Object or an Array reachable from the root is non-empty, and so at the root and at
every stored handle the narrowing accessor of the node's own kind succeeds and `toString`
is defined (it never meets an empty handle). -/
theorem parsed_tree_full (g : Double → List Char) (t : List Char) (h : Handle)
    (hp : parse t = some (h, false)) :
    ∃ v, h = some v ∧ v.Full ∧
      (∀ x ∈ v.stored, ∃ w, x = some w ∧ accessor w.type x = .ok x ∧
        ∃ txt, w.toString g = some txt) ∧
      accessor v.type h = .ok h ∧ ∃ txt, v.toString g = some txt := by
  obtain ⟨tk1, hv⟩ := parse_result t h false hp
  obtain ⟨_, hfull⟩ := parseValue_ok _ _ _ _ _ _ hv
  obtain ⟨v, rfl, hvf⟩ := hfull rfl
  refine ⟨v, rfl, hvf, ?_, accessor_own v, full_toString g v hvf⟩
  intro x hx
  obtain ⟨w, rfl, hw⟩ := full_stored v hvf x hx
  exact ⟨w, rfl, accessor_own w, full_toString g w hw⟩

/-- C24 on the text `[1,[2]]`. -/
theorem parsed_tree_full_witness :
    ∃ v, some (JValue.JArray [some (.JUIntNumber 1), some (.JArray [some (.JUIntNumber 2)])])
        = some v ∧ v.Full ∧
      (∀ x ∈ v.stored, ∃ w, x = some w ∧ accessor w.type x = .ok x ∧
        ∃ txt, w.toString (fun _ => []) = some txt) ∧
      accessor v.type
        (some (JValue.JArray [some (.JUIntNumber 1), some (.JArray [some (.JUIntNumber 2)])]))
        = .ok (some (JValue.JArray [some (.JUIntNumber 1), some (.JArray [some (.JUIntNumber 2)])]))
      ∧ ∃ txt, v.toString (fun _ => []) = some txt :=
  parsed_tree_full (fun _ => []) "[1,[2]]".toList _ rfl


/-! ## Every run of the parser returns -/

theorem isEnd_eq (tk : Token) : tk.isEnd = tk.finish := rfl

theorem live_unfinished_at {tk : Token} (h : Live tk) (hf : tk.finish = false) :
    ∃ txt, At tk txt := by
  rcases h with h1 | h1
  · rw [hf] at h1; cases h1
  · exact h1

theorem arrayRound_total (pv : Token → Bool → Step Handle) (st : ArrayType)
    (res : List Handle) (tk : Token) (e : Bool) (hl : Live tk)
    (hpv : ∀ t, Live t → t.left ≤ tk.left → ∃ r, pv t e = some r) :
    ∃ x, arrayRound pv st res tk e = some x := by
  have hwait : ∀ t, Live t → t.left ≤ tk.left → ∃ x, arrayWaitValue pv res t e = some x := by
    intro t ht hle
    obtain ⟨r, hr⟩ := hpv t ht hle
    obtain ⟨v, t1, e1⟩ := r
    exact ⟨((.WAIT_COMMA_OR_END, Array.set res v), t1, e1), by simp [arrayWaitValue, hr]⟩
  cases st with
  | WAIT_VALUE_OR_END =>
    rcases matchChar_cases tk ']' with ⟨h1, _⟩ | h1
    · simp only [arrayRound, h1]
      exact hwait _ (live_next hl) (left_next_le hl)
    · simp only [arrayRound, h1]
      exact hwait _ hl (le_refl _)
  | WAIT_VALUE => exact hwait _ hl (le_refl _)
  | WAIT_COMMA_OR_END => exact ⟨_, rfl⟩
  | END => exact ⟨_, rfl⟩

theorem objectRound_total (pv : Token → Bool → Step Handle) (st : ObjectType)
    (res : Members) (key : Option (List Char)) (value : Handle) (tk : Token) (e : Bool)
    (hl : Live tk) (he : e = false) (hinv : ObjectInv st key value e)
    (hpv : ∀ t, Live t → t.left ≤ tk.left → ∃ r, pv t e = some r) :
    ∃ x, objectRound pv st res key value tk e = some x := by
  cases st with
  | WAIT_KEY_OR_END =>
    simp only [objectRound]
    split_ifs <;> exact ⟨_, rfl⟩
  | WAIT_KEY => exact ⟨_, rfl⟩
  | WAIT_COLON => exact ⟨_, rfl⟩
  | WAIT_VALUE =>
    obtain ⟨r, hr⟩ := hpv tk hl (le_refl _)
    obtain ⟨v, t1, e1⟩ := r
    exact ⟨((.WAIT_COMMA_OR_END, res, key, v), t1, e1), by simp [objectRound, hr]⟩
  | WAIT_COMMA_OR_END =>
    cases key with
    | none => exact absurd rfl ((hinv he).1 (Or.inr (Or.inr rfl)))
    | some k => exact ⟨_, rfl⟩
  | END => exact ⟨_, rfl⟩

theorem advances_live {a b : Token} {e0 e1 : Bool} (h : Advances a e0 b e1) (hl : Live a) :
    Live b ∧ b.left ≤ a.left ∧ (e1 = false → a.finish = false → b.left < a.left) := by
  obtain ⟨_, n, hn, hp⟩ := h
  rw [hn]
  exact ⟨(live_iterate hl n).1, (live_iterate hl n).2,
    fun he hf => left_iterate_lt hl hf n (hp he hf)⟩

theorem arrayLoop_total (pv : Token → Bool → Step Handle) (hok : StepOk pv) :
    ∀ (fuel : Nat) (st : ArrayType) (res : List Handle) (tk : Token) (e : Bool),
      Live tk → tk.left + 1 ≤ fuel →
      (tk.finish = false → ∀ t e1, Live t → t.left ≤ tk.left → ∃ r, pv t e1 = some r) →
      ∃ r, parseArrayLoop pv fuel st res tk e = some r := by
  intro fuel
  induction fuel with
  | zero => intro st res tk e _ h; omega
  | succ k ih =>
    intro st res tk e hl hfuel hpv
    rw [parseArrayLoop_round]
    by_cases hx : tk.isEnd = true ∨ e = true ∨ st = .END
    · rw [if_pos hx]; exact ⟨_, rfl⟩
    · rw [if_neg hx]
      have hf : tk.finish = false := by
        cases hfin : tk.finish with
        | false => rfl
        | true => exact absurd (Or.inl hfin) hx
      obtain ⟨x, hr⟩ := arrayRound_total pv st res tk e hl (fun t ht hle => hpv hf t e ht hle)
      obtain ⟨⟨st2, res2⟩, tk2, e2⟩ := x
      rw [hr]
      simp only
      obtain ⟨hadv, _⟩ := arrayRound_ok pv hok st res tk e st2 res2 tk2 e2 hr
        (fun hc => hx (Or.inr (Or.inr hc)))
      obtain ⟨hl2, hle2, hlt2⟩ := advances_live hadv hl
      have hpos := left_pos hl hf
      cases e2 with
      | true =>
        obtain ⟨k1, rfl⟩ : ∃ k1, k = k1 + 1 := ⟨k - 1, by omega⟩
        rw [arrayLoop_flag_set]; exact ⟨_, rfl⟩
      | false =>
        have := hlt2 rfl hf
        exact ih st2 res2 tk2 false hl2 (by omega)
          (fun _ t e1 ht hle => hpv hf t e1 ht (by omega))

theorem objectLoop_total (pv : Token → Bool → Step Handle) (hok : StepOk pv) :
    ∀ (fuel : Nat) (st : ObjectType) (res : Members) (key : Option (List Char))
      (value : Handle) (tk : Token) (e : Bool),
      Live tk → tk.left + 1 ≤ fuel → ObjectInv st key value e →
      (tk.finish = false → ∀ t e1, Live t → t.left ≤ tk.left → ∃ r, pv t e1 = some r) →
      ∃ r, parseObjectLoop pv fuel st res key value tk e = some r := by
  intro fuel
  induction fuel with
  | zero => intro st res key value tk e _ h; omega
  | succ k ih =>
    intro st res key value tk e hl hfuel hinv hpv
    rw [parseObjectLoop_round]
    by_cases hx : tk.isEnd = true ∨ e = true ∨ st = .END
    · rw [if_pos hx]; exact ⟨_, rfl⟩
    · rw [if_neg hx]
      have hf : tk.finish = false := by
        cases hfin : tk.finish with
        | false => rfl
        | true => exact absurd (Or.inl hfin) hx
      have he : e = false := by
        cases e with
        | false => rfl
        | true => exact absurd (Or.inr (Or.inl rfl)) hx
      obtain ⟨x, hr⟩ := objectRound_total pv st res key value tk e hl he hinv
        (fun t ht hle => hpv hf t e ht hle)
      obtain ⟨⟨st2, res2, key2, value2⟩, tk2, e2⟩ := x
      rw [hr]
      simp only
      obtain ⟨hadv, _, hinv2⟩ := objectRound_ok pv hok st res key value tk e
        st2 res2 key2 value2 tk2 e2 hr (fun hc => hx (Or.inr (Or.inr hc))) he hinv
      obtain ⟨hl2, hle2, hlt2⟩ := advances_live hadv hl
      have hpos := left_pos hl hf
      cases e2 with
      | true =>
        obtain ⟨k1, rfl⟩ : ∃ k1, k = k1 + 1 := ⟨k - 1, by omega⟩
        rw [objectLoop_flag_set]; exact ⟨_, rfl⟩
      | false =>
        have := hlt2 rfl hf
        exact ih st2 res2 key2 value2 tk2 false hl2 (by omega) hinv2
          (fun _ t e1 ht hle => hpv hf t e1 ht (by omega))

theorem next_unfinished {tk : Token} (h : tk.nextToken.finish = false) : tk.finish = false := by
  cases hf : tk.finish with
  | false => rfl
  | true => rw [nextToken_finished tk hf, hf] at h; cases h

theorem parseArray_total (pv : Token → Bool → Step Handle) (hok : StepOk pv) (fuel : Nat)
    (tk : Token) (e : Bool) (hl : Live tk) (hfuel : tk.left + 1 ≤ fuel)
    (hpv : ∀ t e1, Live t → t.left + 1 ≤ tk.left → ∃ r, pv t e1 = some r) :
    ∃ r, parseArray pv fuel tk e = some r := by
  unfold parseArray
  simp only
  rcases matchChar_cases tk '[' with ⟨h1, _⟩ | h1
  · rw [h1]
    simp only [Bool.true_eq_false, if_false]
    obtain ⟨r, hr⟩ := arrayLoop_total pv hok fuel .WAIT_VALUE_OR_END [] tk.nextToken e
      (live_next hl) (by have := left_next_le hl; omega)
      (fun hf t e1 ht hle => hpv t e1 ht (by
        have := left_next_lt hl (next_unfinished hf); omega))
    rw [hr]; exact ⟨_, rfl⟩
  · rw [h1]; exact ⟨_, rfl⟩

theorem parseObject_total (pv : Token → Bool → Step Handle) (hok : StepOk pv) (fuel : Nat)
    (tk : Token) (e : Bool) (hl : Live tk) (hfuel : tk.left + 1 ≤ fuel)
    (hpv : ∀ t e1, Live t → t.left + 1 ≤ tk.left → ∃ r, pv t e1 = some r) :
    ∃ r, parseObject pv fuel tk e = some r := by
  unfold parseObject
  simp only
  rcases matchChar_cases tk (Char.ofNat 123) with ⟨h1, _⟩ | h1
  · rw [h1]
    simp only [Bool.true_eq_false, if_false]
    obtain ⟨r, hr⟩ := objectLoop_total pv hok fuel .WAIT_KEY_OR_END [] none none tk.nextToken e
      (live_next hl) (by have := left_next_le hl; omega) (objectInv_start none none e)
      (fun hf t e1 ht hle => hpv t e1 ht (by
        have := left_next_lt hl (next_unfinished hf); omega))
    rw [hr]; exact ⟨_, rfl⟩
  · rw [h1]; exact ⟨_, rfl⟩

theorem parseValue_total : ∀ (k : Nat) (tk : Token) (e : Bool), Live tk → tk.left + 2 ≤ k →
    ∃ r, parseValue k tk e = some r := by
  intro k
  induction k with
  | zero => intro tk e _ h; omega
  | succ j ih =>
    intro tk e hl hk
    rw [parseValue]
    by_cases he : e = true
    · rw [if_pos he]; exact ⟨_, rfl⟩
    · rw [if_neg he]
      simp only
      split_ifs
      · obtain ⟨r, hr⟩ := parseObject_total (parseValue j) (parseValue_ok j) j tk e hl
          (by omega) (fun t e1 ht hle => ih t e1 ht (by omega))
        rw [hr]; exact ⟨_, rfl⟩
      · obtain ⟨r, hr⟩ := parseArray_total (parseValue j) (parseValue_ok j) j tk e hl
          (by omega) (fun t e1 ht hle => ih t e1 ht (by omega))
        rw [hr]; exact ⟨_, rfl⟩
      all_goals exact ⟨_, rfl⟩

theorem parse_total (s : List Char) : ∃ r, parse s = some r := by
  obtain ⟨hl, hle⟩ := live_init s
  obtain ⟨r, hr⟩ := parseValue_total (s.length + 2) (Token.init s).nextToken false hl (by omega)
  exact ⟨(r.1, r.2.2), by simp [parse, hr]⟩

theorem takeWhile_space (l : List Char) : Blank (l.takeWhile isspace) := by
  intro c hc
  exact (List.mem_takeWhile_imp hc)

theorem nextToken_first (tk : Token) (hf : tk.finish = false) (hl : tk.last ≤ tk.s.length) :
    (tk.nextToken.finish = true ∧ (tk.s.drop tk.last).dropWhile isspace = []) ∨
      (At tk.nextToken ((tk.s.drop tk.last).dropWhile isspace) ∧
        tk.nextToken.first = tk.last + ((tk.s.drop tk.last).takeWhile isspace).length) := by
  have hp := nextToken_pos tk hf hl
  have happ := List.takeWhile_append_dropWhile isspace (tk.s.drop tk.last)
  have hlen := congrArg List.length happ
  simp only [List.length_append, List.length_drop] at hlen
  by_cases hd : (tk.s.drop tk.last).dropWhile isspace = []
  · exact Or.inl ⟨hp.1 hd, hd⟩
  · have hat := hp.2 hd
    refine Or.inr ⟨hat, ?_⟩
    have h1 := hat.at_length
    rw [nextToken_s] at h1
    have h2 := hat.at_length_pos
    omega

theorem gap_space (s : List Char) (p i : Nat) (hp : p ≤ i)
    (hi : i < p + ((s.drop p).takeWhile isspace).length) : isspace (strAt s i) = true := by
  have h1 : strAt s i = strAt (s.drop p) (i - p) := by
    rw [strAt_drop]; congr 1; omega
  have happ := List.takeWhile_append_dropWhile isspace (s.drop p)
  rw [h1, ← happ, strAt_append_left _ _ _ (by omega)]
  apply takeWhile_space (s.drop p)
  unfold strAt
  rw [List.getD_eq_getElem?_getD, List.getElem?_eq_getElem (by omega)]
  exact List.getElem_mem _

theorem nextToken_progress (tk : Token) (hf : tk.finish = false) (hl : tk.last ≤ tk.s.length) :
    tk.nextToken.finish = true ∨
      (tk.last ≤ tk.nextToken.first ∧ tk.nextToken.first < tk.nextToken.last ∧
        tk.nextToken.last ≤ tk.s.length) := by
  rcases nextToken_first tk hf hl with ⟨h1, _⟩ | ⟨hat, hfirst⟩
  · exact Or.inl h1
  · right
    have h2 := hat.at_last_le
    rw [nextToken_s] at h2
    have h3 := hat.at_lexLen_pos
    have h4 := hat.last
    exact ⟨by omega, by omega, h2⟩


/-! ## Claims C25 and C26: termination and the partition of the text into tokens -/

theorem tokenStates_succ (n : Nat) (tk : Token) :
    tokenStates (n + 1) tk
      = if tk.finish = true then [] else tk :: tokenStates n tk.nextToken := rfl

theorem tokenStates_finished (n : Nat) (tk : Token) (h : tk.finish = true) :
    tokenStates n tk = [] := by
  cases n with
  | zero => rfl
  | succ k => rw [tokenStates_succ, if_pos h]

theorem tokenStates_spec (s : List Char) : ∀ (n : Nat) (t0 : Token), t0.s = s →
    t0.finish = false → t0.last ≤ s.length → s.length - t0.last ≤ n →
    (∀ tk ∈ tokenStates n t0.nextToken, tk.s = s ∧ tk.finish = false ∧ t0.last ≤ tk.first ∧
      tk.first < tk.last ∧ tk.last ≤ s.length) ∧
    List.Pairwise (fun a b => a.last ≤ b.first) (tokenStates n t0.nextToken) ∧
    (∀ i, t0.last ≤ i → i < s.length →
      (∀ tk ∈ tokenStates n t0.nextToken, ¬ (tk.first ≤ i ∧ i < tk.last)) →
      isspace (strAt s i) = true) ∧
    (∃ gaps tail, gaps.length = (tokenStates n t0.nextToken).length ∧
      (∀ g ∈ gaps, Blank g) ∧ Blank tail ∧
      s.drop t0.last
        = interleave gaps ((tokenStates n t0.nextToken).map Token.tokenStr) ++ tail) ∧
    (Nat.iterate Token.nextToken ((tokenStates n t0.nextToken).length + 1) t0).finish = true ∧
    (∀ i, i < (tokenStates n t0.nextToken).length →
      (tokenStates n t0.nextToken)[i]? = some (Nat.iterate Token.nextToken (i + 1) t0)) := by
  intro n
  induction n with
  | zero =>
    intro t0 hs hf hl hn
    have hfin : t0.nextToken.finish = true := by
      rcases nextToken_first t0 hf (by rw [hs]; exact hl) with ⟨h1, _⟩ | ⟨hat, _⟩
      · exact h1
      · rw [hs] at hat
        have h1 := hat.at_length_pos
        have h2 := dropWhile_length_le isspace (s.drop t0.last)
        simp only [List.length_drop] at h2
        omega
    refine ⟨by simp [tokenStates], by simp [tokenStates], fun i h1 h2 _ => by omega,
      ⟨[], [], rfl, by simp, by intro c hc; simp at hc, ?_⟩, ?_, by simp [tokenStates]⟩
    · simp only [tokenStates, List.map_nil, interleave, List.append_nil]
      exact List.drop_eq_nil_of_le (by omega)
    · simpa [tokenStates] using hfin
  | succ k ih =>
    intro t0 hs hf hl hn
    have hl0 : t0.last ≤ t0.s.length := by rw [hs]; exact hl
    have happ := List.takeWhile_append_dropWhile isspace (s.drop t0.last)
    rcases nextToken_first t0 hf hl0 with ⟨hfin, hd⟩ | ⟨hat, hfirst⟩
    · rw [hs] at hd
      have hw : s.drop t0.last = (s.drop t0.last).takeWhile isspace := by
        rw [hd, List.append_nil] at happ; exact happ.symm
      have hwl : ((s.drop t0.last).takeWhile isspace).length = s.length - t0.last := by
        rw [← hw]; simp
      rw [tokenStates_finished _ _ hfin]
      refine ⟨by simp, by simp, fun i h1 h2 _ => gap_space s t0.last i h1 (by omega),
        ⟨[], s.drop t0.last, rfl, by simp, by rw [hw]; exact takeWhile_space _, by simp [interleave]⟩,
        by simpa using hfin, by simp⟩
    · rw [hs] at hat hfirst
      have hnf : t0.nextToken.finish = false := hat.notEnd
      have hns : t0.nextToken.s = s := by rw [nextToken_s, hs]
      have hlast_le : t0.nextToken.last ≤ s.length := by
        have := hat.at_last_le; rw [hns] at this; exact this
      have hlex := hat.at_lexLen_pos
      have hlast := hat.last
      have hfl : t0.nextToken.first < t0.nextToken.last := by omega
      obtain ⟨ha, hb, hc, ⟨gaps, tail, hg1, hg2, hg3, hg4⟩, he, hi⟩ :=
        ih t0.nextToken hns hnf hlast_le (by omega)
      rw [tokenStates_succ, if_neg (by simp [hnf])]
      refine ⟨?_, ?_, ?_, ?_, ?_, ?_⟩
      · intro tk htk
        rcases List.mem_cons.1 htk with rfl | htk
        · exact ⟨hns, hnf, by omega, hfl, hlast_le⟩
        · obtain ⟨h1, h2, h3, h4, h5⟩ := ha tk htk
          exact ⟨h1, h2, by omega, h4, h5⟩
      · exact List.Pairwise.cons (fun b hb1 => (ha b hb1).2.2.1) hb
      · intro i h1 h2 hno
        by_cases hi1 : i < t0.nextToken.first
        · exact gap_space s t0.last i h1 (by omega)
        · by_cases hi2 : i < t0.nextToken.last
          · exact absurd ⟨by omega, hi2⟩ (hno _ (List.mem_cons_self _ _))
          · exact hc i (by omega) h2 (fun tk htk => hno tk (List.mem_cons_of_mem _ htk))
      · refine ⟨(s.drop t0.last).takeWhile isspace :: gaps, tail, by simp [hg1], ?_, hg3, ?_⟩
        · intro g hg
          rcases List.mem_cons.1 hg with rfl | hg
          · exact takeWhile_space _
          · exact hg2 g hg
        · simp only [List.map_cons, interleave, List.append_assoc]
          rw [← hg4, hat.at_tokenStr]
          have hdl := hat.at_drop_last
          rw [hns] at hdl
          rw [hdl, List.take_append_drop]
          exact happ.symm
      · rw [List.length_cons, Function.iterate_succ_apply]
        exact he
      · intro i hi2
        cases i with
        | zero => simp
        | succ j =>
          rw [List.getElem?_cons_succ, Function.iterate_succ_apply]
          exact hi j (by simpa using hi2)

theorem tokenStates_length_le : ∀ (n : Nat) (tk : Token), (tokenStates n tk).length ≤ n := by
  intro n
  induction n with
  | zero => intro tk; simp [tokenStates]
  | succ k ih =>
    intro tk
    rw [tokenStates_succ]
    split_ifs
    · simp
    · simp only [List.length_cons]
      have := ih tk.nextToken
      omega

theorem tokensOf_spec (s : List Char) :
    (∀ tk ∈ tokensOf s, tk.s = s ∧ tk.finish = false ∧ tk.first < tk.last ∧
      tk.last ≤ s.length) ∧
    List.Pairwise (fun a b => a.last ≤ b.first) (tokensOf s) ∧
    (∀ i, i < s.length → (∀ tk ∈ tokensOf s, ¬ (tk.first ≤ i ∧ i < tk.last)) →
      isspace (strAt s i) = true) ∧
    (∃ gaps tail, gaps.length = (tokensOf s).length ∧ (∀ g ∈ gaps, Blank g) ∧ Blank tail ∧
      s = interleave gaps ((tokensOf s).map Token.tokenStr) ++ tail) ∧
    (Nat.iterate Token.nextToken ((tokensOf s).length + 1) (Token.init s)).finish = true ∧
    (∀ i, i < (tokensOf s).length →
      (tokensOf s)[i]? = some (Nat.iterate Token.nextToken (i + 1) (Token.init s))) := by
  obtain ⟨h1, h2, h3, h4, h5, h6⟩ :=
    tokenStates_spec s s.length (Token.init s) rfl rfl (Nat.zero_le _) (by simp [Token.init])
  refine ⟨fun tk htk => ?_, h2, fun i hi hno => h3 i (Nat.zero_le _) hi hno, ?_, h5, h6⟩
  · obtain ⟨a, b, _, c, d⟩ := h1 tk htk
    exact ⟨a, b, c, d⟩
  · simpa [Token.init] using h4

/-- C26 (tokenization is a lossless partition).  For every text `s`, the spans
`[first, last)` of the tokens that successive `nextToken` calls produce until the stream
is finished are non-empty and lie within `0..s.size()`; each starts at or after the end of
the one before; every character of `s` outside all spans is whitespace; each token text is
the slice of `s` at its span; and `s` is the concatenation, in order, of a stretch of
whitespace and a token text for every token, followed by a last stretch of whitespace.
The list of tokens is complete: its entries are the states after 1, 2, ... calls of
`nextToken`, and one more call finishes the stream. -/
theorem tokenization_partition (s : List Char) :
    (∀ p ∈ tokenSpans s, p.1 < p.2 ∧ p.2 ≤ s.length) ∧
    List.Pairwise (fun p q => p.2 ≤ q.1) (tokenSpans s) ∧
    (∀ i, i < s.length → (∀ p ∈ tokenSpans s, ¬ (p.1 ≤ i ∧ i < p.2)) →
      isspace (strAt s i) = true) ∧
    tokenTexts s = (tokenSpans s).map (fun p => (s.drop p.1).take (p.2 - p.1)) ∧
    (∃ gaps tail, gaps.length = (tokenTexts s).length ∧ (∀ g ∈ gaps, Blank g) ∧ Blank tail ∧
      s = interleave gaps (tokenTexts s) ++ tail) ∧
    (Nat.iterate Token.nextToken ((tokensOf s).length + 1) (Token.init s)).isEnd = true ∧
    (∀ i, i < (tokensOf s).length →
      (tokensOf s)[i]? = some (Nat.iterate Token.nextToken (i + 1) (Token.init s)) ∧
      (Nat.iterate Token.nextToken (i + 1) (Token.init s)).isEnd = false) := by
  obtain ⟨h1, h2, h3, ⟨gaps, tail, hg1, hg2, hg3, hg4⟩, h5, h6⟩ := tokensOf_spec s
  refine ⟨?_, ?_, ?_, ?_, ⟨gaps, tail, by simpa [tokenTexts] using hg1, hg2, hg3, hg4⟩, h5, ?_⟩
  · intro p hp
    simp only [tokenSpans, List.mem_map] at hp
    obtain ⟨tk, htk, rfl⟩ := hp
    exact ⟨(h1 tk htk).2.2.1, (h1 tk htk).2.2.2⟩
  · simp only [tokenSpans, List.pairwise_map]
    exact h2
  · intro i hi hno
    apply h3 i hi
    intro tk htk
    exact hno (tk.first, tk.last) (by simp only [tokenSpans, List.mem_map]; exact ⟨tk, htk, rfl⟩)
  · simp only [tokenTexts, tokenSpans, List.map_map]
    apply List.map_congr_left
    intro tk htk
    simp [Token.tokenStr, (h1 tk htk).1]
  · intro i hi
    refine ⟨h6 i hi, ?_⟩
    have hmem := List.getElem?_mem (h6 i hi)
    exact (h1 _ hmem).2.1

theorem objectRound_advances (pv : Token → Bool → Step Handle) (hpv : StepOk pv)
    (st : ObjectType) (res : Members) (key : Option (List Char)) (value : Handle) (tk : Token)
    (e : Bool) (st1 : ObjectType) (res1 : Members) (key1 : Option (List Char))
    (value1 : Handle) (tk1 : Token) (e1 : Bool)
    (h : objectRound pv st res key value tk e = some ((st1, res1, key1, value1), tk1, e1))
    (hst : st ≠ .END) : Advances tk e tk1 e1 := by
  cases st with
  | WAIT_KEY_OR_END =>
    rcases matchChar_cases tk (Char.ofNat 125) with ⟨h1, _⟩ | h1
    · simp only [objectRound, h1, if_true, Option.some.injEq, Prod.mk.injEq] at h
      obtain ⟨⟨rfl, rfl, rfl, rfl⟩, rfl, rfl⟩ := h
      exact advances_next tk e
    · simp only [objectRound, h1, Bool.false_eq_true, if_false, Option.some.injEq,
        Prod.mk.injEq] at h
      obtain ⟨⟨rfl, rfl, rfl, rfl⟩, rfl, rfl⟩ := h
      exact (objectWaitKey_ok tk tk e (moves_refl tk e)).1
  | WAIT_KEY =>
    simp only [objectRound, Option.some.injEq, Prod.mk.injEq] at h
    obtain ⟨⟨rfl, rfl, rfl, rfl⟩, rfl, rfl⟩ := h
    exact (objectWaitKey_ok tk tk e (moves_refl tk e)).1
  | WAIT_COLON =>
    rcases matchChar_cases tk ':' with ⟨h1, _⟩ | h1
    · simp only [objectRound, h1, if_true, Option.some.injEq, Prod.mk.injEq] at h
      obtain ⟨⟨rfl, rfl, rfl, rfl⟩, rfl, rfl⟩ := h
      exact advances_next tk e
    · simp only [objectRound, h1, Bool.false_eq_true, if_false, Option.some.injEq,
        Prod.mk.injEq] at h
      obtain ⟨⟨rfl, rfl, rfl, rfl⟩, rfl, rfl⟩ := h
      exact advances_stay tk e
  | WAIT_VALUE =>
    simp only [objectRound] at h
    cases hp : pv tk e with
    | none => rw [hp] at h; cases h
    | some r =>
      obtain ⟨v, t1, e1a⟩ := r
      rw [hp] at h
      simp only [Option.some.injEq, Prod.mk.injEq] at h
      obtain ⟨⟨rfl, rfl, rfl, rfl⟩, rfl, rfl⟩ := h
      exact (hpv _ _ _ _ _ hp).1
  | WAIT_COMMA_OR_END =>
    cases key with
    | none => simp [objectRound] at h
    | some k =>
      rcases matchChar_cases tk (Char.ofNat 125) with ⟨h1, _⟩ | h1
      · simp only [objectRound, h1, if_true, true_or, Option.some.injEq, Prod.mk.injEq] at h
        obtain ⟨⟨rfl, rfl, rfl, rfl⟩, rfl, rfl⟩ := h
        exact advances_next tk e
      · rcases matchChar_cases tk ',' with ⟨h2, _⟩ | h2
        · simp [objectRound, h1, h2] at h
          obtain ⟨⟨rfl, rfl, rfl, rfl⟩, rfl, rfl⟩ := h
          exact advances_next tk e
        · simp [objectRound, h1, h2] at h
          obtain ⟨⟨rfl, rfl, rfl, rfl⟩, rfl, rfl⟩ := h
          exact advances_stay tk e
  | END => exact absurd rfl hst

theorem advances_taken {a b : Token} {e0 : Bool} (h : Advances a e0 b false)
    (hf : a.finish = false) : ∃ n, 0 < n ∧ b = Nat.iterate Token.nextToken n a := by
  obtain ⟨_, n, hn, hp⟩ := h
  exact ⟨n, hp rfl hf, hn⟩

/-- C25 (parsing terminates).  For every text `s`, `parse` returns: the budget of
`s.size() + 2` nested calls and loop rounds is never used up and no empty key is
dereferenced.  The reasons, each for every state: a `nextToken` call on an unfinished
stream (cursor within the text) finishes it or moves the cursor strictly forward, within
the text; the tokenizer produces at most `s.size()` tokens and is then finished; a
`parseValue` call on an unfinished stream that ends with the flag clear has advanced the
stream by at least one token; the loops of `parseArray` and `parseObject` are their rounds
repeated while the stream is unfinished, the flag clear and the state not `END`; and a
round entered so that ends with the flag clear has advanced the stream by at least one token
(so also a round that reaches `END`). -/
theorem parsing_terminates (s : List Char) :
    (∃ r, parse s = some r) ∧
    (∀ tk : Token, tk.finish = false → tk.last ≤ tk.s.length →
      tk.nextToken.finish = true ∨
        (tk.last < tk.nextToken.last ∧ tk.nextToken.last ≤ tk.s.length)) ∧
    ((tokensOf s).length ≤ s.length ∧
      (Nat.iterate Token.nextToken ((tokensOf s).length + 1) (Token.init s)).isEnd = true) ∧
    (∀ f tk h tk1, tk.finish = false → parseValue f tk false = some (h, tk1, false) →
      ∃ n, 0 < n ∧ tk1 = Nat.iterate Token.nextToken n tk) ∧
    (∀ f fuel st res tk e,
      parseArrayLoop (parseValue f) (fuel + 1) st res tk e =
        if tk.isEnd = true ∨ e = true ∨ st = .END then some (res, tk, e)
        else
          match arrayRound (parseValue f) st res tk e with
          | none => none
          | some ((st1, res1), tk1, e1) => parseArrayLoop (parseValue f) fuel st1 res1 tk1 e1) ∧
    (∀ f fuel st res key value tk e,
      parseObjectLoop (parseValue f) (fuel + 1) st res key value tk e =
        if tk.isEnd = true ∨ e = true ∨ st = .END then some (res, tk, e)
        else
          match objectRound (parseValue f) st res key value tk e with
          | none => none
          | some ((st1, res1, key1, value1), tk1, e1) =>
            parseObjectLoop (parseValue f) fuel st1 res1 key1 value1 tk1 e1) ∧
    (∀ f st res tk st1 res1 tk1, tk.finish = false → st ≠ .END →
      arrayRound (parseValue f) st res tk false = some ((st1, res1), tk1, false) →
      ∃ n, 0 < n ∧ tk1 = Nat.iterate Token.nextToken n tk) ∧
    (∀ f st res key value tk st1 res1 key1 value1 tk1, tk.finish = false → st ≠ .END →
      objectRound (parseValue f) st res key value tk false
        = some ((st1, res1, key1, value1), tk1, false) →
      ∃ n, 0 < n ∧ tk1 = Nat.iterate Token.nextToken n tk) := by
  refine ⟨parse_total s, ?_, ⟨tokenStates_length_le _ _, (tokensOf_spec s).2.2.2.2.1⟩, ?_,
    fun f fuel st res tk e => parseArrayLoop_round _ fuel st res tk e,
    fun f fuel st res key value tk e => parseObjectLoop_round _ fuel st res key value tk e,
    ?_, ?_⟩
  · intro tk hf hl
    rcases nextToken_progress tk hf hl with h1 | ⟨h1, h2, h3⟩
    · exact Or.inl h1
    · exact Or.inr ⟨by omega, h3⟩
  · intro f tk h tk1 hf hp
    exact advances_taken (parseValue_ok f _ _ _ _ _ hp).1 hf
  · intro f st res tk st1 res1 tk1 hf hst hr
    exact advances_taken (arrayRound_ok _ (parseValue_ok f) st res tk false st1 res1 tk1 false
      hr hst).1 hf
  · intro f st res key value tk st1 res1 key1 value1 tk1 hf hst hr
    exact advances_taken (objectRound_advances _ (parseValue_ok f) st res key value tk false
      st1 res1 key1 value1 tk1 false hr hst) hf


/-! ## Claim C22: whitespace insensitivity -/

theorem sameStream_next {a b : Token} (h : SameStream a b) :
    SameStream a.nextToken b.nextToken := by
  cases h with
  | done _ _ ha hb =>
    rw [nextToken_finished a ha, nextToken_finished b hb]
    exact SameStream.done a b ha hb
  | token _ _ _ _ _ hn => exact hn

theorem sameStream_finish {a b : Token} (h : SameStream a b) : a.finish = b.finish := by
  cases h with
  | done _ _ ha hb => rw [ha, hb]
  | token _ _ ha hb _ _ => rw [ha, hb]

theorem sameStream_token {a b : Token} (h : SameStream a b) (hf : a.finish = false) :
    SameToken a b := by
  cases h with
  | done _ _ ha hb => rw [hf] at ha; cases ha
  | token _ _ _ _ ht _ => exact ht

theorem matchChar_same {a b : Token} (hs : SameStream a b) (hf : a.finish = false) (c : Char) :
    (matchChar a c).1 = (matchChar b c).1 ∧ SameStream (matchChar a c).2 (matchChar b c).2 ∧
    (((matchChar a c).1 = true ∧ (matchChar a c).2 = a.nextToken ∧ (matchChar b c).2 = b.nextToken
        ∧ a.atIdx 0 = c ∧ b.atIdx 0 = c) ∨
      ((matchChar a c).1 = false ∧ (matchChar a c).2 = a ∧ (matchChar b c).2 = b)) := by
  obtain ⟨hpos, hsz, _, hat⟩ := sameStream_token hs hf
  have h0 := hat 0 hpos
  have hc : (a.size = 1 ∧ a.atIdx 0 = c) ↔ (b.size = 1 ∧ b.atIdx 0 = c) := by
    rw [hsz, h0]
  by_cases hb : b.size = 1 ∧ b.atIdx 0 = c
  · have ha := hc.2 hb
    have e1 : matchChar a c = (true, a.nextToken) := by simp [matchChar, ha]
    have e2 : matchChar b c = (true, b.nextToken) := by simp [matchChar, hb]
    rw [e1, e2]
    exact ⟨rfl, sameStream_next hs, Or.inl ⟨rfl, rfl, rfl, ha.2, hb.2⟩⟩
  · have ha : ¬ (a.size = 1 ∧ a.atIdx 0 = c) := fun h => hb (hc.1 h)
    have e1 : matchChar a c = (false, a) := by
      unfold matchChar; simp only [ha, decide_False]; rfl
    have e2 : matchChar b c = (false, b) := by
      unfold matchChar; simp only [hb, decide_False]; rfl
    rw [e1, e2]
    exact ⟨rfl, hs, Or.inr ⟨rfl, rfl, rfl⟩⟩

theorem parseStringLoop_same {a b : Token} (h : SameToken a b) (t : Nat) (ht : t ≤ a.size) :
    ∀ (fuel i : Nat) (acc : List Char),
      parseStringLoop a t fuel i acc = parseStringLoop b t fuel i acc := by
  obtain ⟨_, hsz, _, hat⟩ := h
  intro fuel
  induction fuel with
  | zero => intro i acc; rfl
  | succ k ih =>
    intro i acc
    rw [parseStringLoop, parseStringLoop]
    by_cases hi : i + 1 < t
    · rw [if_pos hi, if_pos hi, ← hat i (by omega), ← hat (i + 1) (by omega)]
      simp only
      rw [ih, ih]
    · rw [if_neg hi, if_neg hi]

theorem matchNumberLoop_same {a b : Token} (h : SameToken a b) :
    ∀ (fuel i : Nat) (st : NumberStatus),
      matchNumberLoop a fuel i st = matchNumberLoop b fuel i st := by
  obtain ⟨_, hsz, _, hat⟩ := h
  intro fuel
  induction fuel with
  | zero => intro i st; rfl
  | succ k ih =>
    intro i st
    rw [matchNumberLoop, matchNumberLoop, ← hsz]
    by_cases hi : i < a.size
    · rw [if_pos hi, if_pos hi, ← hat i hi]
      cases st.step (a.atIdx i) with
      | none => rfl
      | some st1 => exact ih (i + 1) st1
    · rw [if_neg hi, if_neg hi]

theorem matchNumber_same {a b : Token} (h : SameToken a b) : matchNumber a = matchNumber b := by
  unfold matchNumber
  rw [matchNumberLoop_same h, h.2.1]

theorem parseString_same {a b : Token} (hs : SameStream a b) (hf : a.finish = false)
    (e : Bool) : SameOut (parseString a e) (parseString b e) := by
  have ht := sameStream_token hs hf
  obtain ⟨hpos, hsz, hstr, hat⟩ := sameStream_token hs hf
  have hloop := parseStringLoop_same ht a.size (le_refl _) a.size 1 []
  unfold parseString
  simp only
  rw [← hsz, ← hat 0 hpos, ← hat (a.size - 1) (by omega), ← hloop]
  split_ifs
  · exact ⟨rfl, rfl, hs⟩
  · cases parseStringLoop a a.size a.size 1 [] with
    | none => exact ⟨rfl, rfl, hs⟩
    | some s => exact ⟨rfl, rfl, sameStream_next hs⟩

theorem parseInt_same {a b : Token} (hs : SameStream a b) (hf : a.finish = false)
    (e : Bool) : SameOut (parseInt a e) (parseInt b e) := by
  have ht := sameStream_token hs hf
  unfold parseInt
  simp only
  rw [← matchNumber_same ht, ← ht.2.2.1]
  split_ifs
  · exact ⟨rfl, rfl, hs⟩
  · exact ⟨rfl, rfl, sameStream_next hs⟩
  · exact ⟨rfl, rfl, sameStream_next hs⟩

theorem parseUInt_same {a b : Token} (hs : SameStream a b) (hf : a.finish = false)
    (e : Bool) : SameOut (parseUInt a e) (parseUInt b e) := by
  have ht := sameStream_token hs hf
  unfold parseUInt
  simp only
  rw [← matchNumber_same ht, ← ht.2.2.1]
  split_ifs
  · exact ⟨rfl, rfl, hs⟩
  · exact ⟨rfl, rfl, sameStream_next hs⟩
  · exact ⟨rfl, rfl, sameStream_next hs⟩

theorem parseBool_same {a b : Token} (hs : SameStream a b) (hf : a.finish = false)
    (e : Bool) : SameOut (parseBool a e) (parseBool b e) := by
  obtain ⟨hpos, hsz, hstr, hat⟩ := sameStream_token hs hf
  have hc1 : (b.size = 4 ∧ b.atIdx 0 = 't' ∧ b.atIdx 1 = 'r' ∧ b.atIdx 2 = 'u'
      ∧ b.atIdx 3 = 'e') ↔ (a.size = 4 ∧ a.atIdx 0 = 't' ∧ a.atIdx 1 = 'r' ∧ a.atIdx 2 = 'u'
      ∧ a.atIdx 3 = 'e') := by
    constructor
    · rintro ⟨h4, h0, h1, h2, h3⟩
      have h4a : a.size = 4 := by omega
      exact ⟨h4a, by rw [hat 0 (by omega)]; exact h0, by rw [hat 1 (by omega)]; exact h1,
        by rw [hat 2 (by omega)]; exact h2, by rw [hat 3 (by omega)]; exact h3⟩
    · rintro ⟨h4, h0, h1, h2, h3⟩
      exact ⟨by omega, by rw [← hat 0 (by omega)]; exact h0, by rw [← hat 1 (by omega)]; exact h1,
        by rw [← hat 2 (by omega)]; exact h2, by rw [← hat 3 (by omega)]; exact h3⟩
  have hc2 : (b.size = 5 ∧ b.atIdx 0 = 'f' ∧ b.atIdx 1 = 'a' ∧ b.atIdx 2 = 'l'
      ∧ b.atIdx 3 = 's' ∧ b.atIdx 4 = 'e') ↔ (a.size = 5 ∧ a.atIdx 0 = 'f' ∧ a.atIdx 1 = 'a'
      ∧ a.atIdx 2 = 'l' ∧ a.atIdx 3 = 's' ∧ a.atIdx 4 = 'e') := by
    constructor
    · rintro ⟨h5, h0, h1, h2, h3, h4⟩
      have h5a : a.size = 5 := by omega
      exact ⟨h5a, by rw [hat 0 (by omega)]; exact h0, by rw [hat 1 (by omega)]; exact h1,
        by rw [hat 2 (by omega)]; exact h2, by rw [hat 3 (by omega)]; exact h3,
        by rw [hat 4 (by omega)]; exact h4⟩
    · rintro ⟨h5, h0, h1, h2, h3, h4⟩
      exact ⟨by omega, by rw [← hat 0 (by omega)]; exact h0, by rw [← hat 1 (by omega)]; exact h1,
        by rw [← hat 2 (by omega)]; exact h2, by rw [← hat 3 (by omega)]; exact h3,
        by rw [← hat 4 (by omega)]; exact h4⟩
  unfold parseBool
  simp only [hc1, hc2]
  split_ifs
  · exact ⟨rfl, rfl, sameStream_next hs⟩
  · exact ⟨rfl, rfl, sameStream_next hs⟩
  · exact ⟨rfl, rfl, hs⟩

theorem parseNull_same {a b : Token} (hs : SameStream a b) (hf : a.finish = false)
    (e : Bool) : SameOut (parseNull a e) (parseNull b e) := by
  obtain ⟨hpos, hsz, hstr, hat⟩ := sameStream_token hs hf
  have hc1 : (b.size = 4 ∧ b.atIdx 0 = 'n' ∧ b.atIdx 1 = 'u' ∧ b.atIdx 2 = 'l'
      ∧ b.atIdx 3 = 'l') ↔ (a.size = 4 ∧ a.atIdx 0 = 'n' ∧ a.atIdx 1 = 'u' ∧ a.atIdx 2 = 'l'
      ∧ a.atIdx 3 = 'l') := by
    constructor
    · rintro ⟨h4, h0, h1, h2, h3⟩
      have h4a : a.size = 4 := by omega
      exact ⟨h4a, by rw [hat 0 (by omega)]; exact h0, by rw [hat 1 (by omega)]; exact h1,
        by rw [hat 2 (by omega)]; exact h2, by rw [hat 3 (by omega)]; exact h3⟩
    · rintro ⟨h4, h0, h1, h2, h3⟩
      exact ⟨by omega, by rw [← hat 0 (by omega)]; exact h0, by rw [← hat 1 (by omega)]; exact h1,
        by rw [← hat 2 (by omega)]; exact h2, by rw [← hat 3 (by omega)]; exact h3⟩
  unfold parseNull
  simp only [hc1]
  split_ifs
  · exact ⟨rfl, rfl, sameStream_next hs⟩
  · exact ⟨rfl, rfl, hs⟩

theorem nextToken_finish_atIdx (tk : Token) (hf : tk.finish = false)
    (hn : tk.nextToken.finish = true) (i : Nat) : tk.nextToken.atIdx i = tk.atIdx i := by
  unfold Token.nextToken at hn ⊢
  rw [if_neg (by simp [hf])] at hn ⊢
  simp only at hn ⊢
  split_ifs at hn ⊢ with h1 h2 h3
  · rfl
  all_goals (simp only [hf] at hn; cases hn)

theorem arrayWaitValue_same (pv1 pv2 : Token → Bool → Step Handle) (hpv : SameSteps pv1 pv2)
    (res : List Handle) (a b : Token) (e : Bool) (hs : SameStream a b)
    (hok : a.finish = false ∨ (a.atIdx 0 = ']' ∧ b.atIdx 0 = ']'))
    (xa xb : (ArrayType × List Handle) × Token × Bool)
    (ha : arrayWaitValue pv1 res a e = some xa) (hb : arrayWaitValue pv2 res b e = some xb) :
    SameOut xa xb := by
  unfold arrayWaitValue at ha hb
  cases h1 : pv1 a e with
  | none => rw [h1] at ha; cases ha
  | some r1 =>
    cases h2 : pv2 b e with
    | none => rw [h2] at hb; cases hb
    | some r2 =>
      rw [h1] at ha
      rw [h2] at hb
      obtain ⟨v1, t1, e1⟩ := r1
      obtain ⟨v2, t2, e2⟩ := r2
      simp only [Option.some.injEq] at ha hb
      subst ha
      subst hb
      by_cases hf : a.finish = false
      · obtain ⟨hv, he, hst⟩ := hpv.1 a b e _ _ hs hf h1 h2
        simp only at hv he hst
        subst hv
        subst he
        exact ⟨rfl, rfl, hst⟩
      · rcases hok with hok | ⟨ha0, hb0⟩
        · exact absurd hok hf
        · have e1 := hpv.2.1 a e _ ha0 h1
          have e2 := hpv.2.2 b e _ hb0 h2
          simp only [Prod.mk.injEq] at e1 e2
          obtain ⟨rfl, rfl, rfl⟩ := e1
          obtain ⟨rfl, rfl, rfl⟩ := e2
          exact ⟨rfl, rfl, hs⟩

theorem arrayRound_same (pv1 pv2 : Token → Bool → Step Handle) (hpv : SameSteps pv1 pv2)
    (st : ArrayType) (res : List Handle) (a b : Token) (e : Bool) (hs : SameStream a b)
    (hf : a.finish = false) (xa xb : (ArrayType × List Handle) × Token × Bool)
    (ha : arrayRound pv1 st res a e = some xa) (hb : arrayRound pv2 st res b e = some xb) :
    SameOut xa xb := by
  have hfb : b.finish = false := by rw [← sameStream_finish hs]; exact hf
  cases st with
  | WAIT_VALUE_OR_END =>
    simp only [arrayRound] at ha hb
    obtain ⟨_, hms, hcase⟩ := matchChar_same hs hf ']'
    refine arrayWaitValue_same pv1 pv2 hpv res _ _ e hms ?_ xa xb ha hb
    rcases hcase with ⟨_, h2, h3, h4, h5⟩ | ⟨_, h2, h3⟩
    · rw [h2, h3]
      by_cases hn : a.nextToken.finish = false
      · exact Or.inl hn
      · have hna : a.nextToken.finish = true := by simpa using hn
        have hnb : b.nextToken.finish = true := by
          rw [← sameStream_finish (sameStream_next hs)]; exact hna
        exact Or.inr ⟨by rw [nextToken_finish_atIdx a hf hna]; exact h4,
          by rw [nextToken_finish_atIdx b hfb hnb]; exact h5⟩
    · rw [h2]; exact Or.inl hf
  | WAIT_VALUE =>
    exact arrayWaitValue_same pv1 pv2 hpv res a b e hs (Or.inl hf) xa xb ha hb
  | WAIT_COMMA_OR_END =>
    simp only [arrayRound, Option.some.injEq] at ha hb
    subst ha
    subst hb
    obtain ⟨hm1, hms1, hcase1⟩ := matchChar_same hs hf ','
    rcases hcase1 with ⟨h1, h2, h3, _, _⟩ | ⟨h1, h2, h3⟩
    · have h1b : (matchChar b ',').1 = true := by rw [← hm1]; exact h1
      simp only [h1, h1b, if_true, true_or]
      exact ⟨rfl, rfl, hms1⟩
    · have h1b : (matchChar b ',').1 = false := by rw [← hm1]; exact h1
      obtain ⟨hm2, hms2, _⟩ := matchChar_same hs hf ']'
      simp only [h1, h1b, Bool.false_eq_true, if_false, false_or, h2, h3, hm2]
      exact ⟨rfl, rfl, hms2⟩
  | END =>
    simp only [arrayRound, Option.some.injEq] at ha hb
    subst ha
    subst hb
    exact ⟨rfl, rfl, hs⟩

theorem arrayLoop_same (pv1 pv2 : Token → Bool → Step Handle) (hpv : SameSteps pv1 pv2) :
    ∀ (n1 n2 : Nat) (st : ArrayType) (res : List Handle) (a b : Token) (e : Bool)
      (ra rb : List Handle × Token × Bool), SameStream a b →
      parseArrayLoop pv1 n1 st res a e = some ra → parseArrayLoop pv2 n2 st res b e = some rb →
      SameOut ra rb := by
  intro n1
  induction n1 with
  | zero => intro n2 st res a b e ra rb _ ha; simp [parseArrayLoop] at ha
  | succ k1 ih =>
    intro n2 st res a b e ra rb hs ha hb
    cases n2 with
    | zero => simp [parseArrayLoop] at hb
    | succ k2 =>
      rw [parseArrayLoop_round] at ha hb
      have hfin := sameStream_finish hs
      simp only [isEnd_eq] at ha hb
      have hxb : (b.finish = true ∨ e = true ∨ st = .END) ↔
          (a.finish = true ∨ e = true ∨ st = .END) := by rw [hfin]
      by_cases hx : a.finish = true ∨ e = true ∨ st = .END
      · rw [if_pos hx] at ha
        rw [if_pos (hxb.2 hx)] at hb
        simp only [Option.some.injEq] at ha hb
        subst ha
        subst hb
        exact ⟨rfl, rfl, hs⟩
      · rw [if_neg hx] at ha
        rw [if_neg (fun h => hx (hxb.1 h))] at hb
        have hf : a.finish = false := by
          cases hfa : a.finish with
          | false => rfl
          | true => exact absurd (Or.inl hfa) hx
        cases h1 : arrayRound pv1 st res a e with
        | none => rw [h1] at ha; cases ha
        | some xa =>
          cases h2 : arrayRound pv2 st res b e with
          | none => rw [h2] at hb; cases hb
          | some xb =>
            rw [h1] at ha
            rw [h2] at hb
            obtain ⟨h3, h4, h5⟩ := arrayRound_same pv1 pv2 hpv st res a b e hs hf xa xb h1 h2
            obtain ⟨⟨st1, res1⟩, t1, e1⟩ := xa
            obtain ⟨⟨st2, res2⟩, t2, e2⟩ := xb
            simp only [Prod.mk.injEq] at h3 h4 h5
            obtain ⟨rfl, rfl⟩ := h3
            subst h4
            exact ih k2 _ _ _ _ _ ra rb h5 ha hb

theorem parseArray_same (pv1 pv2 : Token → Bool → Step Handle) (hpv : SameSteps pv1 pv2)
    (n1 n2 : Nat) (a b : Token) (e : Bool) (hs : SameStream a b) (hf : a.finish = false)
    (ra rb : Option (List Handle) × Token × Bool)
    (ha : parseArray pv1 n1 a e = some ra) (hb : parseArray pv2 n2 b e = some rb) :
    SameOut ra rb := by
  unfold parseArray at ha hb
  simp only at ha hb
  obtain ⟨hm, hms, hcase⟩ := matchChar_same hs hf '['
  rcases hcase with ⟨h1, h2, h3, _, _⟩ | ⟨h1, h2, h3⟩
  · have h1b : (matchChar b '[').1 = true := by rw [← hm]; exact h1
    rw [h1, h2] at ha
    rw [h1b, h3] at hb
    simp only [Bool.true_eq_false, if_false] at ha hb
    cases hl1 : parseArrayLoop pv1 n1 .WAIT_VALUE_OR_END [] a.nextToken e with
    | none => rw [hl1] at ha; cases ha
    | some x1 =>
      cases hl2 : parseArrayLoop pv2 n2 .WAIT_VALUE_OR_END [] b.nextToken e with
      | none => rw [hl2] at hb; cases hb
      | some x2 =>
        rw [hl1] at ha
        rw [hl2] at hb
        obtain ⟨h4, h5, h6⟩ := arrayLoop_same pv1 pv2 hpv n1 n2 _ _ _ _ e x1 x2
          (sameStream_next hs) hl1 hl2
        obtain ⟨r1, t1, e1⟩ := x1
        obtain ⟨r2, t2, e2⟩ := x2
        simp only [Option.some.injEq] at ha hb h4 h5 h6
        subst ha
        subst hb
        subst h4
        subst h5
        exact ⟨rfl, rfl, h6⟩
  · have h1b : (matchChar b '[').1 = false := by rw [← hm]; exact h1
    rw [h1, h2] at ha
    rw [h1b, h3] at hb
    simp only [if_true, Option.some.injEq] at ha hb
    subst ha
    subst hb
    exact ⟨rfl, rfl, hs⟩

theorem objectWaitKey_same {a b : Token} (hs : SameStream a b) (hf : a.finish = false)
    (e : Bool) :
    (objectWaitKey a e).1 = (objectWaitKey b e).1 ∧
      (objectWaitKey a e).2.1 = (objectWaitKey b e).2.1 ∧
      (objectWaitKey a e).2.2.2 = (objectWaitKey b e).2.2.2 ∧
      SameStream (objectWaitKey a e).2.2.1 (objectWaitKey b e).2.2.1 := by
  obtain ⟨h1, h2, h3⟩ := parseString_same hs hf e
  exact ⟨rfl, h1, h2, h3⟩

theorem objectRound_same (pv1 pv2 : Token → Bool → Step Handle) (hpv : SameSteps pv1 pv2)
    (st : ObjectType) (res : Members) (key : Option (List Char)) (value : Handle)
    (a b : Token) (e : Bool) (hs : SameStream a b) (hf : a.finish = false)
    (xa xb : (ObjectType × Members × Option (List Char) × Handle) × Token × Bool)
    (ha : objectRound pv1 st res key value a e = some xa)
    (hb : objectRound pv2 st res key value b e = some xb) : SameOut xa xb := by
  cases st with
  | WAIT_KEY_OR_END =>
    obtain ⟨hm, hms, hcase⟩ := matchChar_same hs hf (Char.ofNat 125)
    rcases hcase with ⟨h1, h2, h3, _, _⟩ | ⟨h1, h2, h3⟩
    · have h1b : (matchChar b (Char.ofNat 125)).1 = true := by rw [← hm]; exact h1
      simp only [objectRound, h1, h1b, if_true, Option.some.injEq, h2, h3] at ha hb
      subst ha
      subst hb
      exact ⟨rfl, rfl, sameStream_next hs⟩
    · have h1b : (matchChar b (Char.ofNat 125)).1 = false := by rw [← hm]; exact h1
      simp only [objectRound, h1, h1b, Bool.false_eq_true, if_false, Option.some.injEq,
        h2, h3] at ha hb
      subst ha
      subst hb
      obtain ⟨k1, k2, k3, k4⟩ := objectWaitKey_same hs hf e
      exact ⟨by simp only [k1, k2], k3, k4⟩
  | WAIT_KEY =>
    simp only [objectRound, Option.some.injEq] at ha hb
    subst ha
    subst hb
    obtain ⟨k1, k2, k3, k4⟩ := objectWaitKey_same hs hf e
    exact ⟨by simp only [k1, k2], k3, k4⟩
  | WAIT_COLON =>
    obtain ⟨hm, hms, _⟩ := matchChar_same hs hf ':'
    simp only [objectRound, Option.some.injEq] at ha hb
    subst ha
    subst hb
    exact ⟨rfl, by simp only [hm], hms⟩
  | WAIT_VALUE =>
    simp only [objectRound] at ha hb
    cases h1 : pv1 a e with
    | none => rw [h1] at ha; cases ha
    | some r1 =>
      cases h2 : pv2 b e with
      | none => rw [h2] at hb; cases hb
      | some r2 =>
        rw [h1] at ha
        rw [h2] at hb
        obtain ⟨hv, he, hst⟩ := hpv.1 a b e _ _ hs hf h1 h2
        obtain ⟨v1, t1, e1⟩ := r1
        obtain ⟨v2, t2, e2⟩ := r2
        simp only [Option.some.injEq] at ha hb hv he hst
        subst ha
        subst hb
        subst hv
        subst he
        exact ⟨rfl, rfl, hst⟩
  | WAIT_COMMA_OR_END =>
    cases key with
    | none => simp [objectRound] at ha
    | some k =>
      simp only [objectRound, Option.some.injEq] at ha hb
      subst ha
      subst hb
      obtain ⟨hm1, hms1, hcase1⟩ := matchChar_same hs hf (Char.ofNat 125)
      rcases hcase1 with ⟨h1, h2, h3, _, _⟩ | ⟨h1, h2, h3⟩
      · have h1b : (matchChar b (Char.ofNat 125)).1 = true := by rw [← hm1]; exact h1
        simp only [h1, h1b, if_true, true_or]
        exact ⟨rfl, rfl, hms1⟩
      · have h1b : (matchChar b (Char.ofNat 125)).1 = false := by rw [← hm1]; exact h1
        obtain ⟨hm2, hms2, _⟩ := matchChar_same hs hf ','
        simp only [h1, h1b, Bool.false_eq_true, if_false, false_or, h2, h3, hm2]
        exact ⟨rfl, rfl, hms2⟩
  | END =>
    simp only [objectRound, Option.some.injEq] at ha hb
    subst ha
    subst hb
    exact ⟨rfl, rfl, hs⟩

theorem objectLoop_same (pv1 pv2 : Token → Bool → Step Handle) (hpv : SameSteps pv1 pv2) :
    ∀ (n1 n2 : Nat) (st : ObjectType) (res : Members) (key : Option (List Char))
      (value : Handle) (a b : Token) (e : Bool)
      (ra rb : Members × Token × Bool), SameStream a b →
      parseObjectLoop pv1 n1 st res key value a e = some ra →
      parseObjectLoop pv2 n2 st res key value b e = some rb → SameOut ra rb := by
  intro n1
  induction n1 with
  | zero => intro n2 st res key value a b e ra rb _ ha; simp [parseObjectLoop] at ha
  | succ k1 ih =>
    intro n2 st res key value a b e ra rb hs ha hb
    cases n2 with
    | zero => simp [parseObjectLoop] at hb
    | succ k2 =>
      rw [parseObjectLoop_round] at ha hb
      have hfin := sameStream_finish hs
      simp only [isEnd_eq] at ha hb
      have hxb : (b.finish = true ∨ e = true ∨ st = .END) ↔
          (a.finish = true ∨ e = true ∨ st = .END) := by rw [hfin]
      by_cases hx : a.finish = true ∨ e = true ∨ st = .END
      · rw [if_pos hx] at ha
        rw [if_pos (hxb.2 hx)] at hb
        simp only [Option.some.injEq] at ha hb
        subst ha
        subst hb
        exact ⟨rfl, rfl, hs⟩
      · rw [if_neg hx] at ha
        rw [if_neg (fun h => hx (hxb.1 h))] at hb
        have hf : a.finish = false := by
          cases hfa : a.finish with
          | false => rfl
          | true => exact absurd (Or.inl hfa) hx
        cases h1 : objectRound pv1 st res key value a e with
        | none => rw [h1] at ha; cases ha
        | some xa =>
          cases h2 : objectRound pv2 st res key value b e with
          | none => rw [h2] at hb; cases hb
          | some xb =>
            rw [h1] at ha
            rw [h2] at hb
            obtain ⟨h3, h4, h5⟩ :=
              objectRound_same pv1 pv2 hpv st res key value a b e hs hf xa xb h1 h2
            obtain ⟨⟨st1, res1, key1, value1⟩, t1, e1⟩ := xa
            obtain ⟨⟨st2, res2, key2, value2⟩, t2, e2⟩ := xb
            simp only [Prod.mk.injEq] at h3 h4 h5
            obtain ⟨rfl, rfl, rfl, rfl⟩ := h3
            subst h4
            exact ih k2 _ _ _ _ _ _ _ ra rb h5 ha hb

theorem parseObject_same (pv1 pv2 : Token → Bool → Step Handle) (hpv : SameSteps pv1 pv2)
    (n1 n2 : Nat) (a b : Token) (e : Bool) (hs : SameStream a b) (hf : a.finish = false)
    (ra rb : Option Members × Token × Bool)
    (ha : parseObject pv1 n1 a e = some ra) (hb : parseObject pv2 n2 b e = some rb) :
    SameOut ra rb := by
  unfold parseObject at ha hb
  simp only at ha hb
  obtain ⟨hm, hms, hcase⟩ := matchChar_same hs hf (Char.ofNat 123)
  rcases hcase with ⟨h1, h2, h3, _, _⟩ | ⟨h1, h2, h3⟩
  · have h1b : (matchChar b (Char.ofNat 123)).1 = true := by rw [← hm]; exact h1
    rw [h1, h2] at ha
    rw [h1b, h3] at hb
    simp only [Bool.true_eq_false, if_false] at ha hb
    cases hl1 : parseObjectLoop pv1 n1 .WAIT_KEY_OR_END [] none none a.nextToken e with
    | none => rw [hl1] at ha; cases ha
    | some x1 =>
      cases hl2 : parseObjectLoop pv2 n2 .WAIT_KEY_OR_END [] none none b.nextToken e with
      | none => rw [hl2] at hb; cases hb
      | some x2 =>
        rw [hl1] at ha
        rw [hl2] at hb
        obtain ⟨h4, h5, h6⟩ := objectLoop_same pv1 pv2 hpv n1 n2 _ _ _ _ _ _ e x1 x2
          (sameStream_next hs) hl1 hl2
        obtain ⟨r1, t1, e1⟩ := x1
        obtain ⟨r2, t2, e2⟩ := x2
        simp only [Option.some.injEq] at ha hb h4 h5 h6
        subst ha
        subst hb
        subst h4
        subst h5
        exact ⟨rfl, rfl, h6⟩
  · have h1b : (matchChar b (Char.ofNat 123)).1 = false := by rw [← hm]; exact h1
    rw [h1, h2] at ha
    rw [h1b, h3] at hb
    simp only [if_true, Option.some.injEq] at ha hb
    subst ha
    subst hb
    exact ⟨rfl, rfl, hs⟩

theorem parseValue_bracket (f : Nat) (tk : Token) (e : Bool) (r : Handle × Token × Bool)
    (h0 : tk.atIdx 0 = ']') (h : parseValue f tk e = some r) : r = (none, tk, true) := by
  cases f with
  | zero => simp [parseValue] at h
  | succ k =>
    cases e with
    | true => rw [parseValue_flag_set] at h; cases h; rfl
    | false =>
      rw [parseValue_reject k tk (by rw [h0]; unfold LeadOk; decide)] at h
      cases h; rfl

theorem sameOut_map {α β : Type} (g : α → β) (x1 x2 : α × Token × Bool) (h : SameOut x1 x2) :
    SameOut (g x1.1, x1.2) (g x2.1, x2.2) :=
  ⟨by simp only [h.1], h.2.1, h.2.2⟩

theorem parseValue_same : ∀ f1 f2 : Nat, SameSteps (parseValue f1) (parseValue f2) := by
  intro f1
  induction f1 with
  | zero =>
    intro f2
    exact ⟨fun a b e ra rb _ _ ha _ => by simp [parseValue] at ha,
      fun tk e r h0 h => parseValue_bracket 0 tk e r h0 h,
      fun tk e r h0 h => parseValue_bracket f2 tk e r h0 h⟩
  | succ k1 ih =>
    intro f2
    refine ⟨?_, fun tk e r h0 h => parseValue_bracket _ tk e r h0 h,
      fun tk e r h0 h => parseValue_bracket f2 tk e r h0 h⟩
    intro a b e ra rb hs hf ha hb
    cases f2 with
    | zero => simp [parseValue] at hb
    | succ k2 =>
      obtain ⟨hpos, _, _, hat⟩ := sameStream_token hs hf
      have h0 := hat 0 hpos
      rw [parseValue] at ha hb
      by_cases he : e = true
      · rw [if_pos he] at ha hb
        simp only [Option.some.injEq] at ha hb
        subst ha
        subst hb
        exact ⟨rfl, rfl, hs⟩
      · rw [if_neg he] at ha hb
        simp only at ha hb
        rw [← h0] at hb
        by_cases c1 : a.atIdx 0 = Char.ofNat 123
        · rw [if_pos c1] at ha hb
          cases h1 : parseObject (parseValue k1) k1 a e with
          | none => rw [h1] at ha; cases ha
          | some x1 =>
            cases h2 : parseObject (parseValue k2) k2 b e with
            | none => rw [h2] at hb; cases hb
            | some x2 =>
              rw [h1] at ha
              rw [h2] at hb
              simp only [Option.map_some', Option.some.injEq] at ha hb
              subst ha
              subst hb
              exact sameOut_map _ x1 x2
                (parseObject_same _ _ (ih k2) k1 k2 a b e hs hf x1 x2 h1 h2)
        · rw [if_neg c1] at ha hb
          by_cases c2 : a.atIdx 0 = '['
          · rw [if_pos c2] at ha hb
            cases h1 : parseArray (parseValue k1) k1 a e with
            | none => rw [h1] at ha; cases ha
            | some x1 =>
              cases h2 : parseArray (parseValue k2) k2 b e with
              | none => rw [h2] at hb; cases hb
              | some x2 =>
                rw [h1] at ha
                rw [h2] at hb
                simp only [Option.map_some', Option.some.injEq] at ha hb
                subst ha
                subst hb
                exact sameOut_map _ x1 x2
                  (parseArray_same _ _ (ih k2) k1 k2 a b e hs hf x1 x2 h1 h2)
          · rw [if_neg c2] at ha hb
            by_cases c3 : a.atIdx 0 = cQuote
            · rw [if_pos c3] at ha hb
              simp only [Option.some.injEq] at ha hb
              subst ha
              subst hb
              exact sameOut_map _ _ _ (parseString_same hs hf e)
            · rw [if_neg c3] at ha hb
              by_cases c4 : a.atIdx 0 = '-'
              · rw [if_pos c4] at ha hb
                simp only [Option.some.injEq] at ha hb
                subst ha
                subst hb
                exact parseInt_same hs hf e
              · rw [if_neg c4] at ha hb
                by_cases c5 : isDigit (a.atIdx 0) = true
                · rw [if_pos c5] at ha hb
                  simp only [Option.some.injEq] at ha hb
                  subst ha
                  subst hb
                  exact parseUInt_same hs hf e
                · rw [if_neg c5] at ha hb
                  by_cases c6 : a.atIdx 0 = 'f' ∨ a.atIdx 0 = 't'
                  · rw [if_pos c6] at ha hb
                    simp only [Option.some.injEq] at ha hb
                    subst ha
                    subst hb
                    exact parseBool_same hs hf e
                  · rw [if_neg c6] at ha hb
                    by_cases c7 : a.atIdx 0 = 'n'
                    · rw [if_pos c7] at ha hb
                      simp only [Option.some.injEq] at ha hb
                      subst ha
                      subst hb
                      exact parseNull_same hs hf e
                    · rw [if_neg c7] at ha hb
                      simp only [Option.some.injEq] at ha hb
                      subst ha
                      subst hb
                      exact ⟨rfl, rfl, hs⟩

theorem strAt_take (l : List Char) (n j : Nat) (h : j < n) : strAt (l.take n) j = strAt l j := by
  simp [strAt, List.getD_eq_getElem?_getD, List.getElem?_take, h]

theorem sameToken_of_at {a b : Token} {xa xb : List Char} (ha : At a xa) (hb : At b xb)
    (h : a.tokenStr = b.tokenStr) : SameToken a b := by
  have h1 := ha.at_tokenStr
  have h2 := hb.at_tokenStr
  have l1 : a.tokenStr.length = lexLen xa := by
    rw [h1, List.length_take]; exact Nat.min_eq_left (lexLen_le xa)
  have l2 : b.tokenStr.length = lexLen xb := by
    rw [h2, List.length_take]; exact Nat.min_eq_left (lexLen_le xb)
  have hsz : a.size = b.size := by
    rw [ha.at_size, hb.at_size, ← l1, ← l2, h]
  refine ⟨by rw [ha.at_size]; exact ha.at_lexLen_pos, hsz, h, fun j hj => ?_⟩
  have hja : j < lexLen xa := by rw [← ha.at_size]; exact hj
  have hjb : j < lexLen xb := by rw [← hb.at_size, ← hsz]; exact hj
  rw [ha.at_atIdx, hb.at_atIdx, ← strAt_take xa _ j hja, ← strAt_take xb _ j hjb, ← h1, ← h2, h]

theorem live_left_zero {tk : Token} (h : Live tk) (h0 : tk.left = 0) : tk.finish = true := by
  cases hf : tk.finish with
  | true => rfl
  | false => have := left_pos h hf; omega

theorem tokenStates_nil_finished (n : Nat) (tk : Token) (hl : Live tk) (hn : tk.left ≤ n)
    (h : tokenStates n tk = []) : tk.finish = true := by
  cases n with
  | zero => exact live_left_zero hl (by omega)
  | succ k =>
    rw [tokenStates_succ] at h
    by_cases hf : tk.finish = true
    · exact hf
    · rw [if_neg hf] at h; cases h

theorem sameStream_of_texts : ∀ (n1 n2 : Nat) (a b : Token), Live a → Live b →
    a.left ≤ n1 → b.left ≤ n2 →
    (tokenStates n1 a).map Token.tokenStr = (tokenStates n2 b).map Token.tokenStr →
    SameStream a b := by
  intro n1
  induction n1 with
  | zero =>
    intro n2 a b hla hlb h1 h2 h
    have hfa := live_left_zero hla (by omega)
    rw [tokenStates_finished _ _ hfa] at h
    have hnil : tokenStates n2 b = [] := by
      simpa using h.symm
    exact SameStream.done a b hfa (tokenStates_nil_finished n2 b hlb h2 hnil)
  | succ k1 ih =>
    intro n2 a b hla hlb h1 h2 h
    by_cases hfa : a.finish = true
    · rw [tokenStates_finished _ _ hfa] at h
      have hnil : tokenStates n2 b = [] := by
        simpa using h.symm
      exact SameStream.done a b hfa (tokenStates_nil_finished n2 b hlb h2 hnil)
    · have hfa2 : a.finish = false := by simpa using hfa
      rw [tokenStates_succ, if_neg hfa] at h
      cases n2 with
      | zero => simp [tokenStates] at h
      | succ k2 =>
        rw [tokenStates_succ] at h
        by_cases hfb : b.finish = true
        · rw [if_pos hfb] at h; simp at h
        · have hfb2 : b.finish = false := by simpa using hfb
          rw [if_neg hfb] at h
          simp only [List.map_cons, List.cons.injEq] at h
          obtain ⟨xa, hxa⟩ := live_unfinished_at hla hfa2
          obtain ⟨xb, hxb⟩ := live_unfinished_at hlb hfb2
          have la := left_next_lt hla hfa2
          have lb := left_next_lt hlb hfb2
          exact SameStream.token a b hfa2 hfb2 (sameToken_of_at hxa hxb h.1)
            (ih k2 _ _ (live_next hla) (live_next hlb) (by omega) (by omega) h.2)

theorem texts_of_at : ∀ (n1 n2 : Nat) (a b : Token) (x : List Char), At a x → At b x →
    x.length ≤ n1 → x.length ≤ n2 →
    (tokenStates n1 a).map Token.tokenStr = (tokenStates n2 b).map Token.tokenStr := by
  intro n1
  induction n1 with
  | zero => intro n2 a b x ha _ h1 _; have := ha.at_length_pos; omega
  | succ k1 ih =>
    intro n2 a b x ha hb h1 h2
    cases n2 with
    | zero => have := ha.at_length_pos; omega
    | succ k2 =>
      rw [tokenStates_succ, tokenStates_succ, if_neg (by simp [ha.notEnd]),
        if_neg (by simp [hb.notEnd])]
      simp only [List.map_cons]
      rw [ha.at_tokenStr, hb.at_tokenStr]
      congr 1
      have hl := ha.at_lexLen_pos
      rcases ha.at_next_cases with fa | ⟨na, la⟩
      · have hd : (x.drop (lexLen x)).dropWhile isspace = [] := by
          by_contra hne
          have := (ha.at_next.2 hne).notEnd
          rw [fa] at this; cases this
        have fb := hb.at_next.1 hd
        rw [tokenStates_finished _ _ fa, tokenStates_finished _ _ fb]
      · rcases hb.at_next_cases with fb | ⟨nb, _⟩
        · have hd : (x.drop (lexLen x)).dropWhile isspace ≠ [] := by
            intro h0
            have := na.at_length_pos
            rw [h0] at this; simp at this
          have := (hb.at_next.2 hd).notEnd
          rw [fb] at this; cases this
        · exact ih k2 _ _ _ na nb (by omega) (by omega)

theorem tokenTexts_blank (w t : List Char) (hw : Blank w) :
    tokenTexts (w ++ t) = tokenTexts t := by
  unfold tokenTexts tokensOf
  have p1 := init_pos (w ++ t)
  have p2 := init_pos t
  unfold Pos at p1 p2
  rw [dropWhile_space_append w t hw] at p1
  by_cases hd : t.dropWhile isspace = []
  · rw [tokenStates_finished _ _ (p1.1 hd), tokenStates_finished _ _ (p2.1 hd)]
  · have hlen := dropWhile_length_le isspace t
    exact texts_of_at _ _ _ _ _ (p1.2 hd) (p2.2 hd) (by simp; omega) hlen

theorem parse_same (a b : List Char) (h : tokenTexts a = tokenTexts b) : parse a = parse b := by
  obtain ⟨la, lea⟩ := live_init a
  obtain ⟨lb, leb⟩ := live_init b
  have hs : SameStream (Token.init a).nextToken (Token.init b).nextToken :=
    sameStream_of_texts _ _ _ _ la lb lea leb h
  obtain ⟨ra, hra⟩ := parseValue_total (a.length + 2) _ false la (by omega)
  obtain ⟨rb, hrb⟩ := parseValue_total (b.length + 2) _ false lb (by omega)
  have hout : ra.1 = rb.1 ∧ ra.2.2 = rb.2.2 := by
    by_cases hf : (Token.init a).nextToken.finish = false
    · obtain ⟨h1, h2, _⟩ := (parseValue_same _ _).1 _ _ _ _ _ hs hf hra hrb
      exact ⟨h1, h2⟩
    · have hfa : (Token.init a).nextToken.finish = true := by simpa using hf
      have hfb : (Token.init b).nextToken.finish = true := by
        rw [← sameStream_finish hs]; exact hfa
      have blank : ∀ s : List Char, (Token.init s).nextToken.finish = true →
          ∀ r, parseValue (s.length + 2) (Token.init s).nextToken false = some r →
          r.1 = none ∧ r.2.2 = true := by
        intro s hfin r hr
        have hd : s.dropWhile isspace = [] := by
          by_contra hne
          have := ((init_pos s).2 hne).notEnd
          rw [hfin] at this; cases this
        have htk := nextToken_blank s hd
        have h0 : ¬ LeadOk ((Token.init s).nextToken.atIdx 0) := by
          rw [htk]
          cases s with
          | nil => unfold LeadOk; decide
          | cons c cs =>
            apply space_not_leadOk
            show isspace c = true
            by_contra hc
            simp [List.dropWhile_cons, hc] at hd
        rw [parseValue_reject _ _ h0] at hr
        cases hr
        exact ⟨rfl, rfl⟩
      obtain ⟨h1, h2⟩ := blank a hfa ra hra
      obtain ⟨h3, h4⟩ := blank b hfb rb hrb
      exact ⟨by rw [h1, h3], by rw [h2, h4]⟩
  simp only [parse, hra, hrb, Option.map_some', hout.1, hout.2]

/-- C22 (whitespace insensitivity).  For every two texts `a` and `b` for which the
tokenizer produces the same sequence of token texts, `parse a` and `parse b` both return,
with the same error flag and the same tree; and for every whitespace string `w`, the text
`w ++ a` has the token texts of `a` and `parse (w ++ a)` gives what `parse a` gives. -/
theorem whitespace_insensitive (a b : List Char) (h : tokenTexts a = tokenTexts b) :
    parse a = parse b ∧ (∃ r, parse a = some r) ∧
    ∀ w, Blank w → tokenTexts (w ++ a) = tokenTexts a ∧ parse (w ++ a) = parse a :=
  ⟨parse_same a b h, parse_total a,
    fun w hw => ⟨tokenTexts_blank w a hw, parse_same _ _ (tokenTexts_blank w a hw)⟩⟩

/-- C22 on the texts `[1,"a b"]` and the same tokens spread out with spaces, a tab and a
line feed. -/
theorem whitespace_insensitive_witness :
    parse ['[', '1', ',', cQuote, 'a', ' ', 'b', cQuote, ']']
      = parse [' ', '[', Char.ofNat 9, '1', ' ', ',', Char.ofNat 10, cQuote, 'a', ' ', 'b',
          cQuote, ' ', ']', ' '] :=
  (whitespace_insensitive ['[', '1', ',', cQuote, 'a', ' ', 'b', cQuote, ']']
    [' ', '[', Char.ofNat 9, '1', ' ', ',', Char.ofNat 10, cQuote, 'a', ' ', 'b',
      cQuote, ' ', ']', ' '] (by decide)).1

end json
